import Mathlib

/-!
# Sample-table navigation of the MP4 demuxer (`demuxer.go`)

A shallow embedding of the per-track cursor (`Stream`) and of the multi-track
scheduler (`Demuxer`) of `demuxer.go`, followed by theorems about them.

Conventions of the embedding.

* Go `int` / `int64` values are `Int`s.  The arithmetic on tick values (the
  decode timestamp `dts`, the products `Count * Duration` that feed it) and all
  the arithmetic of `timeToSampleIndex` is two's-complement 64-bit arithmetic,
  written with `wrap64`.  The sample counters, table indices and byte offsets
  walked by `setSampleIndex`, `incSampleIndex` and `sampleCount` are unbounded.
* A `float64` time in seconds is the rational number it denotes; `tsToTime`
  rounds to the nearest `float64` as the Go conversion and division do.
* A Go run-time panic (slice index out of range, nil dereference, negative
  `make` length, integer division by zero) is the result `none` of the outer `Option`.
* A Go `error` return value is the `Option Err` component of a result; the
  receiver is returned with it, because the methods mutate the cursor before
  they return an error.
* The table pointers `ChunkOffset`, `SampleToChunk`, `SampleSize` and
  `TimeToSample` of a sample table are taken to be non-nil; the nilable
  `CompositionOffset` and `SyncSample` are `Option`s.
-/

namespace Mp4

/-! ## Data model -/

/-- Modelled from the spec: one run `(firstChunk, samplesPerChunk)` of the
sample-to-chunk table (`atom.SampleToChunkEntry`, declared outside `demuxer.go`). -/
structure SampleToChunkEntry where
  FirstChunk : Int
  SamplesPerChunk : Int
  deriving DecidableEq, Repr

/-- Modelled from the spec: one run `(count, duration)` of the time-to-sample
table (`atom.TimeToSampleEntry`, declared outside `demuxer.go`). -/
structure TimeToSampleEntry where
  Count : Int
  Duration : Int
  deriving DecidableEq, Repr

/-- Modelled from the spec: one run `(count, offset)` of the composition-offset
table (`atom.CompositionOffsetEntry`, declared outside `demuxer.go`). -/
structure CompositionOffsetEntry where
  Count : Int
  Offset : Int
  deriving DecidableEq, Repr

/-- Modelled from the spec: the per-track sample table (`atom.SampleTable`,
declared outside `demuxer.go`).  Each field holds the `Entries` slice of the
table of the same name; `SampleSize` is the constant size field
`SampleSize.SampleSize` and `SampleSizeEntries` is `SampleSize.Entries`. -/
structure SampleTable where
  ChunkOffset : List Int
  SampleToChunk : List SampleToChunkEntry
  SampleSize : Int
  SampleSizeEntries : List Int
  TimeToSample : List TimeToSampleEntry
  CompositionOffset : Option (List CompositionOffsetEntry)
  SyncSample : Option (List Int)
  deriving DecidableEq, Repr

/-- Modelled from the spec: the codec-parameter value of a track
(`av.CodecData`, an interface of another package); only the answer of its
`IsVideo()` method is used by `demuxer.go`. -/
structure CodecData where
  IsVideo : Bool
  deriving DecidableEq, Repr

/-- Modelled from the spec: the cursor of one track (`Stream`, declared outside
`demuxer.go`): the sample table, the track index, the timescale and the mutable
position fields that `demuxer.go` reads and writes. -/
structure Stream where
  CodecData : CodecData
  sample : SampleTable
  idx : Int
  timeScale : Int
  sampleIndex : Int
  sampleOffsetInChunk : Int
  syncSampleIndex : Int
  dts : Int
  sttsEntryIndex : Int
  sampleIndexInSttsEntry : Int
  cttsEntryIndex : Int
  sampleIndexInCttsEntry : Int
  chunkGroupIndex : Int
  chunkIndex : Int
  sampleIndexInChunk : Int
  deriving DecidableEq, Repr

/-- The error values returned by the functions of `demuxer.go`. -/
inductive Err where
  | cannotLocateChunk
  | sampleIndexOutOfRange
  | cannotLocateStts
  | cannotLocateCtts
  | EOF
  | io
  | moovNotFound
  | sampleTableNotFound
  | parse
  | codecConfig
  deriving DecidableEq, Repr

/-- Slice indexing `xs[i]` with a Go `int` index: `none` is the run-time panic
for an index that is negative or not below the length. -/
def getAt {α : Type} (xs : List α) (i : Int) : Option α :=
  if i < 0 then none else xs[i.toNat]?

/-- The value of a Go `int` or `int64` expression on a 64-bit platform: the
two's-complement representative of `x` in the range from `-2^63` to `2^63 - 1`. -/
def wrap64 (x : Int) : Int :=
  (x + 9223372036854775808) % 18446744073709551616 - 9223372036854775808

/-- The number of binary digits of `n`, by halving at most `fuel` times. -/
def bitLengthAux : Nat → Nat → Nat
  | 0, _ => 0
  | fuel + 1, n => if n = 0 then 0 else bitLengthAux fuel (n / 2) + 1

/-- The number of binary digits of `n`. -/
def bitLength (n : Nat) : Nat := bitLengthAux n n

/-- A finite `float64` value `m * 2 ^ e`, given by an integer significand of at
most 53 bits and an exponent.  The exponent is not bounded: the values built
here, `int64` ticks and their quotients, are far inside the normal range of
`float64`.  Infinities and NaN are not represented. -/
structure Float64 where
  m : Int
  e : Int
  deriving DecidableEq, Repr

/-- The `float64` nearest to `n / d` for positive `n` and `d`, ties to the even
significand (the IEEE 754 default rounding, which Go uses). -/
def Float64.nearest (n d : Nat) : Float64 :=
  let k : Int := 53 + (bitLength d : Int) - (bitLength n : Int)
  let num : Nat := if 0 ≤ k then n * 2 ^ k.toNat else n
  let den : Nat := if 0 ≤ k then d else d * 2 ^ (-k).toNat
  let big : Bool := decide (2 ^ 53 * den ≤ num)
  let den1 : Nat := if big then 2 * den else den
  let e : Int := if big then 1 - k else -k
  let q := num / den1
  let r := num % den1
  let m : Nat :=
    if 2 * r < den1 then q else if den1 < 2 * r then q + 1 else if q % 2 = 0 then q else q + 1
  { m := m, e := e }

/-- The Go conversion `float64(a)` of an `int64`. -/
def Float64.ofInt (a : Int) : Float64 :=
  if a = 0 then ⟨0, 0⟩
  else
    let x := Float64.nearest a.natAbs 1
    ⟨if a < 0 then -x.m else x.m, x.e⟩

/-- The `float64` division `x / y` for a divisor that is not zero.  A zero
divisor, for which Go yields an infinity or NaN, is outside the model: the
result is 0 here. -/
def Float64.div (x y : Float64) : Float64 :=
  if x.m = 0 ∨ y.m = 0 then ⟨0, 0⟩
  else
    let z := Float64.nearest x.m.natAbs y.m.natAbs
    ⟨if (x.m < 0) = (y.m < 0) then z.m else -z.m, z.e + x.e - y.e⟩

/-- The rational number that a `float64` value denotes. -/
def Float64.toRat (x : Float64) : Rat := (x.m : Rat) * 2 ^ x.e

/-- Modelled from the spec: `Stream.tsToTime`, declared outside `demuxer.go`:
a tick count converted to seconds via the track's own timescale, in `float64`
as the result type of `CurrentTime` (lines 325-328) fixes it:
`float64(ts) / float64(self.timeScale)`. -/
def tsToTime (s : Stream) (ts : Int) : Rat :=
  (Float64.div (Float64.ofInt ts) (Float64.ofInt s.timeScale)).toRat

/-- Modelled from the spec: `Stream.timeToTs`, declared outside `demuxer.go`:
seconds converted to ticks via the track's timescale, truncated toward zero as
the Go conversion `int64(...)` does. -/
def timeToTs (s : Stream) (time : Rat) : Int :=
  let q := time * (s.timeScale : Rat)
  if 0 ≤ q then Int.floor q else Int.ceil q

/-! ## `Stream.setSampleIndex` -/

/-- The chunk-group test shared by `setSampleIndex`, `incSampleIndex` and
`sampleCount`:
`if chunkGroupIndex+1 < len(Entries) && chunkIndex+1 == Entries[chunkGroupIndex+1].FirstChunk
 { chunkGroupIndex++ }`; the result is the new `chunkGroupIndex`. -/
def chunkGroupStep (stc : List SampleToChunkEntry) (chunkGroupIndex chunkIndex : Int) :
    Option Int :=
  if chunkGroupIndex + 1 < stc.length then
    match getAt stc (chunkGroupIndex + 1) with
    | none => none
    | some e =>
      if chunkIndex + 1 = e.FirstChunk then some (chunkGroupIndex + 1) else some chunkGroupIndex
  else some chunkGroupIndex

/-- The loop of `setSampleIndex` over the chunks (lines 120-132).  The
arguments are the number of iterations left, the next value `i` of the range
variable, the current value of `self.chunkIndex`, `self.chunkGroupIndex` and
`start`.  The result is `(chunkIndex, chunkGroupIndex, r)` where `r` is
`some sampleIndexInChunk` when the loop left through `break` and `none` when it
ran to the end. -/
def locateChunk (stc : List SampleToChunkEntry) (index : Int) :
    Nat → Int → Int → Int → Int → Option (Int × Int × Option Int)
  | 0, _, chunkIndex, chunkGroupIndex, _ => some (chunkIndex, chunkGroupIndex, none)
  | fuel + 1, i, _, chunkGroupIndex, start =>
    match chunkGroupStep stc chunkGroupIndex i with
    | none => none
    | some g =>
      match getAt stc g with
      | none => none
      | some e =>
        if index ≥ start ∧ index < start + e.SamplesPerChunk then
          some (i, g, some (index - start))
        else locateChunk stc index fuel (i + 1) i g (start + e.SamplesPerChunk)

/-- The loop `for i := index - sampleIndexInChunk; i < index; i++` that adds the
explicit sizes (lines 146-148): iterations left, `i`, accumulated offset. -/
def sumSizes (entries : List Int) : Nat → Int → Int → Option Int
  | 0, _, acc => some acc
  | fuel + 1, i, acc =>
    match getAt entries i with
    | none => none
    | some v => sumSizes entries fuel (i + 1) (acc + v)

/-- The loop of `setSampleIndex` over the time-to-sample runs (lines 155-167),
on the runs not yet visited: `sttsEntryIndex`, `start`, `dts`.  The result is
`(sttsEntryIndex, dts, r)` with `r = some sampleIndexInSttsEntry` when found.
The products of lines 160 and 165 and the additions to `dts` are 64-bit. -/
def locateStts (index : Int) :
    List TimeToSampleEntry → Int → Int → Int → Int × Int × Option Int
  | [], k, _, dts => (k, dts, none)
  | entry :: rest, k, start, dts =>
    if index ≥ start ∧ index < start + entry.Count then
      (k, wrap64 (dts + wrap64 ((index - start) * entry.Duration)), some (index - start))
    else
      locateStts index rest (k + 1) (start + entry.Count)
        (wrap64 (dts + wrap64 (entry.Count * entry.Duration)))

/-- The loop of `setSampleIndex` over the composition-offset runs (lines
177-186), on the runs not yet visited: `cttsEntryIndex`, `start`.  The result is
`(cttsEntryIndex, r)` with `r = some sampleIndexInCttsEntry` when found. -/
def locateCtts (index : Int) : List CompositionOffsetEntry → Int → Int → Int × Option Int
  | [], k, _ => (k, none)
  | entry :: rest, k, start =>
    if index ≥ start ∧ index < start + entry.Count then (k, some (index - start))
    else locateCtts index rest (k + 1) (start + entry.Count)

/-- The loop of `setSampleIndex` over the sync samples (lines 195-200), on the
entries after the one `syncSampleIndex` points at. -/
def locateSync (index : Int) : List Int → Int → Int
  | [], k => k
  | next :: rest, k => if next - 1 > index then k else locateSync index rest (k + 1)

/-- The in-chunk byte offset computed by `setSampleIndex` (lines 138-149) from
`index` and `sampleIndexInChunk`: `some (some offset)`, or `some none` when it
returns the error "sample index out of range". -/
def offsetInChunk (t : SampleTable) (index inChunk : Int) : Option (Option Int) :=
  if t.SampleSize ≠ 0 then some (some (inChunk * t.SampleSize))
  else if index ≥ t.SampleSizeEntries.length then some none
  else
    match sumSizes t.SampleSizeEntries (index - (index - inChunk)).toNat (index - inChunk) 0 with
    | none => none
    | some off => some (some off)

/-- `Stream.setSampleIndex` (lines 115-210). -/
def setSampleIndex (s : Stream) (index : Int) : Option (Stream × Option Err) :=
  match locateChunk s.sample.SampleToChunk index s.sample.ChunkOffset.length 0 s.chunkIndex 0 0 with
  | none => none
  | some (ci, cgi, none) =>
    some ({ s with chunkGroupIndex := cgi, chunkIndex := ci }, some Err.cannotLocateChunk)
  | some (ci, cgi, some inChunk) =>
    let s1 : Stream := { s with chunkGroupIndex := cgi, chunkIndex := ci, sampleIndexInChunk := inChunk }
    match offsetInChunk s1.sample index s1.sampleIndexInChunk with
    | none => none
    | some none => some (s1, some Err.sampleIndexOutOfRange)
    | some (some off) =>
      let s2 : Stream := { s1 with sampleOffsetInChunk := off }
      match locateStts index s2.sample.TimeToSample 0 0 0 with
      | (k, dts, none) =>
        some ({ s2 with dts := dts, sttsEntryIndex := k }, some Err.cannotLocateStts)
      | (k, dts, some inStts) =>
        let s3 : Stream := { s2 with dts := dts, sttsEntryIndex := k, sampleIndexInSttsEntry := inStts }
        let composed : Stream × Option Err :=
          match s3.sample.CompositionOffset with
          | none => (s3, none)
          | some entries =>
            if entries.length > 0 then
              match locateCtts index entries 0 0 with
              | (c, none) => ({ s3 with cttsEntryIndex := c }, some Err.cannotLocateCtts)
              | (c, some inCtts) =>
                ({ s3 with cttsEntryIndex := c, sampleIndexInCttsEntry := inCtts }, none)
            else (s3, none)
        match composed with
        | (s4, some e) => some (s4, some e)
        | (s4, none) =>
          let s5 : Stream :=
            match s4.sample.SyncSample with
            | none => s4
            | some entries => { s4 with syncSampleIndex := locateSync index entries.tail 0 }
          some ({ s5 with sampleIndex := index }, none)

/-! ## `Stream.isSampleValid`, `Stream.incSampleIndex`, `Stream.sampleCount` -/

/-- `Stream.isSampleValid` (lines 212-238). -/
def isSampleValid (s : Stream) : Bool :=
  if s.chunkIndex ≥ s.sample.ChunkOffset.length then false
  else if s.chunkGroupIndex ≥ s.sample.SampleToChunk.length then false
  else if s.sttsEntryIndex ≥ s.sample.TimeToSample.length then false
  else if (match s.sample.CompositionOffset with
      | none => false
      | some entries => entries.length > 0 ∧ s.cttsEntryIndex ≥ entries.length) then false
  else if (match s.sample.SyncSample with
      | none => false
      | some entries => s.syncSampleIndex ≥ entries.length) then false
  else if s.sample.SampleSize ≠ 0 ∧ s.sampleIndex ≥ s.sample.SampleSizeEntries.length then false
  else true

/-- The first block of `incSampleIndex` (lines 246-257): the in-chunk sample
counter, the chunk index and the in-chunk byte offset. -/
def incChunk (s : Stream) : Option Stream :=
  let s1 : Stream := { s with sampleIndexInChunk := s.sampleIndexInChunk + 1 }
  match getAt s1.sample.SampleToChunk s1.chunkGroupIndex with
  | none => none
  | some group =>
    if s1.sampleIndexInChunk = group.SamplesPerChunk then
      some { s1 with chunkIndex := s1.chunkIndex + 1, sampleIndexInChunk := 0,
                     sampleOffsetInChunk := 0 }
    else if s1.sample.SampleSize ≠ 0 then
      some { s1 with sampleOffsetInChunk := s1.sampleOffsetInChunk + s1.sample.SampleSize }
    else
      match getAt s1.sample.SampleSizeEntries s1.sampleIndex with
      | none => none
      | some size => some { s1 with sampleOffsetInChunk := s1.sampleOffsetInChunk + size }

/-- The second block of `incSampleIndex` (lines 259-262): the chunk group. -/
def incGroup (s : Stream) : Option Stream :=
  match chunkGroupStep s.sample.SampleToChunk s.chunkGroupIndex s.chunkIndex with
  | none => none
  | some g => some { s with chunkGroupIndex := g }

/-- The third block of `incSampleIndex` (lines 264-271): the decode timestamp,
advanced in 64-bit arithmetic, and the time-to-sample run; the second component
is `duration`. -/
def incStts (s : Stream) : Option (Stream × Int) :=
  match getAt s.sample.TimeToSample s.sttsEntryIndex with
  | none => none
  | some sttsEntry =>
    let duration := sttsEntry.Duration
    let s1 : Stream := { s with sampleIndexInSttsEntry := s.sampleIndexInSttsEntry + 1,
                                dts := wrap64 (s.dts + duration) }
    if s1.sampleIndexInSttsEntry = sttsEntry.Count then
      some ({ s1 with sampleIndexInSttsEntry := 0, sttsEntryIndex := s1.sttsEntryIndex + 1 },
        duration)
    else some (s1, duration)

/-- The fourth block of `incSampleIndex` (lines 273-279): the composition-offset
run. -/
def incCtts (s : Stream) : Option Stream :=
  match s.sample.CompositionOffset with
  | none => some s
  | some entries =>
    if entries.length > 0 then
      let s1 : Stream := { s with sampleIndexInCttsEntry := s.sampleIndexInCttsEntry + 1 }
      match getAt entries s1.cttsEntryIndex with
      | none => none
      | some cttsEntry =>
        if s1.sampleIndexInCttsEntry = cttsEntry.Count then
          some { s1 with sampleIndexInCttsEntry := 0, cttsEntryIndex := s1.cttsEntryIndex + 1 }
        else some s1
    else some s

/-- The fifth block of `incSampleIndex` (lines 281-286): the sync-sample
pointer. -/
def incSync (s : Stream) : Option Stream :=
  match s.sample.SyncSample with
  | none => some s
  | some entries =>
    if s.syncSampleIndex + 1 < entries.length then
      match getAt entries (s.syncSampleIndex + 1) with
      | none => none
      | some next =>
        if next - 1 = s.sampleIndex + 1 then
          some { s with syncSampleIndex := s.syncSampleIndex + 1 }
        else some s
    else some s

/-- `Stream.incSampleIndex` (lines 240-290): its five blocks in sequence, then
`self.sampleIndex++`; the second component is the returned `duration`. -/
def incSampleIndex (s : Stream) : Option (Stream × Int) :=
  match incChunk s with
  | none => none
  | some s1 =>
    match incGroup s1 with
    | none => none
    | some s2 =>
      match incStts s2 with
      | none => none
      | some (s3, duration) =>
        match incCtts s3 with
        | none => none
        | some s4 =>
          match incSync s4 with
          | none => none
          | some s5 => some ({ s5 with sampleIndex := s5.sampleIndex + 1 }, duration)

/-- The loop of `sampleCount` over the chunks (lines 296-303): iterations left,
range variable `chunkIndex`, `chunkGroupIndex`, `count`. -/
def countLoop (stc : List SampleToChunkEntry) : Nat → Int → Int → Int → Option Int
  | 0, _, _, count => some count
  | fuel + 1, chunkIndex, chunkGroupIndex, count =>
    match getAt stc chunkGroupIndex with
    | none => none
    | some e =>
      match chunkGroupStep stc chunkGroupIndex chunkIndex with
      | none => none
      | some g => countLoop stc fuel (chunkIndex + 1) g (count + e.SamplesPerChunk)

/-- `Stream.sampleCount` (lines 292-308). -/
def sampleCount (s : Stream) : Option Int :=
  if s.sample.SampleSize = 0 then
    countLoop s.sample.SampleToChunk s.sample.ChunkOffset.length 0 0 0
  else some s.sample.SampleSizeEntries.length

/-! ## `Stream.timeToSampleIndex`, `Stream.seekToTime` -/

/-- The loop of `timeToSampleIndex` over the time-to-sample runs (lines
418-427), on the runs not yet visited: `startTs`, `startIndex`, `endIndex`,
`targetIndex`, `found`.  The result is `(endIndex, targetIndex, found)`; `none`
is the integer division by zero.  Every operation is 64-bit. -/
def scanStts (targetTs : Int) :
    List TimeToSampleEntry → Int → Int → Int → Int → Bool → Option (Int × Int × Bool)
  | [], _, _, endIndex, targetIndex, found => some (endIndex, targetIndex, found)
  | entry :: rest, startTs, startIndex, _, targetIndex, found =>
    let endTs := wrap64 (startTs + wrap64 (entry.Count * entry.Duration))
    let endIndex := wrap64 (startIndex + entry.Count)
    if targetTs ≥ startTs ∧ targetTs < endTs then
      if entry.Duration = 0 then none
      else
        scanStts targetTs rest endTs endIndex endIndex
          (wrap64 (startIndex + wrap64 (Int.tdiv (wrap64 (targetTs - startTs)) entry.Duration)))
          true
    else scanStts targetTs rest endTs endIndex endIndex targetIndex found

/-- The backward loop of `timeToSampleIndex` over the sync samples (lines
438-443), given the entries from the last one to the first one. -/
def snapToSync (targetIndex : Int) : List Int → Int
  | [] => targetIndex
  | e :: earlier =>
    if wrap64 (e - 1) < targetIndex then wrap64 (e - 1) else snapToSync targetIndex earlier

/-- `Stream.timeToSampleIndex` from its second statement on (lines 411-446):
the argument is `targetTs`, the value of `self.timeToTs(time)`. -/
def timeToSampleIndexTs (s : Stream) (targetTs : Int) : Option Int :=
  match scanStts targetTs s.sample.TimeToSample 0 0 0 0 false with
  | none => none
  | some (endIndex, targetIndex, found) =>
    let targetIndex :=
      if !found then (if targetTs < 0 then 0 else wrap64 (endIndex - 1)) else targetIndex
    match s.sample.SyncSample with
    | none => some targetIndex
    | some entries => some (snapToSync targetIndex entries.reverse)

/-- `Stream.timeToSampleIndex` (lines 409-447). -/
def timeToSampleIndex (s : Stream) (time : Rat) : Option Int :=
  timeToSampleIndexTs s (timeToTs s time)

/-- `Stream.seekToTime` (lines 398-407). -/
def seekToTime (s : Stream) (time : Rat) : Option (Stream × Option Err) :=
  match timeToSampleIndex s time with
  | none => none
  | some index => setSampleIndex s index

/-! ## `Stream.readPacket` -/

/-- One call on the shared byte source. -/
inductive IOCall where
  | seek (offset : Int)
  | read (len : Nat)
  deriving DecidableEq, Repr

/-- Modelled from the spec: the backing random-access byte source
(`io.ReadSeeker`): whether `Seek(offset, 0)` returns an error, whether a `Read`
into a buffer of the given length at the given position returns an error, the
byte that such a `Read` stores at each buffer position, and the calls made so
far. -/
structure Source where
  seekFails : Int → Bool
  readFails : Int → Nat → Bool
  content : Int → Nat → Nat
  calls : List IOCall

/-- Modelled from the spec: the output value (`av.Packet`, declared in another
package), with the fields that `demuxer.go` assigns. -/
structure Packet where
  Data : List Nat
  IsKeyFrame : Bool
  CompositionTime : Rat
  Duration : Rat
  deriving DecidableEq, Repr

/-- The zero value of `av.Packet`. -/
def Packet.zero : Packet :=
  { Data := [], IsKeyFrame := false, CompositionTime := 0, Duration := 0 }

/-- `Stream.readPacket` (lines 355-396) on the stream and the source it shares
with the demuxer. -/
def readPacket (s : Stream) (r : Source) : Option (Stream × Source × Packet × Option Err) :=
  if !isSampleValid s then some (s, r, Packet.zero, some Err.EOF)
  else
    match getAt s.sample.ChunkOffset s.chunkIndex with
    | none => none
    | some chunkOffset =>
      let size : Option Int :=
        if s.sample.SampleSize ≠ 0 then some s.sample.SampleSize
        else getAt s.sample.SampleSizeEntries s.sampleIndex
      match size with
      | none => none
      | some sampleSize =>
        let sampleOffset := chunkOffset + s.sampleOffsetInChunk
        let r1 : Source := { r with calls := r.calls ++ [IOCall.seek sampleOffset] }
        if r1.seekFails sampleOffset then some (s, r1, Packet.zero, some Err.io)
        else if sampleSize < 0 then none
        else
          let r2 : Source := { r1 with calls := r1.calls ++ [IOCall.read sampleSize.toNat] }
          let pkt1 : Packet :=
            { Packet.zero with
              Data := (List.range sampleSize.toNat).map (r2.content sampleOffset) }
          if r2.readFails sampleOffset sampleSize.toNat then some (s, r2, pkt1, some Err.io)
          else
            let keyed : Option Packet :=
              match s.sample.SyncSample with
              | none => some pkt1
              | some entries =>
                match getAt entries s.syncSampleIndex with
                | none => none
                | some sync =>
                  if sync - 1 = s.sampleIndex then some { pkt1 with IsKeyFrame := true }
                  else some pkt1
            match keyed with
            | none => none
            | some pkt2 =>
              let composed : Option Packet :=
                match s.sample.CompositionOffset with
                | none => some pkt2
                | some entries =>
                  if entries.length > 0 then
                    match getAt entries s.cttsEntryIndex with
                    | none => none
                    | some e => some { pkt2 with CompositionTime := tsToTime s e.Offset }
                  else some pkt2
              match composed with
              | none => none
              | some pkt3 =>
                match incSampleIndex s with
                | none => none
                | some (s1, duration) =>
                  some (s1, r2, { pkt3 with Duration := tsToTime s1 duration }, none)

/-! ## `Demuxer` -/

/-- The demuxer (`Demuxer`, lines 23-28): the shared source and the active
streams; `movieAtom` is not read by the functions modelled here. -/
structure Demuxer where
  R : Source
  streams : List Stream

/-- The selection loop of `Demuxer.ReadPacket` (lines 312-317), on the streams
not yet visited: range index `i`, `chosen`, `streamIndex`. -/
def choose : List Stream → Int → Option Stream → Int → Option Stream × Int
  | [], _, chosen, streamIndex => (chosen, streamIndex)
  | stream :: rest, i, chosen, streamIndex =>
    match chosen with
    | none => choose rest (i + 1) (some stream) i
    | some c =>
      if tsToTime stream stream.dts < tsToTime c c.dts then choose rest (i + 1) (some stream) i
      else choose rest (i + 1) chosen streamIndex

/-- `Demuxer.ReadPacket` (lines 310-323): the demuxer afterwards, `streamIndex`,
the packet and the error.  `chosen == nil` makes `chosen.readPacket()`
dereference a nil pointer. -/
def Demuxer.ReadPacket (d : Demuxer) : Option (Demuxer × Int × Packet × Option Err) :=
  match choose d.streams 0 none 0 with
  | (none, _) => none
  | (some chosen, streamIndex) =>
    match readPacket chosen d.R with
    | none => none
    | some (chosen1, r, pkt, err) =>
      some ({ R := r, streams := d.streams.set streamIndex.toNat chosen1 }, streamIndex, pkt, err)

/-- `Demuxer.CurrentTime` (lines 325-331). -/
def Demuxer.CurrentTime (d : Demuxer) : Rat :=
  match d.streams with
  | [] => 0
  | stream :: _ => tsToTime stream stream.dts

/-- The first loop of `Demuxer.SeekToTime` (lines 334-342), on the streams not
yet visited: the streams afterwards, `time` and `err`. -/
def seekVideo (time : Rat) : List Stream → Option (List Stream × Rat × Option Err)
  | [] => some ([], time, none)
  | stream :: rest =>
    if stream.CodecData.IsVideo then
      match seekToTime stream time with
      | none => none
      | some (stream1, some e) => some (stream1 :: rest, time, some e)
      | some (stream1, none) => some (stream1 :: rest, tsToTime stream1 stream1.dts, none)
    else
      match seekVideo time rest with
      | none => none
      | some (rest1, time1, err) => some (stream :: rest1, time1, err)

/-- The second loop of `Demuxer.SeekToTime` (lines 344-350), on the streams not
yet visited. -/
def seekOthers (time : Rat) : List Stream → Option (List Stream × Option Err)
  | [] => some ([], none)
  | stream :: rest =>
    if !stream.CodecData.IsVideo then
      match seekToTime stream time with
      | none => none
      | some (stream1, some e) => some (stream1 :: rest, some e)
      | some (stream1, none) =>
        match seekOthers time rest with
        | none => none
        | some (rest1, err) => some (stream1 :: rest1, err)
    else
      match seekOthers time rest with
      | none => none
      | some (rest1, err) => some (stream :: rest1, err)

/-- `Demuxer.SeekToTime` (lines 333-353). -/
def Demuxer.SeekToTime (d : Demuxer) (time : Rat) : Option (Demuxer × Option Err) :=
  match seekVideo time d.streams with
  | none => none
  | some (streams1, _, some e) => some ({ d with streams := streams1 }, some e)
  | some (streams1, time1, none) =>
    match seekOthers time1 streams1 with
    | none => none
    | some (streams2, err) => some ({ d with streams := streams2 }, err)

/-! ## `Demuxer.ReadHeader`, `Open` -/

/-- Modelled from the spec: a track descriptor supplied by the box-parsing
collaborator (`atom.Track`, declared outside `demuxer.go`), reduced to what
`ReadHeader` reads from it: `sample` is `Media.Info.Sample` when `Media`,
`Media.Info` and `Media.Info.Sample` are all non-nil; `timeScale` is
`Media.Header.TimeScale`; `avc1` is the `Data` of the record returned by
`atom.GetAvc1ConfByTrack` when it is non-nil; `mp4a` is present when
`atom.GetMp4aDescByTrack` returns a descriptor, and then holds `Conf.Data` when
`Conf` is non-nil. -/
structure Track where
  sample : Option SampleTable
  timeScale : Int
  avc1 : Option (List Nat)
  mp4a : Option (Option (List Nat))
  deriving DecidableEq, Repr

/-- Modelled from the spec: the parsed movie (`atom.Movie`). -/
structure Movie where
  Tracks : List Track
  deriving DecidableEq, Repr

/-- Modelled from the spec: the codec-configuration decoder collaborator
(`h264parser.NewCodecDataFromAVCDecoderConfRecord`, `isom.ReadElemStreamDesc`,
`aacparser.NewCodecDataFromMPEG4AudioConfigBytes`); `none` is a returned error. -/
structure CodecDecoder where
  avc : List Nat → Option CodecData
  elemStreamDesc : List Nat → Option (List Nat)
  aac : List Nat → Option CodecData

/-- The `Stream` built at lines 80-91 for track `i`, with its codec data; the
cursor fields have their zero values. -/
def newStream (sample : SampleTable) (timeScale i : Int) (codec : CodecData) : Stream :=
  { CodecData := codec, sample := sample, idx := i, timeScale := timeScale,
    sampleIndex := 0, sampleOffsetInChunk := 0, syncSampleIndex := 0, dts := 0,
    sttsEntryIndex := 0, sampleIndexInSttsEntry := 0, cttsEntryIndex := 0,
    sampleIndexInCttsEntry := 0, chunkGroupIndex := 0, chunkIndex := 0,
    sampleIndexInChunk := 0 }

/-- The codec decision that `ReadHeader` takes for one track (lines 93-109):
`none` when a codec-configuration decoder returns an error, `some none` when
the track is neither `avc1` nor `mp4a` with a configuration (the track is
skipped), `some (some codec)` when its codec data was built. -/
def trackCodec (c : CodecDecoder) (atrack : Track) : Option (Option CodecData) :=
  match atrack.avc1 with
  | some data =>
    match c.avc data with
    | none => none
    | some codec => some (some codec)
  | none =>
    match atrack.mp4a with
    | some (some conf) =>
      match c.elemStreamDesc conf with
      | none => none
      | some config =>
        match c.aac config with
        | none => none
        | some codec => some (some codec)
    | _ => some none

/-- The loop of `ReadHeader` over the tracks (lines 79-110), on the tracks not
yet visited: range index `i` and `self.streams`; the result is `self.streams`
and `err`. -/
def headerLoop (c : CodecDecoder) : List Track → Int → List Stream → List Stream × Option Err
  | [], _, streams => (streams, none)
  | atrack :: rest, i, streams =>
    match atrack.sample with
    | none => (streams, some Err.sampleTableNotFound)
    | some sample =>
      match trackCodec c atrack with
      | none => (streams, some Err.codecConfig)
      | some none => headerLoop c rest (i + 1) streams
      | some (some codec) =>
        headerLoop c rest (i + 1) (streams ++ [newStream sample atrack.timeScale i codec])

/-- `Demuxer.ReadHeader` (lines 41-113).  `atoms` is the outcome of the seeks
and of the loop over the top-level atoms (lines 45-70), which is the work of
the box-parsing collaborator: an error, or the value of `moov` after the loop. -/
def Demuxer.ReadHeader (d : Demuxer) (c : CodecDecoder) (atoms : Except Err (Option Movie)) :
    Demuxer × Option Err :=
  match atoms with
  | Except.error e => (d, some e)
  | Except.ok none => (d, some Err.moovNotFound)
  | Except.ok (some moov) =>
    match headerLoop c moov.Tracks 0 [] with
    | (streams, err) => ({ d with streams := streams }, err)

/-- `Open` (lines 14-21): the returned `demuxer` (nil when `ReadHeader` fails)
and `err`. -/
def Open (R : Source) (c : CodecDecoder) (atoms : Except Err (Option Movie)) :
    Option Demuxer × Option Err :=
  match Demuxer.ReadHeader { R := R, streams := [] } c atoms with
  | (_, some e) => (none, some e)
  | (demuxer, none) => (some demuxer, none)

/-! ## Specification-side definitions -/

/-- The run that covers chunk number `c` (1-based) in the words of the spec:
among the runs whose `firstChunk` is at most `c`, the one with the greatest
`firstChunk`. -/
def coveringRun (stc : List SampleToChunkEntry) (c : Int) : Option SampleToChunkEntry :=
  List.argmax (fun e => e.FirstChunk) (stc.filter (fun e => decide (e.FirstChunk ≤ c)))

/-- The number of samples of chunk number `c` (1-based): the `samplesPerChunk`
of the run that covers it. -/
def samplesInChunk (stc : List SampleToChunkEntry) (c : Int) : Int :=
  match coveringRun stc c with
  | some e => e.SamplesPerChunk
  | none => 0

/-- The index of the first sample of the chunk with 0-based index `c`: the
number of samples of the chunks before it. -/
def chunkFirst (stc : List SampleToChunkEntry) (c : Nat) : Int :=
  ((List.range c).map (fun k => samplesInChunk stc ((k : Int) + 1))).sum

/-- The total sample count of a table: the samples of all its chunks. -/
def totalSamples (t : SampleTable) : Int :=
  chunkFirst t.SampleToChunk t.ChunkOffset.length

/-- The runs are sorted by strictly ascending `FirstChunk`. -/
def Ascending (stc : List SampleToChunkEntry) : Prop :=
  stc.Pairwise (fun a b => a.FirstChunk < b.FirstChunk)

/-- Run `e` at position `g` is the last run that starts at or before chunk
number `c`: every later run starts after `c`. -/
def Covers (stc : List SampleToChunkEntry) (g : Int) (e : SampleToChunkEntry) (c : Int) : Prop :=
  ∃ pre post, stc = pre ++ e :: post ∧ g = (pre.length : Int) ∧ e.FirstChunk ≤ c ∧
    ∀ e' ∈ post, c < e'.FirstChunk

/-- The state of the chunk-group pointer on entry to the iteration for the
chunk with 0-based index `i`. -/
def Entering (stc : List SampleToChunkEntry) (g : Int) (e : SampleToChunkEntry) (i : Int) : Prop :=
  ∃ pre post, stc = pre ++ e :: post ∧ g = (pre.length : Int) ∧ e.FirstChunk ≤ i + 1 ∧
    ∀ e' ∈ post, i + 1 ≤ e'.FirstChunk

/-- The number of samples described by a list of time-to-sample runs. -/
def sttsCount (es : List TimeToSampleEntry) : Int := (es.map (fun e => e.Count)).sum

/-- The number of samples described by a list of composition-offset runs. -/
def cttsCount (es : List CompositionOffsetEntry) : Int := (es.map (fun e => e.Count)).sum

/-- The composition-offset run and in-run counter after `incCtts`. -/
def cttsNext (a : Stream) : Int × Int :=
  match a.sample.CompositionOffset with
  | none => (a.cttsEntryIndex, a.sampleIndexInCttsEntry)
  | some entries =>
    match getAt entries a.cttsEntryIndex with
    | none => (a.cttsEntryIndex, a.sampleIndexInCttsEntry)
    | some ec =>
      if a.sampleIndexInCttsEntry + 1 = ec.Count then (a.cttsEntryIndex + 1, 0)
      else (a.cttsEntryIndex, a.sampleIndexInCttsEntry + 1)

/-- The sync-sample pointer after `incSync`. -/
def syncNext (a : Stream) : Int :=
  match a.sample.SyncSample with
  | none => a.syncSampleIndex
  | some entries =>
    if getAt entries (a.syncSampleIndex + 1) = some (a.sampleIndex + 2)
    then a.syncSampleIndex + 1 else a.syncSampleIndex

/-- A well-formed, consistent sample table with `totalSamples` samples, as the
data model of the spec describes it. -/
structure WellFormed (t : SampleTable) : Prop where
  chunks : t.ChunkOffset ≠ []
  first : (t.SampleToChunk.head?).map (fun e => e.FirstChunk) = some 1
  ascending : Ascending t.SampleToChunk
  bounded : ∀ e ∈ t.SampleToChunk, e.FirstChunk ≤ t.ChunkOffset.length
  positive : ∀ e ∈ t.SampleToChunk, 0 < e.SamplesPerChunk
  sttsPositive : ∀ e ∈ t.TimeToSample, 0 < e.Count
  sttsTotal : sttsCount t.TimeToSample = totalSamples t
  sizes : t.SampleSize ≠ 0 ∨
    (t.SampleSize = 0 ∧ (t.SampleSizeEntries.length : Int) = totalSamples t)
  ctts : ∀ entries, t.CompositionOffset = some entries → entries ≠ [] →
    (∀ e ∈ entries, 0 < e.Count) ∧ cttsCount entries = totalSamples t

/-- The cursor of `s` is the one that the loops of `setSampleIndex` compute for
sample `i`. -/
structure Positioned (s : Stream) (i : Int) : Prop where
  chunk : locateChunk s.sample.SampleToChunk i s.sample.ChunkOffset.length 0 0 0 0
    = some (s.chunkIndex, s.chunkGroupIndex, some s.sampleIndexInChunk)
  offset : offsetInChunk s.sample i s.sampleIndexInChunk = some (some s.sampleOffsetInChunk)
  stts : locateStts i s.sample.TimeToSample 0 0 0
    = (s.sttsEntryIndex, s.dts, some s.sampleIndexInSttsEntry)
  ctts : ∀ entries, s.sample.CompositionOffset = some entries → entries ≠ [] →
    locateCtts i entries 0 0 = (s.cttsEntryIndex, some s.sampleIndexInCttsEntry)
  sync : ∀ entries, s.sample.SyncSample = some entries → 0 ≤ s.syncSampleIndex
  index : s.sampleIndex = i

/-- The composition-offset run and in-run counter after `setSampleIndex`. -/
def cttsAt (s : Stream) (index : Int) : Int × Int :=
  match s.sample.CompositionOffset with
  | none => (s.cttsEntryIndex, s.sampleIndexInCttsEntry)
  | some entries =>
    if entries.length > 0 then
      match locateCtts index entries 0 0 with
      | (c, none) => (c, s.sampleIndexInCttsEntry)
      | (c, some inCtts) => (c, inCtts)
    else (s.cttsEntryIndex, s.sampleIndexInCttsEntry)

/-- The sync-sample pointer after `setSampleIndex`. -/
def syncAt (s : Stream) (index : Int) : Int :=
  match s.sample.SyncSample with
  | none => s.syncSampleIndex
  | some entries => locateSync index entries.tail 0

/-- The cursor after `n` calls of `incSampleIndex` in sequence. -/
def advance : Nat → Stream → Option Stream
  | 0, s => some s
  | n + 1, s =>
    match incSampleIndex s with
    | none => none
    | some (s1, _) => advance n s1

/-- A table with three chunks in two sample-to-chunk runs, five samples with
explicit sizes, two time-to-sample runs and one composition-offset run. -/
def twoRunTable : SampleTable :=
  { ChunkOffset := [100, 500, 900],
    SampleToChunk := [⟨1, 2⟩, ⟨3, 1⟩],
    SampleSize := 0,
    SampleSizeEntries := [10, 20, 15, 25, 30],
    TimeToSample := [⟨3, 1000⟩, ⟨2, 500⟩],
    CompositionOffset := some [⟨5, 40⟩],
    SyncSample := some [1, 4] }

/-- A video stream over `twoRunTable` with all cursor fields zero. -/
def twoRunStream : Stream := newStream twoRunTable 1000 0 ⟨true⟩

/-- The track of the end-to-end example of the spec: two chunks of two samples,
explicit sizes, one time-to-sample run, no composition-offset and no sync table. -/
def specTable : SampleTable :=
  { ChunkOffset := [100, 500],
    SampleToChunk := [⟨1, 2⟩],
    SampleSize := 0,
    SampleSizeEntries := [10, 20, 15, 25],
    TimeToSample := [⟨4, 1000⟩],
    CompositionOffset := none,
    SyncSample := none }

/-- A stream over `specTable` with timescale 1000 and all cursor fields zero. -/
def specStream : Stream := newStream specTable 1000 0 ⟨true⟩

/-- The cursor of `specStream` on sample 2. -/
def specAt2 : Stream :=
  { specStream with chunkIndex := 1, dts := 2000, sampleIndex := 2, sampleIndexInSttsEntry := 2 }

/-- The cursor of `specStream` on sample 3. -/
def specAt3 : Stream :=
  { specStream with chunkIndex := 1, dts := 3000, sampleIndex := 3, sampleIndexInSttsEntry := 3,
                    sampleIndexInChunk := 1, sampleOffsetInChunk := 15 }

/-- A source whose seeks and reads all succeed, that holds zero bytes and has
not been called yet. -/
def quietSource : Source :=
  { seekFails := fun _ => false, readFails := fun _ _ => false, content := fun _ _ => 0,
    calls := [] }

/-- A track with a single sample of 10 ticks. -/
def shortTable : SampleTable :=
  { ChunkOffset := [0], SampleToChunk := [⟨1, 1⟩], SampleSize := 0, SampleSizeEntries := [10],
    TimeToSample := [⟨1, 10⟩], CompositionOffset := none, SyncSample := none }

/-- A track with two samples of 1000 ticks each. -/
def longTable : SampleTable :=
  { ChunkOffset := [100], SampleToChunk := [⟨1, 2⟩], SampleSize := 0,
    SampleSizeEntries := [10, 10], TimeToSample := [⟨2, 1000⟩], CompositionOffset := none,
    SyncSample := none }

/-- A freshly opened demuxer over `shortTable` and `longTable`. -/
def twoTracks : Demuxer :=
  { R := quietSource,
    streams := [newStream shortTable 1000 0 ⟨true⟩, newStream longTable 1000 1 ⟨false⟩] }

/-- The stream over `shortTable` after its only sample was read. -/
def shortDone : Stream :=
  { newStream shortTable 1000 0 ⟨true⟩ with
    sampleIndex := 1, dts := 10, sttsEntryIndex := 1, chunkIndex := 1 }

/-- The stream over `longTable` after its first sample was read. -/
def longAtOne : Stream :=
  { newStream longTable 1000 1 ⟨false⟩ with
    sampleIndex := 1, dts := 1000, sampleIndexInSttsEntry := 1, sampleIndexInChunk := 1,
    sampleOffsetInChunk := 10 }

/-- The demuxer `twoTracks` after one call of `ReadPacket`. -/
def twoTracksAfterOne : Demuxer :=
  { R := { quietSource with calls := [IOCall.seek 0, IOCall.read 10] },
    streams := [shortDone, newStream longTable 1000 1 ⟨false⟩] }

/-- The demuxer `twoTracks` after two calls of `ReadPacket`. -/
def twoTracksAfterTwo : Demuxer :=
  { R := { quietSource with
      calls := [IOCall.seek 0, IOCall.read 10, IOCall.seek 100, IOCall.read 10] },
    streams := [shortDone, longAtOne] }

/-- A track of four samples with sync samples 1 and 3 (1-based). -/
def syncTable : SampleTable :=
  { ChunkOffset := [0], SampleToChunk := [⟨1, 4⟩], SampleSize := 0,
    SampleSizeEntries := [10, 20, 15, 25], TimeToSample := [⟨4, 1000⟩],
    CompositionOffset := none, SyncSample := some [1, 3] }

/-- A track of two samples of the constant size 100, in one chunk, without
explicit per-sample sizes. -/
def constantTable : SampleTable :=
  { ChunkOffset := [0], SampleToChunk := [⟨1, 2⟩], SampleSize := 100, SampleSizeEntries := [],
    TimeToSample := [⟨2, 1000⟩], CompositionOffset := none, SyncSample := none }

/-- A stream over `constantTable` with all cursor fields zero. -/
def constantStream : Stream := newStream constantTable 1000 0 ⟨false⟩

/-- The fields of a stream that no cursor operation writes. -/
def fixedPart (s : Stream) : CodecData × SampleTable × Int × Int :=
  (s.CodecData, s.sample, s.idx, s.timeScale)

/-- What the second loop of `SeekToTime` does to one stream: a video stream is
left as it is, any other stream is positioned by `seekToTime(time)`. -/
def Aligned (time : Rat) (s s1 : Stream) : Prop :=
  if s.CodecData.IsVideo then s1 = s else seekToTime s time = some (s1, none)

/-- An audio stream over `specTable`. -/
def audioStream : Stream := newStream specTable 1000 0 ⟨false⟩

/-- A video stream over `syncTable`. -/
def videoStream : Stream := newStream syncTable 1000 1 ⟨true⟩

/-- A second video stream, over `specTable`. -/
def secondVideo : Stream := newStream specTable 1000 2 ⟨true⟩

/-- A freshly opened demuxer with an audio stream and two video streams. -/
def threeTracks : Demuxer :=
  { R := quietSource, streams := [audioStream, videoStream, secondVideo] }

/-- The cursor of `videoStream` on sample 2. -/
def videoAt2 : Stream :=
  { videoStream with dts := 2000, sampleIndex := 2, sampleIndexInSttsEntry := 2,
                     sampleIndexInChunk := 2, sampleOffsetInChunk := 30, syncSampleIndex := 1 }

/-- The cursor of `audioStream` on sample 2. -/
def audioAt2 : Stream :=
  { audioStream with chunkIndex := 1, dts := 2000, sampleIndex := 2,
                     sampleIndexInSttsEntry := 2 }

/-- The cursor of `secondVideo` on sample 2. -/
def secondVideoAt2 : Stream :=
  { secondVideo with chunkIndex := 1, dts := 2000, sampleIndex := 2,
                     sampleIndexInSttsEntry := 2 }

/-- The streams that `ReadHeader` registers for a list of tracks when no
decoder call fails: one stream per track whose codec is identified and
configured, in the order of the tracks; `i` is the index of the first track. -/
def configured (c : CodecDecoder) : List Track → Int → List Stream
  | [], _ => []
  | atrack :: rest, i =>
    match atrack.sample, trackCodec c atrack with
    | some sample, some (some codec) =>
      newStream sample atrack.timeScale i codec :: configured c rest (i + 1)
    | _, _ => configured c rest (i + 1)

/-- A codec-configuration decoder that fails on every AVC decoder record and
accepts every AAC configuration. -/
def avcFails : CodecDecoder :=
  { avc := fun _ => none, elemStreamDesc := fun data => some data,
    aac := fun _ => some ⟨false⟩ }

/-- A codec-configuration decoder that accepts every configuration. -/
def accepts : CodecDecoder :=
  { avc := fun _ => some ⟨true⟩, elemStreamDesc := fun data => some data,
    aac := fun _ => some ⟨false⟩ }

/-- A movie with an AVC track, an AAC track and a track of another codec, all
with sample tables. -/
def threeTrackMovie : Movie :=
  { Tracks := [
      { sample := some syncTable, timeScale := 1000, avc1 := some [1], mp4a := none },
      { sample := some specTable, timeScale := 1000, avc1 := none, mp4a := some (some [2]) },
      { sample := some specTable, timeScale := 1000, avc1 := none, mp4a := none }] }

/-- The source `quietSource` after the read of sample 2 of `specTable`. -/
def specSourceAfter : Source :=
  { quietSource with calls := [IOCall.seek 500, IOCall.read 15] }

/-- The packet that `readPacket` returns for sample 2 of `specTable` on
`quietSource`. -/
def specPacket : Packet :=
  { Data := (List.range 15).map (quietSource.content 500), IsKeyFrame := false,
    CompositionTime := 0, Duration := tsToTime specAt3 1000 }

/-! ## Definitions for decode times, sync tables and sequential reads -/

/-- The run-length expansion of a time-to-sample table: the duration of every
sample, each run contributing `Count` copies of its `Duration`. -/
def durations : List TimeToSampleEntry → List Int
  | [] => []
  | e :: rest => List.replicate e.Count.toNat e.Duration ++ durations rest

/-- The decode time `D(i)` of sample `i`: the sum of the durations of the
samples before it. -/
def decodeTime (es : List TimeToSampleEntry) (i : Nat) : Int :=
  ((durations es).take i).sum

/-- A track of four samples whose only sync sample is sample 3 (1-based). -/
def lateSyncTable : SampleTable :=
  { ChunkOffset := [0], SampleToChunk := [⟨1, 4⟩], SampleSize := 0,
    SampleSizeEntries := [10, 20, 15, 25], TimeToSample := [⟨4, 1000⟩],
    CompositionOffset := none, SyncSample := some [3] }

/-- The fields that the sync block of `incSampleIndex` reads. -/
def syncView (s : Stream) : SampleTable × Int × Int :=
  (s.sample, s.syncSampleIndex, s.sampleIndex)

/-- The sync-sample table, when present, is non-empty, strictly ascending and
within `1..N`. -/
def SyncWellFormed (t : SampleTable) : Prop :=
  ∀ entries, t.SyncSample = some entries →
    entries ≠ [] ∧ entries.Pairwise (· < ·) ∧ ∀ e ∈ entries, 1 ≤ e ∧ e ≤ totalSamples t

/-- The sync pointer of `s` is the one that the sync loop of `setSampleIndex`
computes for sample `i`. -/
def SyncPositioned (s : Stream) (i : Int) : Prop :=
  ∀ entries, s.sample.SyncSample = some entries →
    s.syncSampleIndex = locateSync i entries.tail 0

/-- Every table read that `readPacket` (lines 362, 367, 381, 388) and the
`incSampleIndex` it calls make at cursor `a` is in range. -/
def ReadsInBounds (a : Stream) : Prop :=
  (∃ v, getAt a.sample.ChunkOffset a.chunkIndex = some v) ∧
  (a.sample.SampleSize = 0 → ∃ v, getAt a.sample.SampleSizeEntries a.sampleIndex = some v) ∧
  (∀ entries, a.sample.SyncSample = some entries →
    ∃ v, getAt entries a.syncSampleIndex = some v) ∧
  (∀ entries, a.sample.CompositionOffset = some entries → entries ≠ [] →
    ∃ v, getAt entries a.cttsEntryIndex = some v) ∧
  ∃ b d, incSampleIndex a = some (b, d)

/-- Every seek and every read of the source succeeds. -/
def Succeeds (r : Source) : Prop :=
  (∀ off, r.seekFails off = false) ∧ ∀ off n, r.readFails off n = false

/-- The stream and the source after `n` successful calls of `readPacket` in
sequence. -/
def readMany : Nat → Stream → Source → Option (Stream × Source)
  | 0, s, r => some (s, r)
  | n + 1, s, r =>
    match readPacket s r with
    | some (s1, r1, _, none) => readMany n s1 r1
    | _ => none

/-- The keyframe flags of the packets returned by `n` successful calls of
`readPacket` in sequence. -/
def keyFlags : Nat → Stream → Source → List Bool
  | 0, _, _ => []
  | n + 1, s, r =>
    match readPacket s r with
    | some (s1, r1, pkt, none) => pkt.IsKeyFrame :: keyFlags n s1 r1
    | _ => []

/-- A malformed table: one chunk and no sample-to-chunk run. -/
def noRunsTable : SampleTable :=
  { ChunkOffset := [0], SampleToChunk := [], SampleSize := 0, SampleSizeEntries := [10],
    TimeToSample := [⟨1, 1000⟩], CompositionOffset := none, SyncSample := none }

/-- A track of four samples of the constant size 100 in two chunks of two,
without explicit per-sample sizes. -/
def constantChunks : SampleTable :=
  { ChunkOffset := [1000, 5000], SampleToChunk := [⟨1, 2⟩], SampleSize := 100,
    SampleSizeEntries := [], TimeToSample := [⟨4, 1000⟩], CompositionOffset := none,
    SyncSample := none }

/-- The cursor of `twoRunStream` on sample 3. -/
def twoRunAt3 : Stream :=
  { twoRunStream with
    chunkIndex := 1, sampleIndexInChunk := 1, sampleOffsetInChunk := 15, dts := 3000,
    sttsEntryIndex := 1, sampleIndexInSttsEntry := 0, sampleIndexInCttsEntry := 3,
    syncSampleIndex := 1, sampleIndex := 3 }

/-- A track of 4294967295 samples of one byte in one chunk, each 4294967295
ticks long: the total duration is above `2^63`. -/
def longRunTable : SampleTable :=
  { ChunkOffset := [0], SampleToChunk := [⟨1, 4294967295⟩], SampleSize := 1,
    SampleSizeEntries := [], TimeToSample := [⟨4294967295, 4294967295⟩],
    CompositionOffset := none, SyncSample := none }

/-- A track of two samples of 10 bytes in one chunk, each `d` ticks long. -/
def tickTable (d : Int) : SampleTable :=
  { ChunkOffset := [0], SampleToChunk := [⟨1, 2⟩], SampleSize := 0,
    SampleSizeEntries := [10, 10], TimeToSample := [⟨2, d⟩], CompositionOffset := none,
    SyncSample := none }

/-- The cursor on sample 1 of a stream with index 0 and timescale 1 over
`tickTable (2^53 + 1)`. -/
def lateCursor : Stream :=
  { newStream (tickTable 9007199254740993) 1 0 ⟨false⟩ with
    sampleIndexInChunk := 1, sampleOffsetInChunk := 10, dts := 9007199254740993,
    sampleIndexInSttsEntry := 1, sampleIndex := 1 }

/-- The cursor on sample 1 of a stream with index 1 and timescale 1 over
`tickTable (2^53)`. -/
def earlyCursor : Stream :=
  { newStream (tickTable 9007199254740992) 1 1 ⟨false⟩ with
    sampleIndexInChunk := 1, sampleOffsetInChunk := 10, dts := 9007199254740992,
    sampleIndexInSttsEntry := 1, sampleIndex := 1 }

/-- The cursor on sample 2147483650 of a fresh stream over `longRunTable`. -/
def longRunCursor : Stream :=
  { newStream longRunTable 1000 0 ⟨false⟩ with
    sampleIndexInChunk := 2147483650, sampleOffsetInChunk := 2147483650,
    dts := -9223372030412324866, sampleIndexInSttsEntry := 2147483650,
    sampleIndex := 2147483650 }

/-! ## 64-bit arithmetic -/

theorem wrap64_eq_self (x : Int) (h0 : -9223372036854775808 ≤ x)
    (h1 : x < 9223372036854775808) : wrap64 x = x := by
  unfold wrap64
  omega

theorem wrap64_range (x : Int) :
    -9223372036854775808 ≤ wrap64 x ∧ wrap64 x < 9223372036854775808 := by
  unfold wrap64
  omega

theorem wrap64_idem (x : Int) : wrap64 (wrap64 x) = wrap64 x := by
  unfold wrap64
  omega

theorem wrap64_add_left (a b : Int) : wrap64 (wrap64 a + b) = wrap64 (a + b) := by
  unfold wrap64
  omega

theorem wrap64_add_right (a b : Int) : wrap64 (a + wrap64 b) = wrap64 (a + b) := by
  unfold wrap64
  omega

theorem wrap64_step (dts x d : Int) :
    wrap64 (dts + wrap64 (x + d)) = wrap64 (wrap64 (dts + wrap64 x) + d) := by
  unfold wrap64
  omega

/-! ## `float64` times of the example tracks -/

theorem float64_div_0_1000 : ((Float64.ofInt 0).div (Float64.ofInt 1000)).toRat = 0 := by
  have h : (Float64.ofInt 0).div (Float64.ofInt 1000) = ⟨0, 0⟩ := by decide
  rw [h]
  norm_num [Float64.toRat]

theorem float64_div_10_1000 :
    ((Float64.ofInt 10).div (Float64.ofInt 1000)).toRat
      = 5764607523034235 / 576460752303423488 := by
  have h : (Float64.ofInt 10).div (Float64.ofInt 1000) = ⟨5764607523034235, -59⟩ := by decide
  rw [h]
  norm_num [Float64.toRat]

theorem float64_div_1000_1000 : ((Float64.ofInt 1000).div (Float64.ofInt 1000)).toRat = 1 := by
  have h : (Float64.ofInt 1000).div (Float64.ofInt 1000) = ⟨4503599627370496, -52⟩ := by decide
  rw [h]
  norm_num [Float64.toRat]

theorem float64_div_2000_1000 : ((Float64.ofInt 2000).div (Float64.ofInt 1000)).toRat = 2 := by
  have h : (Float64.ofInt 2000).div (Float64.ofInt 1000) = ⟨4503599627370496, -51⟩ := by decide
  rw [h]
  norm_num [Float64.toRat]

/-! ## Lemmas on the table walks -/

theorem getAt_append_length {α : Type} (pre : List α) (e : α) (post : List α) :
    getAt (pre ++ e :: post) (pre.length : Int) = some e := by
  have h2 : ¬ ((pre.length : Int) < 0) := by omega
  simp only [getAt, h2, if_false, Int.toNat_ofNat]
  rw [List.getElem?_append_right (le_refl _)]
  simp

theorem getAt_append_length_succ {α : Type} (pre : List α) (e : α) (post : List α) :
    getAt (pre ++ e :: post) ((pre.length : Int) + 1) = post.head? := by
  have h : ((pre.length : Int) + 1).toNat = pre.length + 1 := by omega
  have h2 : ¬ ((pre.length : Int) + 1 < 0) := by omega
  simp only [getAt, h2, if_false, h]
  rw [List.getElem?_append_right (by omega)]
  cases post <;> simp

theorem getAt_eq_some_split {α : Type} (xs : List α) (i : Int) (e : α)
    (h : getAt xs i = some e) :
    ∃ pre post, xs = pre ++ e :: post ∧ i = (pre.length : Int) := by
  unfold getAt at h
  split at h
  · cases h
  · rename_i hi
    have hlt : i.toNat < xs.length := by
      rcases List.getElem?_eq_some_iff.mp h with ⟨hl, _⟩
      exact hl
    refine ⟨xs.take i.toNat, xs.drop (i.toNat + 1), ?_, ?_⟩
    · have he : xs[i.toNat] = e := by
        rcases List.getElem?_eq_some_iff.mp h with ⟨_, he⟩
        exact he
      rw [← he]
      simp
    · simp [List.length_take]
      omega

theorem Covers.getAt_eq {stc : List SampleToChunkEntry} {g : Int} {e : SampleToChunkEntry}
    {c : Int} (h : Covers stc g e c) : getAt stc g = some e := by
  obtain ⟨pre, post, rfl, rfl, _, _⟩ := h
  exact getAt_append_length pre e post

theorem Covers.entering {stc : List SampleToChunkEntry} {g : Int} {e : SampleToChunkEntry}
    {c : Int} (h : Covers stc g e c) : Entering stc g e c := by
  obtain ⟨pre, post, h1, h2, h3, h4⟩ := h
  refine ⟨pre, post, h1, h2, by omega, ?_⟩
  intro e' he'
  have := h4 e' he'
  omega

theorem entering_zero {stc : List SampleToChunkEntry} (hs : Ascending stc)
    (hfirst : (stc.head?).map (fun e => e.FirstChunk) = some 1) :
    ∃ e, Entering stc 0 e 0 := by
  cases stc with
  | nil => simp at hfirst
  | cons e post =>
    simp at hfirst
    refine ⟨e, [], post, by simp, by simp, by omega, ?_⟩
    intro e' he'
    have := (List.pairwise_cons.mp hs).1 e' he'
    omega

theorem chunkGroupStep_entering {stc : List SampleToChunkEntry} (hs : Ascending stc)
    {g0 : Int} {e0 : SampleToChunkEntry} {i : Int} (h : Entering stc g0 e0 i) :
    ∃ g e, chunkGroupStep stc g0 i = some g ∧ Covers stc g e (i + 1) := by
  obtain ⟨pre, post, rfl, rfl, h3, h4⟩ := h
  unfold chunkGroupStep
  rw [getAt_append_length_succ]
  cases post with
  | nil =>
    refine ⟨pre.length, e0, ?_, pre, [], rfl, rfl, h3, by simp⟩
    simp
  | cons e1 post1 =>
    have hlen : ((pre.length : Int) + 1 < ((pre ++ e0 :: e1 :: post1).length : Int)) := by
      simp
    simp only [hlen, if_true, List.head?_cons]
    have hs2 : ∀ e' ∈ post1, e1.FirstChunk < e'.FirstChunk := by
      have := (List.pairwise_append.mp hs).2.1
      have := (List.pairwise_cons.mp this).2
      exact (List.pairwise_cons.mp this).1
    by_cases hc : i + 1 = e1.FirstChunk
    · refine ⟨pre.length + 1, e1, by simp [hc], pre ++ [e0], post1, by simp, by simp, by omega, ?_⟩
      intro e' he'
      have := hs2 e' he'
      omega
    · refine ⟨pre.length, e0, by simp [hc], pre, e1 :: post1, rfl, rfl, h3, ?_⟩
      intro e' he'
      have h1 := h4 e1 (by simp)
      rcases List.mem_cons.mp he' with rfl | hm
      · omega
      · have := hs2 e' hm
        omega

theorem chunkGroupStep_covers {stc : List SampleToChunkEntry} {g : Int}
    {e : SampleToChunkEntry} {c : Int} (h : Covers stc g e (c + 1)) :
    chunkGroupStep stc g c = some g := by
  obtain ⟨pre, post, rfl, rfl, _, h4⟩ := h
  unfold chunkGroupStep
  rw [getAt_append_length_succ]
  cases post with
  | nil => simp
  | cons e1 post1 =>
    have := h4 e1 (by simp)
    have hc : ¬ (c + 1 = e1.FirstChunk) := by omega
    simp [hc]

theorem coveringRun_covers {stc : List SampleToChunkEntry} (hs : Ascending stc) {g : Int}
    {e : SampleToChunkEntry} {c : Int} (h : Covers stc g e c) : coveringRun stc c = some e := by
  obtain ⟨pre, post, rfl, rfl, h3, h4⟩ := h
  have hpre : ∀ e' ∈ pre, e'.FirstChunk < e.FirstChunk := by
    intro e' he'
    exact (List.pairwise_append.mp hs).2.2 e' he' e (by simp)
  have hf1 : pre.filter (fun e => decide (e.FirstChunk ≤ c)) = pre := by
    rw [List.filter_eq_self]
    intro a ha
    have := hpre a ha
    simp
    omega
  have hf2 : post.filter (fun e => decide (e.FirstChunk ≤ c)) = [] := by
    rw [List.filter_eq_nil_iff]
    intro a ha
    have := h4 a ha
    simp
    omega
  unfold coveringRun
  rw [List.filter_append, List.filter_cons, hf1, hf2]
  simp only [h3, decide_True, if_true]
  rw [List.argmax_concat]
  cases hm : List.argmax (fun e => e.FirstChunk) pre with
  | none => rfl
  | some m =>
    have := hpre m (List.argmax_mem hm)
    simp [this]

theorem samplesInChunk_covers {stc : List SampleToChunkEntry} (hs : Ascending stc) {g : Int}
    {e : SampleToChunkEntry} {c : Int} (h : Covers stc g e c) :
    samplesInChunk stc c = e.SamplesPerChunk := by
  simp [samplesInChunk, coveringRun_covers hs h]

theorem chunkFirst_succ (stc : List SampleToChunkEntry) (c : Nat) :
    chunkFirst stc (c + 1) = chunkFirst stc c + samplesInChunk stc ((c : Int) + 1) := by
  simp [chunkFirst, List.range_succ]

theorem getAt_mem {α : Type} {xs : List α} {i : Int} {e : α} (h : getAt xs i = some e) :
    e ∈ xs := by
  obtain ⟨pre, post, rfl, _⟩ := getAt_eq_some_split xs i e h
  simp

theorem locateChunk_spec {stc : List SampleToChunkEntry} (hs : Ascending stc) (index : Int) :
    ∀ (fuel i : Nat) (ci g0 : Int) (e0 : SampleToChunkEntry), Entering stc g0 e0 i →
      chunkFirst stc i ≤ index → index < chunkFirst stc (i + fuel) →
      ∃ (c : Nat) (g : Int) (e : SampleToChunkEntry),
        locateChunk stc index fuel i ci g0 (chunkFirst stc i)
          = some ((c : Int), g, some (index - chunkFirst stc c)) ∧
        i ≤ c ∧ c < i + fuel ∧ Covers stc g e ((c : Int) + 1) ∧
        chunkFirst stc c ≤ index ∧ index < chunkFirst stc c + e.SamplesPerChunk := by
  intro fuel
  induction fuel with
  | zero =>
    intro i ci g0 e0 _ h1 h2
    simp at h2
    omega
  | succ fuel ih =>
    intro i ci g0 e0 hent h1 h2
    obtain ⟨g, e, hstep, hcov⟩ := chunkGroupStep_entering hs hent
    have hget := hcov.getAt_eq
    have hsucc := chunkFirst_succ stc i
    rw [samplesInChunk_covers hs hcov] at hsucc
    by_cases hin : index < chunkFirst stc i + e.SamplesPerChunk
    · refine ⟨i, g, e, ?_, le_refl _, by omega, hcov, h1, hin⟩
      simp [locateChunk, hstep, hget, h1, hin]
    · have h1' : chunkFirst stc (i + 1) ≤ index := by omega
      have h2' : index < chunkFirst stc (i + 1 + fuel) := by
        have : i + 1 + fuel = i + (fuel + 1) := by omega
        rw [this]
        exact h2
      obtain ⟨c, g', e', hloc, hc1, hc2, hcov', hb1, hb2⟩ :=
        ih (i + 1) (i : Int) g e hcov.entering h1' h2'
      refine ⟨c, g', e', ?_, by omega, by omega, hcov', hb1, hb2⟩
      simp only [locateChunk, hstep, hget]
      rw [if_neg (by omega)]
      rw [← hsucc]
      push_cast at hloc
      exact hloc

theorem locateChunk_succ {stc : List SampleToChunkEntry}
    (hpos : ∀ e ∈ stc, 0 < e.SamplesPerChunk) (index : Int) :
    ∀ (fuel : Nat) (i ci g0 start c g j c' g' j' : Int), start ≤ index →
      locateChunk stc index fuel i ci g0 start = some (c, g, some j) →
      locateChunk stc (index + 1) fuel i ci g0 start = some (c', g', some j') →
      ∃ e, getAt stc g = some e ∧ 0 ≤ j ∧
        ((j + 1 ≠ e.SamplesPerChunk ∧ c' = c ∧ g' = g ∧ j' = j + 1) ∨
         (j + 1 = e.SamplesPerChunk ∧ c' = c + 1 ∧
            chunkGroupStep stc g (c + 1) = some g' ∧ j' = 0)) := by
  intro fuel
  induction fuel with
  | zero =>
    intro i ci g0 start c g j c' g' j' _ h1 _
    simp [locateChunk] at h1
  | succ fuel ih =>
    intro i ci g0 start c g j c' g' j' hle h1 h2
    unfold locateChunk at h1 h2
    cases hstep : chunkGroupStep stc g0 i with
    | none => simp [hstep] at h1
    | some g1 =>
      cases hget : getAt stc g1 with
      | none => simp [hstep, hget] at h1
      | some e =>
        simp only [hstep, hget] at h1 h2
        by_cases hin : index < start + e.SamplesPerChunk
        · rw [if_pos ⟨hle, hin⟩] at h1
          simp only [Option.some.injEq, Prod.mk.injEq] at h1
          obtain ⟨rfl, rfl, rfl⟩ := h1
          refine ⟨e, hget, by omega, ?_⟩
          by_cases hin2 : index + 1 < start + e.SamplesPerChunk
          · rw [if_pos ⟨by omega, hin2⟩] at h2
            simp only [Option.some.injEq, Prod.mk.injEq] at h2
            obtain ⟨rfl, rfl, rfl⟩ := h2
            left
            exact ⟨by omega, rfl, rfl, by omega⟩
          · rw [if_neg (by omega)] at h2
            right
            cases fuel with
            | zero => simp [locateChunk] at h2
            | succ fuel =>
              unfold locateChunk at h2
              cases hstep2 : chunkGroupStep stc g1 (i + 1) with
              | none => simp [hstep2] at h2
              | some g2 =>
                cases hget2 : getAt stc g2 with
                | none => simp [hstep2, hget2] at h2
                | some e2 =>
                  simp only [hstep2, hget2] at h2
                  have hp := hpos e2 (getAt_mem hget2)
                  rw [if_pos ⟨by omega, by omega⟩] at h2
                  simp only [Option.some.injEq, Prod.mk.injEq] at h2
                  obtain ⟨rfl, rfl, rfl⟩ := h2
                  exact ⟨by omega, rfl, rfl, by omega⟩
        · rw [if_neg (by omega)] at h1
          rw [if_neg (by omega)] at h2
          exact ih (i + 1) i g1 (start + e.SamplesPerChunk) c g j c' g' j' (by omega) h1 h2

theorem getAt_of_lt {α : Type} (xs : List α) (i : Int) (h0 : 0 ≤ i) (h1 : i < xs.length) :
    ∃ v, getAt xs i = some v := by
  have hlt : i.toNat < xs.length := by omega
  refine ⟨xs[i.toNat], ?_⟩
  simp [getAt, hlt]
  omega

theorem sumSizes_exists (entries : List Int) :
    ∀ (fuel : Nat) (i acc : Int), 0 ≤ i → i + fuel ≤ entries.length →
      ∃ r, sumSizes entries fuel i acc = some r := by
  intro fuel
  induction fuel with
  | zero => intro i acc _ _; exact ⟨acc, rfl⟩
  | succ fuel ih =>
    intro i acc h0 h1
    obtain ⟨v, hv⟩ := getAt_of_lt entries i h0 (by push_cast at h1; omega)
    obtain ⟨r, hr⟩ := ih (i + 1) (acc + v) (by omega) (by push_cast at h1 ⊢; omega)
    exact ⟨r, by simp [sumSizes, hv, hr]⟩

theorem sumSizes_succ (entries : List Int) :
    ∀ (fuel : Nat) (i acc r v : Int), sumSizes entries fuel i acc = some r →
      getAt entries (i + fuel) = some v → sumSizes entries (fuel + 1) i acc = some (r + v) := by
  intro fuel
  induction fuel with
  | zero =>
    intro i acc r v h1 h2
    simp [sumSizes] at h1
    simp at h2
    simp [sumSizes, h2, h1]
  | succ fuel ih =>
    intro i acc r v h1 h2
    unfold sumSizes at h1
    cases hw : getAt entries i with
    | none => simp [hw] at h1
    | some w =>
      simp only [hw] at h1
      have h2' : getAt entries (i + 1 + (fuel : Int)) = some v := by
        have : i + 1 + (fuel : Int) = i + ((fuel + 1 : Nat) : Int) := by push_cast; ring
        rw [this]
        exact h2
      have := ih (i + 1) (acc + w) r v h1 h2'
      rw [sumSizes, hw]
      exact this

theorem locateStts_found (index : Int) :
    ∀ (es : List TimeToSampleEntry) (k start dts : Int), start ≤ index →
      index < start + sttsCount es →
      ∃ k' d j, locateStts index es k start dts = (k', d, some j) := by
  intro es
  induction es with
  | nil =>
    intro k start dts h1 h2
    simp [sttsCount] at h2
    omega
  | cons e rest ih =>
    intro k start dts h1 h2
    unfold locateStts
    by_cases hin : index < start + e.Count
    · rw [if_pos ⟨h1, hin⟩]
      exact ⟨_, _, _, rfl⟩
    · rw [if_neg (by omega)]
      apply ih
      · omega
      · simp [sttsCount] at h2 ⊢
        omega

theorem locateStts_succ (index : Int) :
    ∀ (es pre : List TimeToSampleEntry) (k start dts k1 d1 j1 k2 d2 j2 : Int),
      (∀ e ∈ es, 0 < e.Count) → k = (pre.length : Int) → start ≤ index →
      locateStts index es k start dts = (k1, d1, some j1) →
      locateStts (index + 1) es k start dts = (k2, d2, some j2) →
      ∃ e, getAt (pre ++ es) k1 = some e ∧ 0 ≤ j1 ∧ d2 = wrap64 (d1 + e.Duration) ∧
        ((j1 + 1 ≠ e.Count ∧ k2 = k1 ∧ j2 = j1 + 1) ∨
         (j1 + 1 = e.Count ∧ k2 = k1 + 1 ∧ j2 = 0)) := by
  intro es
  induction es with
  | nil =>
    intro pre k start dts k1 d1 j1 k2 d2 j2 _ _ _ h1 _
    simp [locateStts] at h1
  | cons e rest ih =>
    intro pre k start dts k1 d1 j1 k2 d2 j2 hpos hk hle h1 h2
    unfold locateStts at h1 h2
    by_cases hin : index < start + e.Count
    · rw [if_pos ⟨hle, hin⟩] at h1
      simp only [Prod.mk.injEq, Option.some.injEq] at h1
      obtain ⟨rfl, rfl, rfl⟩ := h1
      refine ⟨e, by rw [hk]; exact getAt_append_length pre e rest, by omega, ?_⟩
      by_cases hin2 : index + 1 < start + e.Count
      · rw [if_pos ⟨by omega, hin2⟩] at h2
        simp only [Prod.mk.injEq, Option.some.injEq] at h2
        obtain ⟨rfl, rfl, rfl⟩ := h2
        refine ⟨?_, Or.inl ⟨by omega, rfl, by omega⟩⟩
        have hx : (index + 1 - start) * e.Duration
            = (index - start) * e.Duration + e.Duration := by ring
        rw [hx]
        exact wrap64_step _ _ _
      · rw [if_neg (by omega)] at h2
        have heq : index + 1 = start + e.Count := by omega
        cases rest with
        | nil => simp [locateStts] at h2
        | cons e2 rest2 =>
          unfold locateStts at h2
          have hp := hpos e2 (by simp)
          rw [if_pos ⟨by omega, by omega⟩] at h2
          simp only [Prod.mk.injEq, Option.some.injEq] at h2
          obtain ⟨rfl, rfl, rfl⟩ := h2
          refine ⟨?_, Or.inr ⟨by omega, rfl, by omega⟩⟩
          have h3 : index + 1 - (start + e.Count) = 0 := by omega
          have h4 : e.Count = index - start + 1 := by omega
          have hx : (index - start + 1) * e.Duration
              = (index - start) * e.Duration + e.Duration := by ring
          rw [h3, h4, zero_mul, hx]
          generalize (index - start) * e.Duration = x
          unfold wrap64
          omega
    · rw [if_neg (by omega)] at h1
      rw [if_neg (by omega)] at h2
      have := ih (pre ++ [e]) (k + 1) (start + e.Count)
        (wrap64 (dts + wrap64 (e.Count * e.Duration)))
        k1 d1 j1 k2 d2 j2 (fun e' he' => hpos e' (by simp [he'])) (by simp [hk]) (by omega) h1 h2
      simpa using this

theorem locateCtts_found (index : Int) :
    ∀ (es : List CompositionOffsetEntry) (k start : Int), start ≤ index →
      index < start + cttsCount es →
      ∃ k' j, locateCtts index es k start = (k', some j) := by
  intro es
  induction es with
  | nil =>
    intro k start h1 h2
    simp [cttsCount] at h2
    omega
  | cons e rest ih =>
    intro k start h1 h2
    unfold locateCtts
    by_cases hin : index < start + e.Count
    · rw [if_pos ⟨h1, hin⟩]
      exact ⟨_, _, rfl⟩
    · rw [if_neg (by omega)]
      apply ih
      · omega
      · simp [cttsCount] at h2 ⊢
        omega

theorem locateCtts_succ (index : Int) :
    ∀ (es pre : List CompositionOffsetEntry) (k start k1 j1 k2 j2 : Int),
      (∀ e ∈ es, 0 < e.Count) → k = (pre.length : Int) → start ≤ index →
      locateCtts index es k start = (k1, some j1) →
      locateCtts (index + 1) es k start = (k2, some j2) →
      ∃ e, getAt (pre ++ es) k1 = some e ∧ 0 ≤ j1 ∧
        ((j1 + 1 ≠ e.Count ∧ k2 = k1 ∧ j2 = j1 + 1) ∨
         (j1 + 1 = e.Count ∧ k2 = k1 + 1 ∧ j2 = 0)) := by
  intro es
  induction es with
  | nil =>
    intro pre k start k1 j1 k2 j2 _ _ _ h1 _
    simp [locateCtts] at h1
  | cons e rest ih =>
    intro pre k start k1 j1 k2 j2 hpos hk hle h1 h2
    unfold locateCtts at h1 h2
    by_cases hin : index < start + e.Count
    · rw [if_pos ⟨hle, hin⟩] at h1
      simp only [Prod.mk.injEq, Option.some.injEq] at h1
      obtain ⟨rfl, rfl⟩ := h1
      refine ⟨e, by rw [hk]; exact getAt_append_length pre e rest, by omega, ?_⟩
      by_cases hin2 : index + 1 < start + e.Count
      · rw [if_pos ⟨by omega, hin2⟩] at h2
        simp only [Prod.mk.injEq, Option.some.injEq] at h2
        obtain ⟨rfl, rfl⟩ := h2
        exact Or.inl ⟨by omega, rfl, by omega⟩
      · rw [if_neg (by omega)] at h2
        cases rest with
        | nil => simp [locateCtts] at h2
        | cons e2 rest2 =>
          unfold locateCtts at h2
          have hp := hpos e2 (by simp)
          rw [if_pos ⟨by omega, by omega⟩] at h2
          simp only [Prod.mk.injEq, Option.some.injEq] at h2
          obtain ⟨rfl, rfl⟩ := h2
          exact Or.inr ⟨by omega, rfl, by omega⟩
    · rw [if_neg (by omega)] at h1
      rw [if_neg (by omega)] at h2
      have := ih (pre ++ [e]) (k + 1) (start + e.Count)
        k1 j1 k2 j2 (fun e' he' => hpos e' (by simp [he'])) (by simp [hk]) (by omega) h1 h2
      simpa using this

theorem incChunk_eq (a : Stream) (e : SampleToChunkEntry)
    (hg : getAt a.sample.SampleToChunk a.chunkGroupIndex = some e)
    (hsize : a.sample.SampleSize = 0 → a.sampleIndexInChunk + 1 ≠ e.SamplesPerChunk →
      ∃ v, getAt a.sample.SampleSizeEntries a.sampleIndex = some v) :
    incChunk a = some { a with
      sampleIndexInChunk :=
        if a.sampleIndexInChunk + 1 = e.SamplesPerChunk then 0 else a.sampleIndexInChunk + 1
      chunkIndex :=
        if a.sampleIndexInChunk + 1 = e.SamplesPerChunk then a.chunkIndex + 1 else a.chunkIndex
      sampleOffsetInChunk :=
        if a.sampleIndexInChunk + 1 = e.SamplesPerChunk then 0
        else if a.sample.SampleSize ≠ 0 then a.sampleOffsetInChunk + a.sample.SampleSize
        else a.sampleOffsetInChunk + (getAt a.sample.SampleSizeEntries a.sampleIndex).getD 0 } := by
  unfold incChunk
  dsimp only
  rw [hg]
  dsimp only
  by_cases hc : a.sampleIndexInChunk + 1 = e.SamplesPerChunk
  · simp only [hc, if_true]
  · simp only [hc, if_false]
    by_cases hz : a.sample.SampleSize = 0
    · obtain ⟨v, hv⟩ := hsize hz hc
      simp [hz, hv]
    · simp [hz]

theorem incGroup_eq (a : Stream) (g : Int)
    (h : chunkGroupStep a.sample.SampleToChunk a.chunkGroupIndex a.chunkIndex = some g) :
    incGroup a = some { a with chunkGroupIndex := g } := by
  unfold incGroup
  rw [h]

theorem incStts_eq (a : Stream) (es : TimeToSampleEntry)
    (h : getAt a.sample.TimeToSample a.sttsEntryIndex = some es) :
    incStts a = some ({ a with
      sampleIndexInSttsEntry :=
        if a.sampleIndexInSttsEntry + 1 = es.Count then 0 else a.sampleIndexInSttsEntry + 1
      dts := wrap64 (a.dts + es.Duration)
      sttsEntryIndex :=
        if a.sampleIndexInSttsEntry + 1 = es.Count then a.sttsEntryIndex + 1
        else a.sttsEntryIndex }, es.Duration) := by
  unfold incStts
  rw [h]
  dsimp only
  by_cases hc : a.sampleIndexInSttsEntry + 1 = es.Count
  · simp only [hc, if_true]
  · simp only [hc, if_false]

theorem incCtts_eq (a : Stream)
    (h : ∀ entries, a.sample.CompositionOffset = some entries → entries ≠ [] →
      ∃ ec, getAt entries a.cttsEntryIndex = some ec) :
    incCtts a = some { a with
      cttsEntryIndex := (cttsNext a).1, sampleIndexInCttsEntry := (cttsNext a).2 } := by
  unfold incCtts cttsNext
  cases hco : a.sample.CompositionOffset with
  | none => rfl
  | some entries =>
    dsimp only
    by_cases he : entries = []
    · subst he
      simp [getAt]
    · obtain ⟨ec, hec⟩ := h entries hco he
      have hl : entries.length > 0 := List.length_pos.mpr he
      rw [if_pos hl, hec]
      dsimp only
      by_cases hc : a.sampleIndexInCttsEntry + 1 = ec.Count
      · simp only [hc, if_true]
      · simp only [hc, if_false]

theorem incSync_eq (a : Stream)
    (h : ∀ entries, a.sample.SyncSample = some entries → 0 ≤ a.syncSampleIndex) :
    incSync a = some { a with syncSampleIndex := syncNext a } := by
  unfold incSync syncNext
  cases hsy : a.sample.SyncSample with
  | none => rfl
  | some entries =>
    dsimp only
    have h0 := h entries hsy
    by_cases hl : a.syncSampleIndex + 1 < entries.length
    · obtain ⟨v, hv⟩ := getAt_of_lt entries (a.syncSampleIndex + 1) (by omega) hl
      rw [if_pos hl, hv]
      dsimp only
      by_cases hc : v - 1 = a.sampleIndex + 1
      · have hv2 : v = a.sampleIndex + 2 := by omega
        rw [if_pos hc, if_pos (by rw [hv2])]
      · have hv2 : ¬ (some v = some (a.sampleIndex + 2)) := by
          intro h2
          injection h2 with h2
          omega
        rw [if_neg hc, if_neg hv2]
    · rw [if_neg hl]
      have : getAt entries (a.syncSampleIndex + 1) = none := by
        unfold getAt
        rw [if_neg (by omega)]
        apply List.getElem?_eq_none
        omega
      simp [this]

/-- The cursor after `incSampleIndex`, field by field, when the table reads it
makes are in range. -/
theorem incSampleIndex_eq (a : Stream) (e : SampleToChunkEntry) (es : TimeToSampleEntry) (g : Int)
    (hg : getAt a.sample.SampleToChunk a.chunkGroupIndex = some e)
    (hsize : a.sample.SampleSize = 0 → a.sampleIndexInChunk + 1 ≠ e.SamplesPerChunk →
      ∃ v, getAt a.sample.SampleSizeEntries a.sampleIndex = some v)
    (hstep : chunkGroupStep a.sample.SampleToChunk a.chunkGroupIndex
      (if a.sampleIndexInChunk + 1 = e.SamplesPerChunk then a.chunkIndex + 1 else a.chunkIndex)
        = some g)
    (hs : getAt a.sample.TimeToSample a.sttsEntryIndex = some es)
    (hctts : ∀ entries, a.sample.CompositionOffset = some entries → entries ≠ [] →
      ∃ ec, getAt entries a.cttsEntryIndex = some ec)
    (hsync : ∀ entries, a.sample.SyncSample = some entries → 0 ≤ a.syncSampleIndex) :
    incSampleIndex a = some ({ a with
      sampleIndex := a.sampleIndex + 1
      sampleIndexInChunk :=
        if a.sampleIndexInChunk + 1 = e.SamplesPerChunk then 0 else a.sampleIndexInChunk + 1
      chunkIndex :=
        if a.sampleIndexInChunk + 1 = e.SamplesPerChunk then a.chunkIndex + 1 else a.chunkIndex
      sampleOffsetInChunk :=
        if a.sampleIndexInChunk + 1 = e.SamplesPerChunk then 0
        else if a.sample.SampleSize ≠ 0 then a.sampleOffsetInChunk + a.sample.SampleSize
        else a.sampleOffsetInChunk + (getAt a.sample.SampleSizeEntries a.sampleIndex).getD 0
      chunkGroupIndex := g
      sampleIndexInSttsEntry :=
        if a.sampleIndexInSttsEntry + 1 = es.Count then 0 else a.sampleIndexInSttsEntry + 1
      dts := wrap64 (a.dts + es.Duration)
      sttsEntryIndex :=
        if a.sampleIndexInSttsEntry + 1 = es.Count then a.sttsEntryIndex + 1
        else a.sttsEntryIndex
      cttsEntryIndex := (cttsNext a).1
      sampleIndexInCttsEntry := (cttsNext a).2
      syncSampleIndex := syncNext a }, es.Duration) := by
  unfold incSampleIndex
  rw [incChunk_eq a e hg hsize]
  dsimp only
  rw [incGroup_eq _ g (by exact hstep)]
  dsimp only
  rw [incStts_eq _ es (by exact hs)]
  dsimp only
  rw [incCtts_eq _ (by exact hctts)]
  dsimp only
  rw [incSync_eq _ (by exact hsync)]
  rfl

theorem locateChunk_found_indep (stc : List SampleToChunkEntry) (index : Int) (fuel : Nat)
    (i ci ci' g start : Int) (r : Int × Int × Int)
    (h : locateChunk stc index fuel i ci g start = some (r.1, r.2.1, some r.2.2)) :
    locateChunk stc index fuel i ci' g start = some (r.1, r.2.1, some r.2.2) := by
  cases fuel with
  | zero => simp [locateChunk] at h
  | succ fuel =>
    unfold locateChunk at h ⊢
    exact h

theorem samplesInChunk_nonneg {stc : List SampleToChunkEntry}
    (hpos : ∀ e ∈ stc, 0 < e.SamplesPerChunk) (c : Int) : 0 ≤ samplesInChunk stc c := by
  unfold samplesInChunk
  cases h : coveringRun stc c with
  | none => simp
  | some e =>
    have hm : e ∈ stc := by
      unfold coveringRun at h
      exact (List.mem_filter.mp (List.argmax_mem h)).1
    have := hpos e hm
    simp
    omega

theorem chunkFirst_nonneg {stc : List SampleToChunkEntry}
    (hpos : ∀ e ∈ stc, 0 < e.SamplesPerChunk) (c : Nat) : 0 ≤ chunkFirst stc c := by
  induction c with
  | zero => simp [chunkFirst]
  | succ c ih =>
    rw [chunkFirst_succ]
    have := samplesInChunk_nonneg hpos ((c : Int) + 1)
    omega

theorem locateSync_ge (index : Int) : ∀ (l : List Int) (k : Int), k ≤ locateSync index l k := by
  intro l
  induction l with
  | nil => intro k; simp [locateSync]
  | cons v rest ih =>
    intro k
    unfold locateSync
    split
    · exact le_refl _
    · have := ih (k + 1)
      omega

/-- The cursor after a successful `setSampleIndex`, field by field. -/
theorem setSampleIndex_eq (s : Stream) (index c g j off k d js : Int)
    (hloc : locateChunk s.sample.SampleToChunk index s.sample.ChunkOffset.length 0 s.chunkIndex 0 0
      = some (c, g, some j))
    (hoff : offsetInChunk s.sample index j = some (some off))
    (hstts : locateStts index s.sample.TimeToSample 0 0 0 = (k, d, some js))
    (hctts : ∀ entries, s.sample.CompositionOffset = some entries → entries ≠ [] →
      ∃ kc jc, locateCtts index entries 0 0 = (kc, some jc)) :
    setSampleIndex s index = some ({ s with
      chunkIndex := c, chunkGroupIndex := g, sampleIndexInChunk := j, sampleOffsetInChunk := off,
      dts := d, sttsEntryIndex := k, sampleIndexInSttsEntry := js,
      cttsEntryIndex := (cttsAt s index).1, sampleIndexInCttsEntry := (cttsAt s index).2,
      syncSampleIndex := syncAt s index, sampleIndex := index }, none) := by
  unfold setSampleIndex
  rw [hloc]
  dsimp only
  rw [hoff]
  dsimp only
  rw [hstts]
  dsimp only
  unfold cttsAt syncAt
  cases hco : s.sample.CompositionOffset with
  | none =>
    dsimp only
    cases hsy : s.sample.SyncSample <;> rfl
  | some entries =>
    dsimp only
    by_cases he : entries = []
    · subst he
      simp only [List.length_nil, gt_iff_lt, lt_self_iff_false, if_false]
      cases hsy : s.sample.SyncSample <;> rfl
    · obtain ⟨kc, jc, hl⟩ := hctts entries hco he
      have hlen : entries.length > 0 := List.length_pos.mpr he
      simp only [if_pos hlen, hl]
      cases hsy : s.sample.SyncSample <;> rfl

theorem chunkFirst_zero (stc : List SampleToChunkEntry) : chunkFirst stc 0 = 0 := by
  simp [chunkFirst]

/-- On a well-formed table the chunk loop of `setSampleIndex` finds every
existing sample, in the chunk whose sample range contains it. -/
theorem locateChunk_wellFormed {t : SampleTable} (hwf : WellFormed t) (i : Int) (h0 : 0 ≤ i)
    (h1 : i < totalSamples t) (ci : Int) :
    ∃ (c : Nat) (g : Int) (e : SampleToChunkEntry),
      locateChunk t.SampleToChunk i t.ChunkOffset.length 0 ci 0 0
        = some ((c : Int), g, some (i - chunkFirst t.SampleToChunk c)) ∧
      c < t.ChunkOffset.length ∧ Covers t.SampleToChunk g e ((c : Int) + 1) ∧
      chunkFirst t.SampleToChunk c ≤ i ∧ i < chunkFirst t.SampleToChunk c + e.SamplesPerChunk := by
  obtain ⟨e0, hent⟩ := entering_zero hwf.ascending hwf.first
  have h := locateChunk_spec hwf.ascending i t.ChunkOffset.length 0 ci 0 e0
    (by simpa using hent) (by rw [chunkFirst_zero]; exact h0)
    (by simpa [totalSamples] using h1)
  obtain ⟨c, g, e, hloc, _, hc, hcov, hb1, hb2⟩ := h
  refine ⟨c, g, e, ?_, by omega, hcov, hb1, hb2⟩
  rw [chunkFirst_zero] at hloc
  simpa using hloc

theorem offsetInChunk_wellFormed {t : SampleTable} (hwf : WellFormed t) (i : Int)
    (h1 : i < totalSamples t) (j : Int) (hj0 : 0 ≤ j) (hj1 : j ≤ i) :
    ∃ off, offsetInChunk t i j = some (some off) := by
  unfold offsetInChunk
  by_cases hz : t.SampleSize = 0
  · rcases hwf.sizes with h | ⟨_, hlen⟩
    · exact absurd hz h
    · simp only [hz, ne_eq, not_true_eq_false, if_false]
      rw [if_neg (by omega)]
      obtain ⟨r, hr⟩ := sumSizes_exists t.SampleSizeEntries (i - (i - j)).toNat (i - j) 0
        (by omega) (by omega)
      rw [hr]
      exact ⟨r, rfl⟩
  · simp [hz]

/-- On a well-formed table `setSampleIndex` succeeds on every existing sample
and leaves the cursor positioned on it. -/
theorem setSampleIndex_positioned (s : Stream) (i : Int) (hwf : WellFormed s.sample)
    (h0 : 0 ≤ i) (h1 : i < totalSamples s.sample) :
    ∃ a, setSampleIndex s i = some (a, none) ∧ a.sample = s.sample ∧ Positioned a i := by
  obtain ⟨c, g, e, hloc, hc, hcov, hb1, hb2⟩ := locateChunk_wellFormed hwf i h0 h1 s.chunkIndex
  have hcf := chunkFirst_nonneg hwf.positive c
  obtain ⟨off, hoff⟩ := offsetInChunk_wellFormed hwf i h1
    (i - chunkFirst s.sample.SampleToChunk c) (by omega) (by omega)
  obtain ⟨k, d, js, hstts⟩ := locateStts_found i s.sample.TimeToSample 0 0 0 h0
    (by rw [hwf.sttsTotal]; omega)
  have hctts : ∀ entries, s.sample.CompositionOffset = some entries → entries ≠ [] →
      ∃ kc jc, locateCtts i entries 0 0 = (kc, some jc) := by
    intro entries hco he
    have := (hwf.ctts entries hco he).2
    exact locateCtts_found i entries 0 0 h0 (by rw [this]; omega)
  refine ⟨_, setSampleIndex_eq s i c g _ off k d js hloc hoff hstts hctts, rfl, ?_⟩
  constructor
  · exact locateChunk_found_indep _ i _ 0 s.chunkIndex 0 0 0 (c, g, _) hloc
  · exact hoff
  · exact hstts
  · intro entries hco he
    obtain ⟨kc, jc, hl⟩ := hctts entries hco he
    have hco' : s.sample.CompositionOffset = some entries := hco
    have hlen : entries.length > 0 := List.length_pos.mpr he
    simp only [cttsAt, hco', if_pos hlen, hl]
  · intro entries hsy
    have hsy' : s.sample.SyncSample = some entries := hsy
    simp only [syncAt, hsy']
    exact locateSync_ge i _ 0
  · rfl

theorem offsetInChunk_explicit (t : SampleTable) (hz : t.SampleSize = 0) (i j : Int)
    (hlt : i < t.SampleSizeEntries.length) :
    offsetInChunk t i j = (sumSizes t.SampleSizeEntries j.toNat (i - j) 0).map some := by
  unfold offsetInChunk
  have hfuel : (i - (i - j)).toNat = j.toNat := by
    congr 1
    omega
  rw [if_neg (by simp [hz]), if_neg (by omega), hfuel]
  cases sumSizes t.SampleSizeEntries j.toNat (i - j) 0 <;> rfl

theorem offsetInChunk_constant (t : SampleTable) (hz : t.SampleSize ≠ 0) (i j : Int) :
    offsetInChunk t i j = some (some (j * t.SampleSize)) := by
  unfold offsetInChunk
  rw [if_pos hz]

/-- On a well-formed table `incSampleIndex` moves a cursor positioned on sample
`i` to sample `i + 1`, when that sample exists. -/
theorem incSampleIndex_positioned (a : Stream) (i : Int) (hwf : WellFormed a.sample)
    (h0 : 0 ≤ i) (h1 : i + 1 < totalSamples a.sample) (hp : Positioned a i) :
    ∃ b d, incSampleIndex a = some (b, d) ∧ b.sample = a.sample ∧ Positioned b (i + 1) := by
  -- the chunk of sample `i` and of sample `i + 1`
  obtain ⟨c, g, e, hloc, hc, hcov, hb1, hb2⟩ :=
    locateChunk_wellFormed hwf i h0 (by omega) 0
  obtain ⟨c', g', e', hloc', hc', hcov', hb1', hb2'⟩ :=
    locateChunk_wellFormed hwf (i + 1) (by omega) h1 0
  have hchunk := hp.chunk
  rw [hloc] at hchunk
  simp only [Option.some.injEq, Prod.mk.injEq] at hchunk
  obtain ⟨hci, hcgi, hj⟩ := hchunk
  obtain ⟨e2, hget, hj0, hcase⟩ := locateChunk_succ hwf.positive i _ 0 0 0 0 _ _ _ _ _ _ h0
    hp.chunk hloc'
  have hidx := hp.index
  -- the explicit size of sample `i`
  have hsize : a.sample.SampleSize = 0 → a.sampleIndexInChunk + 1 ≠ e2.SamplesPerChunk →
      ∃ v, getAt a.sample.SampleSizeEntries a.sampleIndex = some v := by
    intro hz _
    rcases hwf.sizes with h | ⟨_, hlen⟩
    · exact absurd hz h
    · exact getAt_of_lt _ _ (by omega) (by omega)
  -- the chunk group after the step
  have hstep : ∃ gn, chunkGroupStep a.sample.SampleToChunk a.chunkGroupIndex
      (if a.sampleIndexInChunk + 1 = e2.SamplesPerChunk then a.chunkIndex + 1 else a.chunkIndex)
        = some gn ∧
      locateChunk a.sample.SampleToChunk (i + 1) a.sample.ChunkOffset.length 0 0 0 0
        = some ((if a.sampleIndexInChunk + 1 = e2.SamplesPerChunk then a.chunkIndex + 1
                 else a.chunkIndex), gn,
            some (if a.sampleIndexInChunk + 1 = e2.SamplesPerChunk then 0
                  else a.sampleIndexInChunk + 1)) := by
    rcases hcase with ⟨hne, h2, h3, h4⟩ | ⟨heq, h2, h3, h4⟩
    · refine ⟨a.chunkGroupIndex, ?_, ?_⟩
      · rw [if_neg hne, ← hcgi, ← hci]
        exact chunkGroupStep_covers hcov
      · rw [if_neg hne, if_neg hne, hloc', h2, h3, h4]
    · refine ⟨g', ?_, ?_⟩
      · rw [if_pos heq]
        exact h3
      · rw [if_pos heq, if_pos heq, hloc', h2, h4]
  obtain ⟨gn, hstep, hlocn⟩ := hstep
  -- the time-to-sample run
  obtain ⟨k', d', js', hstts'⟩ := locateStts_found (i + 1) a.sample.TimeToSample 0 0 0
    (by omega) (by rw [hwf.sttsTotal]; omega)
  obtain ⟨es, hes, hjs0, hd, hscase⟩ := locateStts_succ i a.sample.TimeToSample [] 0 0 0
    _ _ _ _ _ _ hwf.sttsPositive (by simp) h0 hp.stts hstts'
  simp only [List.nil_append] at hes
  -- the composition-offset run
  have hctts' : ∀ entries, a.sample.CompositionOffset = some entries → entries ≠ [] →
      ∃ kc jc, locateCtts (i + 1) entries 0 0 = (kc, some jc) := by
    intro entries hco he
    have := (hwf.ctts entries hco he).2
    exact locateCtts_found (i + 1) entries 0 0 (by omega) (by rw [this]; omega)
  have hctts : ∀ entries, a.sample.CompositionOffset = some entries → entries ≠ [] →
      ∃ ec, getAt entries a.cttsEntryIndex = some ec := by
    intro entries hco he
    obtain ⟨kc, jc, hl⟩ := hctts' entries hco he
    obtain ⟨ec, hec, _⟩ := locateCtts_succ i entries [] 0 0 _ _ _ _
      (hwf.ctts entries hco he).1 (by simp) h0 (hp.ctts entries hco he) hl
    exact ⟨ec, by simpa using hec⟩
  refine ⟨_, _, incSampleIndex_eq a e2 es gn hget hsize hstep hes hctts hp.sync, rfl, ?_⟩
  constructor
  · exact hlocn
  · -- the in-chunk byte offset
    dsimp only
    have hoff := hp.offset
    by_cases hz : a.sample.SampleSize = 0
    · rcases hwf.sizes with h | ⟨_, hlen⟩
      · exact absurd hz h
      · rw [offsetInChunk_explicit _ hz _ _ (by omega)] at hoff
        rw [offsetInChunk_explicit _ hz _ _ (by omega)]
        by_cases hm : a.sampleIndexInChunk + 1 = e2.SamplesPerChunk
        · simp [hm, sumSizes]
        · simp only [hm, if_false, hz, ne_eq, not_true_eq_false]
          obtain ⟨v, hv⟩ := hsize hz hm
          cases hsum : sumSizes a.sample.SampleSizeEntries
              a.sampleIndexInChunk.toNat (i - a.sampleIndexInChunk) 0 with
          | none => simp [hsum] at hoff
          | some r =>
            simp only [hsum, Option.map_some', Option.some.injEq] at hoff
            have hfuel : (a.sampleIndexInChunk + 1).toNat = a.sampleIndexInChunk.toNat + 1 := by
              omega
            have hstart : i + 1 - (a.sampleIndexInChunk + 1) = i - a.sampleIndexInChunk := by
              omega
            have hv' : getAt a.sample.SampleSizeEntries
                (i - a.sampleIndexInChunk + (a.sampleIndexInChunk.toNat : Int)) = some v := by
              have : i - a.sampleIndexInChunk + (a.sampleIndexInChunk.toNat : Int)
                  = a.sampleIndex := by omega
              rw [this]
              exact hv
            rw [hfuel, hstart, sumSizes_succ _ _ _ _ r v hsum hv', hv, hoff]
            rfl
    · rw [offsetInChunk_constant _ hz] at hoff
      rw [offsetInChunk_constant _ hz]
      simp only [Option.some.injEq] at hoff
      by_cases hm : a.sampleIndexInChunk + 1 = e2.SamplesPerChunk
      · simp [hm]
      · simp only [hm, if_false, hz, ne_eq, not_false_eq_true, if_true, Option.some.injEq]
        rw [← hoff]
        ring
  · -- the decode timestamp
    dsimp only
    rw [hstts', hd]
    rcases hscase with ⟨hne, h2, h3⟩ | ⟨heq, h2, h3⟩
    · rw [if_neg hne, if_neg hne, h2, h3]
    · rw [if_pos heq, if_pos heq, h2, h3]
  · intro entries hco he
    have hco' : a.sample.CompositionOffset = some entries := hco
    obtain ⟨kc, jc, hl⟩ := hctts' entries hco' he
    obtain ⟨ec, hec, _, hccase⟩ := locateCtts_succ i entries [] 0 0 _ _ _ _
      (hwf.ctts entries hco' he).1 (by simp) h0 (hp.ctts entries hco' he) hl
    simp only [List.nil_append] at hec
    dsimp only
    simp only [cttsNext, hco', hec]
    rw [hl]
    rcases hccase with ⟨hne, h2, h3⟩ | ⟨heq, h2, h3⟩
    · rw [if_neg hne, h2, h3]
    · rw [if_pos heq, h2, h3]
  · intro entries hsy
    have hsy' : a.sample.SyncSample = some entries := hsy
    have := hp.sync entries hsy'
    dsimp only
    simp only [syncNext, hsy']
    split <;> omega
  · dsimp only
    rw [hidx]

/-! ## Direct positioning and incremental advancement -/

theorem advance_positioned :
    ∀ (n : Nat) (a : Stream) (k : Int), WellFormed a.sample → 0 ≤ k →
      k + n < totalSamples a.sample → Positioned a k →
      ∃ b, advance n a = some b ∧ b.sample = a.sample ∧ Positioned b (k + n) := by
  intro n
  induction n with
  | zero =>
    intro a k _ _ _ hp
    exact ⟨a, rfl, rfl, by simpa using hp⟩
  | succ n ih =>
    intro a k hwf h0 h1 hp
    obtain ⟨b, d, hinc, hsample, hpb⟩ :=
      incSampleIndex_positioned a k hwf h0 (by push_cast at h1; omega) hp
    obtain ⟨c, hadv, hsample', hpc⟩ := ih b (k + 1) (by rw [hsample]; exact hwf) (by omega)
      (by rw [hsample]; push_cast at h1; omega) hpb
    refine ⟨c, ?_, by rw [hsample', hsample], ?_⟩
    · simp only [advance, hinc]
      exact hadv
    · have : k + ((n + 1 : Nat) : Int) = k + 1 + (n : Int) := by push_cast; ring
      rw [this]
      exact hpc

theorem twoRunTable_wellFormed : WellFormed twoRunTable where
  chunks := by decide
  first := by decide
  ascending := by unfold Ascending; decide
  bounded := by decide
  positive := by decide
  sttsPositive := by decide
  sttsTotal := by decide
  sizes := Or.inr (by decide)
  ctts := by
    intro entries h _
    have h2 : entries = [⟨5, 40⟩] := by
      have h3 : twoRunTable.CompositionOffset = some [⟨5, 40⟩] := rfl
      rw [h3] at h
      exact (Option.some.inj h).symm
    subst h2
    decide

/-- C1: on a well-formed, consistent sample table (a composition-offset table,
when present and non-empty, also has positive counts summing to the sample
count), for every sample index `i` below the total sample count,
`setSampleIndex(i)` succeeds, `setSampleIndex(0)` followed by `i` calls of
`incSampleIndex` succeeds, and both leave the same `chunkIndex`,
`sampleOffsetInChunk` and `dts`. -/
theorem setSampleIndex_eq_advance (s : Stream) (i : Nat) (hwf : WellFormed s.sample)
    (hi : (i : Int) < totalSamples s.sample) :
    ∃ a s0 b, setSampleIndex s i = some (a, none) ∧ setSampleIndex s 0 = some (s0, none) ∧
      advance i s0 = some b ∧ a.chunkIndex = b.chunkIndex ∧
      a.sampleOffsetInChunk = b.sampleOffsetInChunk ∧ a.dts = b.dts := by
  obtain ⟨a, ha, hsa, hpa⟩ := setSampleIndex_positioned s i hwf (by omega) hi
  obtain ⟨s0, hs0, hss0, hp0⟩ := setSampleIndex_positioned s 0 hwf (le_refl _) (by omega)
  obtain ⟨b, hb, hsb, hpb⟩ := advance_positioned i s0 0 (by rw [hss0]; exact hwf) (le_refl _)
    (by rw [hss0]; omega) hp0
  refine ⟨a, s0, b, ha, hs0, hb, ?_⟩
  have hsame : b.sample = a.sample := by rw [hsb, hss0, hsa]
  have h1 := hpa.chunk
  have h2 := hpb.chunk
  have h3 := hpa.stts
  have h4 := hpb.stts
  have h5 := hpa.offset
  have h6 := hpb.offset
  rw [hsame] at h2 h4 h6
  simp only [zero_add] at h2 h4 h6
  rw [h1] at h2
  rw [h3] at h4
  simp only [Option.some.injEq, Prod.mk.injEq] at h2 h4
  obtain ⟨hci, _, hj⟩ := h2
  rw [← hj, h5] at h6
  simp only [Option.some.injEq] at h6
  exact ⟨hci, h6, h4.2.1⟩

/-- C1, on sample 4 of `twoRunTable`. -/
theorem setSampleIndex_eq_advance_witness :
    ∃ a s0 b, setSampleIndex twoRunStream (4 : Nat) = some (a, none) ∧
      setSampleIndex twoRunStream 0 = some (s0, none) ∧
      advance 4 s0 = some b ∧ a.chunkIndex = b.chunkIndex ∧
      a.sampleOffsetInChunk = b.sampleOffsetInChunk ∧ a.dts = b.dts :=
  setSampleIndex_eq_advance twoRunStream 4 twoRunTable_wellFormed (by decide)

/-! ## The end-to-end example of the spec -/

/-- C2: on the example track of the spec, `sampleCount()` is 4;
`setSampleIndex(2)` succeeds with `chunkIndex = 1`, `sampleOffsetInChunk = 0`
and `dts = 2000` ticks, which is 2 seconds; the cursor is then valid, and on a
source whose seek and read succeed there, `readPacket` seeks to offset 500,
reads into a buffer of 15 bytes and leaves `sampleIndex = 3`. -/
theorem specTable_endToEnd (r : Source) (hseek : r.seekFails 500 = false)
    (hread : r.readFails 500 15 = false) :
    sampleCount specStream = some 4 ∧
    setSampleIndex specStream 2 = some (specAt2, none) ∧
    specAt2.chunkIndex = 1 ∧ specAt2.sampleOffsetInChunk = 0 ∧ specAt2.dts = 2000 ∧
    tsToTime specAt2 specAt2.dts = 2 ∧
    isSampleValid specAt2 = true ∧
    ∃ r1 pkt, readPacket specAt2 r = some (specAt3, r1, pkt, none) ∧
      r1.calls = r.calls ++ [IOCall.seek 500, IOCall.read 15] ∧ pkt.Data.length = 15 ∧
      specAt3.sampleIndex = 3 := by
  refine ⟨by decide, by decide, rfl, rfl, rfl, ?_, by decide, ?_⟩
  · simp only [tsToTime, specAt2, specStream, newStream]
    exact float64_div_2000_1000
  · have hinc : incSampleIndex specAt2 = some (specAt3, 1000) := by decide
    have hvalid : isSampleValid specAt2 = true := by decide
    have hchunk : getAt specAt2.sample.ChunkOffset specAt2.chunkIndex = some 500 := by decide
    have hsz : specAt2.sample.SampleSize = 0 := rfl
    have hsize : getAt specAt2.sample.SampleSizeEntries specAt2.sampleIndex = some 15 := by
      decide
    have hoff : specAt2.sampleOffsetInChunk = 0 := rfl
    have hsync : specAt2.sample.SyncSample = none := rfl
    have hctts : specAt2.sample.CompositionOffset = none := rfl
    unfold readPacket
    simp only [hvalid, hchunk, hsz, hsize, hoff, hsync, hctts, hinc]
    simp [hseek, hread]
    exact ⟨_, _, ⟨rfl, rfl⟩, rfl, by simp, rfl⟩

/-- C2, on the source `quietSource`. -/
theorem specTable_endToEnd_witness :
    sampleCount specStream = some 4 ∧
    setSampleIndex specStream 2 = some (specAt2, none) ∧
    specAt2.chunkIndex = 1 ∧ specAt2.sampleOffsetInChunk = 0 ∧ specAt2.dts = 2000 ∧
    tsToTime specAt2 specAt2.dts = 2 ∧
    isSampleValid specAt2 = true ∧
    ∃ r1 pkt, readPacket specAt2 quietSource = some (specAt3, r1, pkt, none) ∧
      r1.calls = quietSource.calls ++ [IOCall.seek 500, IOCall.read 15] ∧
      pkt.Data.length = 15 ∧ specAt3.sampleIndex = 3 :=
  specTable_endToEnd quietSource rfl rfl

/-! ## End of stream -/

/-- C3, the code at the failing input: the first two calls of `ReadPacket` on
`twoTracks` return a packet of stream 0 and a packet of stream 1; the cursor of
stream 0 is then exhausted and the cursor of stream 1 is still valid, and the
third call returns end-of-stream all the same, because the exhausted stream 0
has the smaller time.  On an empty stream list `ReadPacket` dereferences nil. -/
theorem ReadPacket_eof_with_valid_stream :
    (∃ p, Demuxer.ReadPacket twoTracks = some (twoTracksAfterOne, 0, p, none)) ∧
    (∃ p, Demuxer.ReadPacket twoTracksAfterOne = some (twoTracksAfterTwo, 1, p, none)) ∧
    twoTracksAfterTwo.streams.map isSampleValid = [false, true] ∧
    Demuxer.ReadPacket twoTracksAfterTwo
      = some (twoTracksAfterTwo, 0, Packet.zero, some Err.EOF) ∧
    Demuxer.ReadPacket { R := quietSource, streams := [] } = none := by
  have h0 : choose twoTracks.streams 0 none 0
      = (some (newStream shortTable 1000 0 ⟨true⟩), 0) := by
    simp [choose, twoTracks, tsToTime, newStream, float64_div_0_1000]
  have h1 : choose twoTracksAfterOne.streams 0 none 0
      = (some (newStream longTable 1000 1 ⟨false⟩), 1) := by
    simp [choose, twoTracksAfterOne, shortDone, tsToTime, newStream, float64_div_0_1000,
      float64_div_10_1000]
  have h2 : choose twoTracksAfterTwo.streams 0 none 0 = (some shortDone, 0) := by
    simp [choose, twoTracksAfterTwo, shortDone, longAtOne, tsToTime, newStream,
      float64_div_10_1000, float64_div_1000_1000]
    norm_num
  refine ⟨?_, ?_, by decide, ?_, rfl⟩
  · unfold Demuxer.ReadPacket
    rw [h0]
    exact ⟨_, rfl⟩
  · unfold Demuxer.ReadPacket
    rw [h1]
    exact ⟨_, rfl⟩
  · unfold Demuxer.ReadPacket
    rw [h2]
    rfl

/-! ## Sync snapping -/

/-- C4, the code at the failing input: with sync samples 1 and 3 over four
samples of 1000 ticks, the target 2000 ticks falls on sample 2 (0-based), which
is the sync sample 3; without the sync table `timeToSampleIndex` returns 2, and
with it the function returns 0, the sync sample before. -/
theorem timeToSampleIndex_snaps_past_sync :
    timeToSampleIndexTs
      (newStream { syncTable with SyncSample := none } 1000 0 ⟨true⟩) 2000 = some 2 ∧
    timeToSampleIndexTs (newStream syncTable 1000 0 ⟨true⟩) 2000 = some 0 := by
  decide

/-! ## Constant sample size -/

/-- C5, the code at the failing input: on a track of two samples of constant
size 100 without explicit per-sample sizes, `setSampleIndex(0)` succeeds and
`isSampleValid` is false right after it, so that `readPacket` returns
end-of-track for an existing sample. -/
theorem isSampleValid_constant_size :
    (∃ a, setSampleIndex constantStream 0 = some (a, none) ∧ isSampleValid a = false ∧
      readPacket a quietSource = some (a, quietSource, Packet.zero, some Err.EOF)) := by
  refine ⟨{ constantStream with sampleIndex := 0 }, by decide, by decide, ?_⟩
  rfl

/-- C6, the code at the failing input: `twoRunTable` is well formed, has
explicit sizes and two sample-to-chunk runs that give its three chunks 2, 2 and
1 samples, and its size list has these 5 entries; `sampleCount()` returns 6,
`setSampleIndex(4)` succeeds and `setSampleIndex(5)` fails although
`5 < sampleCount()`. -/
theorem sampleCount_two_runs :
    WellFormed twoRunTable ∧
    (List.range 3).map (fun k => samplesInChunk twoRunTable.SampleToChunk ((k : Int) + 1))
      = [2, 2, 1] ∧
    twoRunTable.SampleSize = 0 ∧ twoRunTable.SampleSizeEntries.length = 5 ∧
    sampleCount twoRunStream = some 6 ∧
    (setSampleIndex twoRunStream 4).map Prod.snd = some none ∧
    (setSampleIndex twoRunStream 5).map Prod.snd = some (some Err.cannotLocateChunk) := by
  refine ⟨twoRunTable_wellFormed, by decide, rfl, rfl, by decide, by decide, by decide⟩

/-- C7, the code at the failing input: on a track of one chunk of two samples
of constant size 100 without explicit per-sample sizes, the chunks hold 2
samples in total and `sampleCount()` returns 0. -/
theorem sampleCount_constant_size :
    constantTable.SampleSize ≠ 0 ∧ totalSamples constantTable = 2 ∧
    sampleCount constantStream = some 0 := by
  decide

/-! ## Keyframes without a sync table -/

/-- C8, counterexample: `shortTable` has no sync-sample table, `readPacket` on
its first sample succeeds, and the packet it returns has `IsKeyFrame = false`. -/
theorem readPacket_no_sync_not_keyframe :
    shortTable.SyncSample = none ∧
    ∃ r pkt, readPacket (newStream shortTable 1000 0 ⟨true⟩) quietSource
        = some (shortDone, r, pkt, none) ∧ pkt.IsKeyFrame = false :=
  ⟨rfl, _, _, rfl, rfl⟩

/-- C8, amended: when the track has no sync-sample table, the packet returned by
every successful `readPacket` has `IsKeyFrame = false`. -/
theorem readPacket_no_sync_table (s s1 : Stream) (r r1 : Source) (pkt : Packet)
    (hsync : s.sample.SyncSample = none)
    (h : readPacket s r = some (s1, r1, pkt, none)) : pkt.IsKeyFrame = false := by
  unfold readPacket at h
  simp only [hsync] at h
  split at h
  · simp at h
  split at h
  · simp at h
  split at h
  · simp at h
  split at h
  · simp at h
  split at h
  · simp at h
  split at h
  · simp at h
  split at h
  · simp at h
  rename_i pkt3 hcomp
  split at h
  · simp at h
  simp only [Option.some.injEq, Prod.mk.injEq] at h
  obtain ⟨_, _, hp, _⟩ := h
  rw [← hp]
  dsimp only
  split at hcomp
  · simp only [Option.some.injEq] at hcomp
    rw [← hcomp]
    rfl
  · split at hcomp
    · split at hcomp
      · simp at hcomp
      · simp only [Option.some.injEq] at hcomp
        rw [← hcomp]
        rfl
    · simp only [Option.some.injEq] at hcomp
      rw [← hcomp]
      rfl

/-- C8 amended, on sample 2 of `specTable`, which has no sync-sample table. -/
theorem readPacket_no_sync_table_witness :
    specAt2.sample.SyncSample = none ∧
    readPacket specAt2 quietSource = some (specAt3, specSourceAfter, specPacket, none) ∧
    specPacket.IsKeyFrame = false :=
  ⟨rfl, rfl, readPacket_no_sync_table specAt2 specAt3 quietSource specSourceAfter specPacket
    rfl rfl⟩

/-! ## Seeking all tracks -/

theorem setSampleIndex_fixed (s s1 : Stream) (index : Int) (e : Option Err)
    (h : setSampleIndex s index = some (s1, e)) : fixedPart s1 = fixedPart s := by
  unfold setSampleIndex at h
  split at h
  · simp at h
  · simp only [Option.some.injEq, Prod.mk.injEq] at h
    obtain ⟨rfl, _⟩ := h
    rfl
  · dsimp only at h
    split at h
    · simp at h
    · simp only [Option.some.injEq, Prod.mk.injEq] at h
      obtain ⟨rfl, _⟩ := h
      rfl
    · split at h
      · simp only [Option.some.injEq, Prod.mk.injEq] at h
        obtain ⟨rfl, _⟩ := h
        rfl
      · split at h
        · rename_i s4 e4 hcomp
          simp only [Option.some.injEq, Prod.mk.injEq] at h
          obtain ⟨rfl, _⟩ := h
          split at hcomp
          · simp at hcomp
          · split at hcomp
            · split at hcomp
              · simp only [Prod.mk.injEq] at hcomp
                obtain ⟨rfl, _⟩ := hcomp
                rfl
              · simp at hcomp
            · simp at hcomp
        · rename_i s4 hcomp
          simp only [Option.some.injEq, Prod.mk.injEq] at h
          obtain ⟨rfl, _⟩ := h
          have h4 : fixedPart s4 = fixedPart s := by
            split at hcomp
            · simp only [Prod.mk.injEq] at hcomp
              obtain ⟨rfl, _⟩ := hcomp
              rfl
            · split at hcomp
              · split at hcomp
                · simp at hcomp
                · simp only [Prod.mk.injEq] at hcomp
                  obtain ⟨rfl, _⟩ := hcomp
                  rfl
              · simp only [Prod.mk.injEq] at hcomp
                obtain ⟨rfl, _⟩ := hcomp
                rfl
          rw [← h4]
          cases hsy : s4.sample.SyncSample <;> rfl

theorem seekToTime_isVideo (s s1 : Stream) (time : Rat) (e : Option Err)
    (h : seekToTime s time = some (s1, e)) : s1.CodecData.IsVideo = s.CodecData.IsVideo := by
  unfold seekToTime at h
  split at h
  · simp at h
  · have := setSampleIndex_fixed _ _ _ _ h
    simp only [fixedPart, Prod.mk.injEq] at this
    rw [this.1]

theorem seekOthers_append (time : Rat) :
    ∀ (a b l2 : List Stream), seekOthers time (a ++ b) = some (l2, none) →
      ∃ a2 b2, l2 = a2 ++ b2 ∧ List.Forall₂ (Aligned time) a a2 ∧
        seekOthers time b = some (b2, none) := by
  intro a
  induction a with
  | nil =>
    intro b l2 h
    exact ⟨[], l2, rfl, List.Forall₂.nil, h⟩
  | cons s rest ih =>
    intro b l2 h
    simp only [List.cons_append] at h
    unfold seekOthers at h
    by_cases hv : s.CodecData.IsVideo = true
    · simp only [hv, Bool.not_true, Bool.false_eq_true, if_false] at h
      cases hrest : seekOthers time (rest ++ b) with
      | none => simp [hrest] at h
      | some r =>
        obtain ⟨rest1, err⟩ := r
        simp only [hrest, Option.some.injEq, Prod.mk.injEq] at h
        obtain ⟨rfl, rfl⟩ := h
        obtain ⟨a2, b2, rfl, hall, hb⟩ := ih b rest1 hrest
        refine ⟨s :: a2, b2, rfl, List.Forall₂.cons ?_ hall, hb⟩
        simp [Aligned, hv]
    · simp only [hv, Bool.not_false, if_true] at h
      cases hseek : seekToTime s time with
      | none => simp [hseek] at h
      | some r =>
        obtain ⟨s1, e⟩ := r
        cases e with
        | some e => simp [hseek] at h
        | none =>
          simp only [hseek] at h
          cases hrest : seekOthers time (rest ++ b) with
          | none => simp [hrest] at h
          | some r =>
            obtain ⟨rest1, err⟩ := r
            simp only [hrest, Option.some.injEq, Prod.mk.injEq] at h
            obtain ⟨rfl, rfl⟩ := h
            obtain ⟨a2, b2, rfl, hall, hb⟩ := ih b rest1 hrest
            refine ⟨s1 :: a2, b2, rfl, List.Forall₂.cons ?_ hall, hb⟩
            simp [Aligned, hv, hseek]

theorem seekOthers_aligned (time : Rat) (l l2 : List Stream)
    (h : seekOthers time l = some (l2, none)) : List.Forall₂ (Aligned time) l l2 := by
  obtain ⟨a2, b2, rfl, hall, hb⟩ := seekOthers_append time l [] l2 (by simpa using h)
  simp only [seekOthers, Option.some.injEq, Prod.mk.injEq, and_true] at hb
  subst hb
  simpa using hall

theorem aligned_of_not_video (time : Rat) :
    ∀ (l l2 : List Stream), (∀ s ∈ l, s.CodecData.IsVideo = false) →
      List.Forall₂ (Aligned time) l l2 →
      List.Forall₂ (fun s s1 => seekToTime s time = some (s1, none)) l l2 := by
  intro l l2 hl h
  induction h with
  | nil => exact List.Forall₂.nil
  | @cons a b l l2 hab _ ih =>
    refine List.Forall₂.cons ?_ (ih (fun s hs => hl s (List.mem_cons_of_mem _ hs)))
    have := hl a (List.mem_cons_self _ _)
    simpa [Aligned, this] using hab

theorem seekVideo_spec (time : Rat) :
    ∀ (l l1 : List Stream) (time1 : Rat), seekVideo time l = some (l1, time1, none) →
      ((∀ s ∈ l, s.CodecData.IsVideo = false) → l1 = l ∧ time1 = time) ∧
      (∀ pre v post, l = pre ++ v :: post → (∀ s ∈ pre, s.CodecData.IsVideo = false) →
        v.CodecData.IsVideo = true →
        ∃ v1, seekToTime v time = some (v1, none) ∧ l1 = pre ++ v1 :: post ∧
          time1 = tsToTime v1 v1.dts) := by
  intro l
  induction l with
  | nil =>
    intro l1 time1 h
    simp only [seekVideo, Option.some.injEq, Prod.mk.injEq] at h
    refine ⟨fun _ => ⟨h.1.symm, h.2.1.symm⟩, ?_⟩
    intro pre v post hl
    simp at hl
  | cons s rest ih =>
    intro l1 time1 h
    unfold seekVideo at h
    by_cases hv : s.CodecData.IsVideo = true
    · simp only [hv, if_true] at h
      cases hseek : seekToTime s time with
      | none => simp [hseek] at h
      | some r =>
        obtain ⟨s1, e⟩ := r
        cases e with
        | some e => simp [hseek] at h
        | none =>
          simp only [hseek, Option.some.injEq, Prod.mk.injEq, and_true] at h
          obtain ⟨rfl, rfl⟩ := h
          constructor
          · intro hall
            have := hall s (List.mem_cons_self _ _)
            rw [hv] at this
            cases this
          · intro pre v post hl hpre hvv
            cases pre with
            | nil =>
              simp only [List.nil_append, List.cons.injEq] at hl
              obtain ⟨rfl, rfl⟩ := hl
              exact ⟨s1, hseek, rfl, rfl⟩
            | cons p pre' =>
              simp only [List.cons_append, List.cons.injEq] at hl
              obtain ⟨rfl, _⟩ := hl
              have := hpre s (List.mem_cons_self _ _)
              rw [hv] at this
              cases this
    · simp only [hv, if_false] at h
      cases hrest : seekVideo time rest with
      | none => simp [hrest] at h
      | some r =>
        obtain ⟨rest1, t1, err⟩ := r
        simp only [hrest, Option.some.injEq, Prod.mk.injEq] at h
        obtain ⟨rfl, rfl, rfl⟩ := h
        obtain ⟨ih1, ih2⟩ := ih _ _ hrest
        constructor
        · intro hall
          obtain ⟨h1, h2⟩ := ih1 (fun x hx => hall x (List.mem_cons_of_mem _ hx))
          exact ⟨by rw [h1], h2⟩
        · intro pre v post hl hpre hvv
          cases pre with
          | nil =>
            simp only [List.nil_append, List.cons.injEq] at hl
            obtain ⟨rfl, _⟩ := hl
            exact absurd hvv hv
          | cons p pre' =>
            simp only [List.cons_append, List.cons.injEq] at hl
            obtain ⟨rfl, rfl⟩ := hl
            obtain ⟨v1, h1, h2, h3⟩ := ih2 pre' v post rfl
              (fun x hx => hpre x (List.mem_cons_of_mem _ hx)) hvv
            exact ⟨v1, h1, by rw [h2]; rfl, h3⟩

/-- C9, amended: if `SeekToTime(t)` succeeds, then when no stream is video every
stream has been positioned by `seekToTime(t)`; otherwise the first video stream
has been positioned by `seekToTime(t)`, every stream that is not video has been
positioned by `seekToTime(t')`, where `t'` is the landed decode time
`dts/timescale` of the first video stream, and the video streams after the first
are left as they were. -/
theorem SeekToTime_aligns (d d1 : Demuxer) (time : Rat)
    (h : d.SeekToTime time = some (d1, none)) :
    ((∀ s ∈ d.streams, s.CodecData.IsVideo = false) →
      List.Forall₂ (fun s s1 => seekToTime s time = some (s1, none)) d.streams d1.streams) ∧
    (∀ pre v post, d.streams = pre ++ v :: post → (∀ s ∈ pre, s.CodecData.IsVideo = false) →
      v.CodecData.IsVideo = true →
      ∃ pre1 v1 post1, d1.streams = pre1 ++ v1 :: post1 ∧ seekToTime v time = some (v1, none) ∧
        List.Forall₂ (fun s s1 => seekToTime s (tsToTime v1 v1.dts) = some (s1, none)) pre pre1 ∧
        List.Forall₂ (Aligned (tsToTime v1 v1.dts)) post post1) := by
  unfold Demuxer.SeekToTime at h
  cases hvideo : seekVideo time d.streams with
  | none => simp [hvideo] at h
  | some r =>
    obtain ⟨l1, t1, e⟩ := r
    cases e with
    | some e => simp [hvideo] at h
    | none =>
      simp only [hvideo] at h
      cases hothers : seekOthers t1 l1 with
      | none => simp [hothers] at h
      | some r2 =>
        obtain ⟨l2, err⟩ := r2
        simp only [hothers, Option.some.injEq, Prod.mk.injEq] at h
        obtain ⟨rfl, rfl⟩ := h
        obtain ⟨hs1, hs2⟩ := seekVideo_spec time d.streams l1 t1 hvideo
        constructor
        · intro hall
          obtain ⟨rfl, rfl⟩ := hs1 hall
          exact aligned_of_not_video _ _ _ hall (seekOthers_aligned _ _ _ hothers)
        · intro pre v post hl hpre hv
          obtain ⟨v1, hseek, rfl, rfl⟩ := hs2 pre v post hl hpre hv
          obtain ⟨pre1, rest1, rfl, hall, hrest⟩ := seekOthers_append _ pre (v1 :: post) l2 hothers
          have hv1 : v1.CodecData.IsVideo = true := by
            rw [seekToTime_isVideo _ _ _ _ hseek]
            exact hv
          unfold seekOthers at hrest
          simp only [hv1, Bool.not_true, Bool.false_eq_true, if_false] at hrest
          cases hpost : seekOthers (tsToTime v1 v1.dts) post with
          | none => simp [hpost] at hrest
          | some r3 =>
            obtain ⟨post1, err3⟩ := r3
            simp only [hpost, Option.some.injEq, Prod.mk.injEq] at hrest
            obtain ⟨rfl, rfl⟩ := hrest
            exact ⟨pre1, v1, post1, rfl, hseek, aligned_of_not_video _ _ _ hpre hall,
              seekOthers_aligned _ _ _ hpost⟩

theorem videoStream_seek : seekToTime videoStream 3 = some (videoAt2, none) := by
  have ht : timeToTs videoStream 3 = 3000 := by
    norm_num [timeToTs, videoStream, newStream]
  have hi : timeToSampleIndexTs videoStream 3000 = some 2 := by decide
  have hs : setSampleIndex videoStream 2 = some (videoAt2, none) := by decide
  simp only [seekToTime, timeToSampleIndex, ht, hi, hs]

theorem videoAt2_time : tsToTime videoAt2 videoAt2.dts = 2 := by
  simp only [tsToTime, videoAt2, videoStream, newStream]
  exact float64_div_2000_1000

theorem audioStream_seek : seekToTime audioStream 2 = some (audioAt2, none) := by
  have ht : timeToTs audioStream 2 = 2000 := by
    norm_num [timeToTs, audioStream, newStream]
  have hi : timeToSampleIndexTs audioStream 2000 = some 2 := by decide
  have hs : setSampleIndex audioStream 2 = some (audioAt2, none) := by decide
  simp only [seekToTime, timeToSampleIndex, ht, hi, hs]

theorem secondVideo_seek : seekToTime secondVideo 2 = some (secondVideoAt2, none) := by
  have ht : timeToTs secondVideo 2 = 2000 := by
    norm_num [timeToTs, secondVideo, newStream]
  have hi : timeToSampleIndexTs secondVideo 2000 = some 2 := by decide
  have hs : setSampleIndex secondVideo 2 = some (secondVideoAt2, none) := by decide
  simp only [seekToTime, timeToSampleIndex, ht, hi, hs]

theorem threeTracks_seek :
    threeTracks.SeekToTime 3
      = some ({ threeTracks with streams := [audioAt2, videoAt2, secondVideo] }, none) := by
  have hv1 : audioStream.CodecData.IsVideo = false := rfl
  have hv2 : videoStream.CodecData.IsVideo = true := rfl
  have hv3 : videoAt2.CodecData.IsVideo = true := rfl
  have hv4 : secondVideo.CodecData.IsVideo = true := rfl
  have h1 : seekVideo 3 [audioStream, videoStream, secondVideo]
      = some ([audioStream, videoAt2, secondVideo], 2, none) := by
    simp only [seekVideo, hv1, hv2, videoStream_seek, videoAt2_time]
    simp
  have h2 : seekOthers 2 [audioStream, videoAt2, secondVideo]
      = some ([audioAt2, videoAt2, secondVideo], none) := by
    simp only [seekOthers, hv1, hv3, hv4, audioStream_seek]
    simp
  simp only [Demuxer.SeekToTime, threeTracks, h1, h2]

/-- C9, counterexample: on a demuxer with an audio stream and two video streams
`SeekToTime(3)` succeeds, the first video stream lands on 2 seconds, and the
second video stream is left on sample 0, where `seekToTime` of the landed time
would have put it on sample 2. -/
theorem SeekToTime_skips_second_video :
    threeTracks.SeekToTime 3
      = some ({ threeTracks with streams := [audioAt2, videoAt2, secondVideo] }, none) ∧
    seekToTime videoStream 3 = some (videoAt2, none) ∧
    seekToTime secondVideo (tsToTime videoAt2 videoAt2.dts) = some (secondVideoAt2, none) ∧
    secondVideoAt2 ≠ secondVideo := by
  refine ⟨threeTracks_seek, videoStream_seek, ?_, by decide⟩
  rw [videoAt2_time]
  exact secondVideo_seek

/-- C9 amended, on `threeTracks`. -/
theorem SeekToTime_aligns_witness :
    ∃ pre1 v1 post1,
      [audioAt2, videoAt2, secondVideo] = pre1 ++ v1 :: post1 ∧
      seekToTime videoStream 3 = some (v1, none) ∧
      List.Forall₂ (fun s s1 => seekToTime s (tsToTime v1 v1.dts) = some (s1, none))
        [audioStream] pre1 ∧
      List.Forall₂ (Aligned (tsToTime v1 v1.dts)) [secondVideo] post1 :=
  (SeekToTime_aligns threeTracks { threeTracks with streams := [audioAt2, videoAt2, secondVideo] }
    3 threeTracks_seek).2 [audioStream] videoStream [secondVideo] rfl (by decide) rfl

/-! ## Opening a file -/

theorem headerLoop_spec (c : CodecDecoder) :
    ∀ (tracks : List Track) (i : Int) (streams : List Stream),
      (∀ t ∈ tracks, t.sample ≠ none) →
      ((∃ t ∈ tracks, trackCodec c t = none) →
        (headerLoop c tracks i streams).2 = some Err.codecConfig) ∧
      ((∀ t ∈ tracks, trackCodec c t ≠ none) →
        headerLoop c tracks i streams = (streams ++ configured c tracks i, none)) := by
  intro tracks
  induction tracks with
  | nil =>
    intro i streams _
    refine ⟨?_, ?_⟩
    · rintro ⟨t, ht, _⟩
      simp at ht
    · intro _
      simp [headerLoop, configured]
  | cons t rest ih =>
    intro i streams hs
    have hst := hs t (List.mem_cons_self _ _)
    have hsr : ∀ x ∈ rest, x.sample ≠ none := fun x hx => hs x (List.mem_cons_of_mem _ hx)
    cases hsample : t.sample with
    | none => exact absurd hsample hst
    | some sample =>
      cases hcodec : trackCodec c t with
      | none =>
        refine ⟨fun _ => by simp [headerLoop, hsample, hcodec], ?_⟩
        intro hall
        exact absurd hcodec (hall t (List.mem_cons_self _ _))
      | some oc =>
        cases oc with
        | none =>
          obtain ⟨ih1, ih2⟩ := ih (i + 1) streams hsr
          refine ⟨?_, ?_⟩
          · rintro ⟨x, hx, hxc⟩
            rcases List.mem_cons.mp hx with rfl | hx
            · rw [hcodec] at hxc
              cases hxc
            · simp only [headerLoop, hsample, hcodec]
              exact ih1 ⟨x, hx, hxc⟩
          · intro hall
            simp only [headerLoop, hsample, hcodec, configured]
            exact ih2 (fun x hx => hall x (List.mem_cons_of_mem _ hx))
        | some codec =>
          obtain ⟨ih1, ih2⟩ := ih (i + 1) (streams ++ [newStream sample t.timeScale i codec]) hsr
          refine ⟨?_, ?_⟩
          · rintro ⟨x, hx, hxc⟩
            rcases List.mem_cons.mp hx with rfl | hx
            · rw [hcodec] at hxc
              cases hxc
            · simp only [headerLoop, hsample, hcodec]
              exact ih1 ⟨x, hx, hxc⟩
          · intro hall
            simp only [headerLoop, hsample, hcodec, configured]
            rw [ih2 (fun x hx => hall x (List.mem_cons_of_mem _ hx))]
            simp

/-- C10, amended: for every movie in which all tracks have sample tables, if
the codec-configuration decoder fails for some track then `ReadHeader` returns
the codec-configuration error and `Open` returns no demuxer; if it fails for no
track then `Open` succeeds and the active stream list consists of exactly the
tracks whose codec was identified and configured, in their original order. -/
theorem Open_codec_failure (R : Source) (c : CodecDecoder) (moov : Movie)
    (hsample : ∀ t ∈ moov.Tracks, t.sample ≠ none) :
    ((∃ t ∈ moov.Tracks, trackCodec c t = none) →
      (Demuxer.ReadHeader { R := R, streams := [] } c (Except.ok (some moov))).2
        = some Err.codecConfig ∧
      Open R c (Except.ok (some moov)) = (none, some Err.codecConfig)) ∧
    ((∀ t ∈ moov.Tracks, trackCodec c t ≠ none) →
      Open R c (Except.ok (some moov))
        = (some { R := R, streams := configured c moov.Tracks 0 }, none)) := by
  obtain ⟨h1, h2⟩ := headerLoop_spec c moov.Tracks 0 [] hsample
  refine ⟨?_, ?_⟩
  · intro hfail
    have h := h1 hfail
    have hr : (Demuxer.ReadHeader { R := R, streams := [] } c (Except.ok (some moov))).2
        = some Err.codecConfig := by
      simp only [Demuxer.ReadHeader]
      exact h
    refine ⟨hr, ?_⟩
    unfold Open
    cases hrh : Demuxer.ReadHeader { R := R, streams := [] } c (Except.ok (some moov)) with
    | mk d e =>
      rw [hrh] at hr
      simp only at hr
      subst hr
      rfl
  · intro hok
    have h := h2 hok
    simp only [Open, Demuxer.ReadHeader, h, List.nil_append]

/-- C10, counterexample: the decoder fails for the AVC track of
`threeTrackMovie` and configures its AAC track, and `Open` returns the error and
no demuxer. -/
theorem Open_fails_on_codec_failure :
    trackCodec avcFails threeTrackMovie.Tracks[0] = none ∧
    trackCodec avcFails threeTrackMovie.Tracks[1] = some (some ⟨false⟩) ∧
    Open quietSource avcFails (Except.ok (some threeTrackMovie))
      = (none, some Err.codecConfig) := by
  refine ⟨rfl, rfl, rfl⟩

/-- C10 amended, on `threeTrackMovie` with a decoder that fails on its AVC
track and with a decoder that accepts every track. -/
theorem Open_codec_failure_witness :
    Open quietSource avcFails (Except.ok (some threeTrackMovie))
        = (none, some Err.codecConfig) ∧
    Open quietSource accepts (Except.ok (some threeTrackMovie))
        = (some { R := quietSource, streams := configured accepts threeTrackMovie.Tracks 0 },
            none) :=
  ⟨((Open_codec_failure quietSource avcFails threeTrackMovie (by decide)).1
      ⟨threeTrackMovie.Tracks[0], by decide, rfl⟩).2,
   (Open_codec_failure quietSource accepts threeTrackMovie (by decide)).2 (by decide)⟩

/-! ## Time to sample index -/

theorem sttsCount_cons (e : TimeToSampleEntry) (rest : List TimeToSampleEntry) :
    sttsCount (e :: rest) = e.Count + sttsCount rest := by
  simp [sttsCount]

theorem sttsCount_nonneg (es : List TimeToSampleEntry) (hpos : ∀ e ∈ es, 0 < e.Count) :
    0 ≤ sttsCount es := by
  induction es with
  | nil => simp [sttsCount]
  | cons e rest ih =>
    rw [sttsCount_cons]
    have := hpos e (List.mem_cons_self _ _)
    have := ih (fun x hx => hpos x (List.mem_cons_of_mem _ hx))
    omega

theorem sttsCount_pos (es : List TimeToSampleEntry) (hne : es ≠ [])
    (hpos : ∀ e ∈ es, 0 < e.Count) : 0 < sttsCount es := by
  cases es with
  | nil => exact absurd rfl hne
  | cons e rest =>
    rw [sttsCount_cons]
    have := hpos e (List.mem_cons_self _ _)
    have := sttsCount_nonneg rest (fun x hx => hpos x (List.mem_cons_of_mem _ hx))
    omega

theorem decodeTime_cons_le (e : TimeToSampleEntry) (rest : List TimeToSampleEntry) (i : Nat)
    (h : (i : Int) ≤ e.Count) : decodeTime (e :: rest) i = i * e.Duration := by
  have hi : i ≤ e.Count.toNat := by omega
  simp [decodeTime, durations, List.take_append_of_le_length, hi, List.take_replicate]

theorem decodeTime_cons_add (e : TimeToSampleEntry) (rest : List TimeToSampleEntry) (i : Nat)
    (h : 0 ≤ e.Count) :
    decodeTime (e :: rest) (e.Count.toNat + i) = e.Count * e.Duration + decodeTime rest i := by
  have hc : ((e.Count.toNat : Nat) : Int) = e.Count := by omega
  simp [decodeTime, durations, List.take_append_eq_append_take, hc, List.take_replicate]

/-- The division in the loop of `timeToSampleIndex` is never a division by
zero: the scan returns for every table and every target. -/
theorem scanStts_total (ts : Int) :
    ∀ (es : List TimeToSampleEntry) (startTs startIndex endIndex targetIndex : Int)
      (found : Bool), wrap64 startTs = startTs →
      ∃ r, scanStts ts es startTs startIndex endIndex targetIndex found = some r := by
  intro es
  induction es with
  | nil => intro a b c d f _; exact ⟨_, rfl⟩
  | cons e rest ih =>
    intro startTs startIndex endIndex targetIndex found hst
    unfold scanStts
    dsimp only
    by_cases hin : ts ≥ startTs ∧ ts < wrap64 (startTs + wrap64 (e.Count * e.Duration))
    · rw [if_pos hin]
      have hd : e.Duration ≠ 0 := by
        intro h0
        rw [h0, mul_zero, wrap64_add_right, add_zero, hst] at hin
        omega
      rw [if_neg hd]
      exact ih _ _ _ _ _ (wrap64_idem _)
    · rw [if_neg hin]
      exact ih _ _ _ _ _ (wrap64_idem _)

theorem durations_nonneg (es : List TimeToSampleEntry) (hdur : ∀ e ∈ es, 0 ≤ e.Duration) :
    ∀ d ∈ durations es, 0 ≤ d := by
  induction es with
  | nil => simp [durations]
  | cons e rest ih =>
    intro d hd
    simp only [durations, List.mem_append] at hd
    rcases hd with hd | hd
    · rw [(List.mem_replicate.mp hd).2]
      exact hdur e (List.mem_cons_self _ _)
    · exact ih (fun x hx => hdur x (List.mem_cons_of_mem _ hx)) d hd

theorem decodeTime_succ_ge (es : List TimeToSampleEntry) (hdur : ∀ e ∈ es, 0 ≤ e.Duration)
    (i : Nat) : decodeTime es i ≤ decodeTime es (i + 1) := by
  unfold decodeTime
  rw [List.take_succ, List.sum_append]
  cases h : (durations es)[i]? with
  | none => simp
  | some d =>
    have := durations_nonneg es hdur d (List.getElem?_mem h)
    simp
    omega

theorem decodeTime_mono (es : List TimeToSampleEntry) (hdur : ∀ e ∈ es, 0 ≤ e.Duration)
    (i j : Nat) (h : i ≤ j) : decodeTime es i ≤ decodeTime es j := by
  induction j with
  | zero =>
    have : i = 0 := by omega
    rw [this]
  | succ j ih =>
    by_cases hij : i ≤ j
    · exact le_trans (ih hij) (decodeTime_succ_ge es hdur j)
    · have : i = j + 1 := by omega
      rw [this]

theorem decodeTime_zero (es : List TimeToSampleEntry) : decodeTime es 0 = 0 := by
  simp [decodeTime]

theorem decodeTime_total_nonneg (es : List TimeToSampleEntry)
    (hdur : ∀ e ∈ es, 0 ≤ e.Duration) : 0 ≤ decodeTime es (sttsCount es).toNat := by
  have := decodeTime_mono es hdur 0 (sttsCount es).toNat (Nat.zero_le _)
  rw [decodeTime_zero] at this
  exact this

theorem decodeTime_total_cons (e : TimeToSampleEntry) (rest : List TimeToSampleEntry)
    (hpos : ∀ x ∈ e :: rest, 0 < x.Count) :
    decodeTime (e :: rest) (sttsCount (e :: rest)).toNat
      = e.Count * e.Duration + decodeTime rest (sttsCount rest).toNat := by
  have h1 := hpos e (List.mem_cons_self _ _)
  have h2 := sttsCount_nonneg rest (fun x hx => hpos x (List.mem_cons_of_mem _ hx))
  have : (sttsCount (e :: rest)).toNat = e.Count.toNat + (sttsCount rest).toNat := by
    rw [sttsCount_cons]
    omega
  rw [this, decodeTime_cons_add e rest _ (by omega)]

/-- The scan of `timeToSampleIndex` on a target outside the runs not yet
visited leaves `targetIndex` and `found` as they are, while the tick and sample
totals stay below `2^63`. -/
theorem scanStts_miss (ts : Int) :
    ∀ (es : List TimeToSampleEntry) (startTs startIndex endIndex targetIndex : Int)
      (found : Bool), (∀ e ∈ es, 0 < e.Count) → (∀ e ∈ es, 0 ≤ e.Duration) →
      0 ≤ startTs → startTs + decodeTime es (sttsCount es).toNat < 9223372036854775808 →
      0 ≤ startIndex → startIndex + sttsCount es < 9223372036854775808 →
      (ts < startTs ∨ startTs + decodeTime es (sttsCount es).toNat ≤ ts) →
      scanStts ts es startTs startIndex endIndex targetIndex found
        = some (if es = [] then endIndex else startIndex + sttsCount es, targetIndex, found) := by
  intro es
  induction es with
  | nil => intro a b c d f _ _ _ _ _ _ _; rfl
  | cons e rest ih =>
    intro startTs startIndex endIndex targetIndex found hpos hdur hs0 hs1 hi0 hi1 hts
    have hc := hpos e (List.mem_cons_self _ _)
    have hd := hdur e (List.mem_cons_self _ _)
    have hposr : ∀ x ∈ rest, 0 < x.Count := fun x hx => hpos x (List.mem_cons_of_mem _ hx)
    have hdurr : ∀ x ∈ rest, 0 ≤ x.Duration := fun x hx => hdur x (List.mem_cons_of_mem _ hx)
    have hp : 0 ≤ e.Count * e.Duration := Int.mul_nonneg (by omega) hd
    have hrest := decodeTime_total_nonneg rest hdurr
    have hcr := sttsCount_nonneg rest hposr
    rw [decodeTime_total_cons e rest hpos] at hts hs1
    rw [sttsCount_cons] at hi1
    unfold scanStts
    dsimp only
    generalize e.Count * e.Duration = p at hp hts hs1 ⊢
    rw [wrap64_eq_self p (by omega) (by omega),
      wrap64_eq_self (startTs + p) (by omega) (by omega),
      wrap64_eq_self (startIndex + e.Count) (by omega) (by omega)]
    rw [if_neg (by omega)]
    rw [ih _ _ _ _ _ hposr hdurr (by omega) (by omega) (by omega) (by omega) (by omega)]
    rw [sttsCount_cons]
    by_cases hr : rest = []
    · subst hr
      simp [sttsCount]
    · simp only [hr, if_false, List.cons_ne_nil]
      congr 2
      omega

/-- The scan of `timeToSampleIndex` on a target inside the runs not yet visited
finds the sample whose decode interval contains the target, while the tick and
sample totals stay below `2^63`. -/
theorem scanStts_hit (ts : Int) :
    ∀ (es : List TimeToSampleEntry) (startTs startIndex endIndex targetIndex : Int)
      (found : Bool), (∀ e ∈ es, 0 < e.Count) → (∀ e ∈ es, 0 ≤ e.Duration) →
      0 ≤ startTs → startTs + decodeTime es (sttsCount es).toNat < 9223372036854775808 →
      0 ≤ startIndex → startIndex + sttsCount es < 9223372036854775808 →
      startTs ≤ ts → ts < startTs + decodeTime es (sttsCount es).toNat →
      ∃ i : Nat, (i : Int) < sttsCount es ∧
        scanStts ts es startTs startIndex endIndex targetIndex found
          = some (startIndex + sttsCount es, startIndex + i, true) ∧
        startTs + decodeTime es i ≤ ts ∧ ts < startTs + decodeTime es (i + 1) := by
  intro es
  induction es with
  | nil =>
    intro startTs startIndex endIndex targetIndex found _ _ _ _ _ _ h1 h2
    simp [decodeTime, durations] at h2
    omega
  | cons e rest ih =>
    intro startTs startIndex endIndex targetIndex found hpos hdur hs0 hs1 hi0 hi1 h1 h2
    have hc := hpos e (List.mem_cons_self _ _)
    have hd := hdur e (List.mem_cons_self _ _)
    have hposr : ∀ x ∈ rest, 0 < x.Count := fun x hx => hpos x (List.mem_cons_of_mem _ hx)
    have hdurr : ∀ x ∈ rest, 0 ≤ x.Duration := fun x hx => hdur x (List.mem_cons_of_mem _ hx)
    have hp : 0 ≤ e.Count * e.Duration := Int.mul_nonneg (by omega) hd
    have hrest := decodeTime_total_nonneg rest hdurr
    have hcr := sttsCount_nonneg rest hposr
    rw [decodeTime_total_cons e rest hpos] at h2 hs1
    rw [sttsCount_cons] at hi1
    unfold scanStts
    dsimp only
    rw [wrap64_eq_self (e.Count * e.Duration) (by omega) (by omega),
      wrap64_eq_self (startTs + e.Count * e.Duration) (by omega) (by omega),
      wrap64_eq_self (startIndex + e.Count) (by omega) (by omega)]
    by_cases hin : ts < startTs + e.Count * e.Duration
    · rw [if_pos ⟨h1, hin⟩]
      have hdpos : 0 < e.Duration := by
        rcases lt_or_eq_of_le hd with h | h
        · exact h
        · rw [← h] at hin
          simp at hin
          omega
      rw [if_neg (by omega)]
      have hq0 : 0 ≤ (ts - startTs) / e.Duration := Int.ediv_nonneg (by omega) hd
      have hq1 : (ts - startTs) / e.Duration < e.Count :=
        Int.ediv_lt_of_lt_mul hdpos (by omega)
      have hq2 : (ts - startTs) / e.Duration * e.Duration ≤ ts - startTs :=
        Int.ediv_mul_le _ (by omega)
      have hq3 : ts - startTs < ((ts - startTs) / e.Duration + 1) * e.Duration :=
        Int.lt_ediv_add_one_mul_self _ hdpos
      rw [wrap64_eq_self (ts - startTs) (by omega) (by omega),
        Int.tdiv_eq_ediv (by omega) hd]
      generalize hq : (ts - startTs) / e.Duration = q at hq0 hq1 hq2 hq3 ⊢
      rw [wrap64_eq_self q (by omega) (by omega),
        wrap64_eq_self (startIndex + q) (by omega) (by omega)]
      refine ⟨q.toNat, by rw [sttsCount_cons]; omega, ?_, ?_, ?_⟩
      · rw [scanStts_miss ts rest _ _ _ _ _ hposr hdurr (by omega) (by omega) (by omega)
          (by omega) (Or.inl hin)]
        rw [sttsCount_cons]
        have hqn : ((q.toNat : Nat) : Int) = q := by omega
        rw [hqn]
        by_cases hr : rest = []
        · subst hr
          simp [sttsCount]
        · simp only [hr, if_false]
          congr 2
          omega
      · rw [decodeTime_cons_le e rest q.toNat (by omega)]
        have hqn : ((q.toNat : Nat) : Int) = q := by omega
        rw [hqn]
        omega
      · rw [decodeTime_cons_le e rest (q.toNat + 1) (by omega)]
        have hqn : (((q.toNat + 1 : Nat)) : Int) = q + 1 := by omega
        rw [hqn]
        omega
    · rw [if_neg (by omega)]
      obtain ⟨i, hi, hscan, hlo, hhi⟩ := ih (startTs + e.Count * e.Duration)
        (startIndex + e.Count) (startIndex + e.Count) targetIndex found hposr hdurr
        (by omega) (by omega) (by omega) (by omega) (by omega) (by omega)
      refine ⟨e.Count.toNat + i, by rw [sttsCount_cons]; omega, ?_, ?_, ?_⟩
      · rw [hscan, sttsCount_cons]
        congr 2
        · omega
        · congr 1
          omega
      · rw [decodeTime_cons_add e rest i (by omega)]
        omega
      · rw [Nat.add_assoc, decodeTime_cons_add e rest (i + 1) (by omega)]
        omega

/-- The index that `timeToSampleIndex` computes before it looks at the sync
table, on runs with positive counts and non-negative durations whose sample
count and total duration are below `2^63`: 0 for a negative target, the last
index for a target at or after the total duration, and otherwise the index of
the sample whose decode interval contains the target. -/
theorem scanStts_reference (ts : Int) (es : List TimeToSampleEntry) (hne : es ≠ [])
    (hpos : ∀ e ∈ es, 0 < e.Count) (hdur : ∀ e ∈ es, 0 ≤ e.Duration)
    (hN : sttsCount es < 9223372036854775808)
    (hT : decodeTime es (sttsCount es).toNat < 9223372036854775808) :
    ∃ endIndex targetIndex found u,
      scanStts ts es 0 0 0 0 false = some (endIndex, targetIndex, found) ∧
      (if (!found) = true then if ts < 0 then 0 else wrap64 (endIndex - 1) else targetIndex)
        = u ∧
      0 ≤ u ∧ u < sttsCount es ∧
      (ts < 0 → u = 0) ∧
      (decodeTime es (sttsCount es).toNat ≤ ts → u = sttsCount es - 1) ∧
      (0 ≤ ts → ts < decodeTime es (sttsCount es).toNat →
        ∃ i : Nat, u = (i : Int) ∧ decodeTime es i ≤ ts ∧ ts < decodeTime es (i + 1)) := by
  have hT0 := decodeTime_total_nonneg es hdur
  have hN0 := sttsCount_pos es hne hpos
  by_cases hts : ts < 0
  · refine ⟨_, _, _, 0, scanStts_miss ts es 0 0 0 0 false hpos hdur (le_refl _) (by omega)
      (le_refl _) (by omega) (Or.inl hts), by simp [hts], le_refl _, hN0, fun _ => rfl,
      fun h => by omega, fun h => by omega⟩
  · by_cases hte : decodeTime es (sttsCount es).toNat ≤ ts
    · refine ⟨_, _, _, sttsCount es - 1, scanStts_miss ts es 0 0 0 0 false hpos hdur (le_refl _)
        (by omega) (le_refl _) (by omega) (Or.inr (by omega)), ?_, by omega, by omega,
        fun h => by omega, fun _ => rfl, fun _ h => by omega⟩
      simp only [hne, if_false, zero_add, Bool.not_false, if_true, hts]
      exact wrap64_eq_self _ (by omega) (by omega)
    · obtain ⟨i, hi, hscan, hlo, hhi⟩ := scanStts_hit ts es 0 0 0 0 false hpos hdur (le_refl _)
        (by omega) (le_refl _) (by omega) (by omega) (by omega)
      refine ⟨_, _, _, (i : Int), hscan, by simp, by omega, hi, fun h => by omega,
        fun h => by omega, fun _ _ => ⟨i, rfl, by omega, by omega⟩⟩

/-- C20: `timeToSampleIndex` returns an index for every time-to-sample list
(any counts and durations, runs of duration 0 or count 0 included) and every
target, given in ticks or in seconds: the division by a run's duration is
reached only inside the test `startTs ≤ targetTs < endTs`, which no run of
duration 0 passes (its product with the count is 0 in 64-bit arithmetic too),
and the model has no other failing step. -/
theorem timeToSampleIndex_total (s : Stream) :
    (∀ ts : Int, ∃ r, timeToSampleIndexTs s ts = some r) ∧
    (∀ time : Rat, ∃ r, timeToSampleIndex s time = some r) := by
  have h : ∀ ts : Int, ∃ r, timeToSampleIndexTs s ts = some r := by
    intro ts
    unfold timeToSampleIndexTs
    obtain ⟨⟨endIndex, targetIndex, found⟩, hr⟩ :=
      scanStts_total ts s.sample.TimeToSample 0 0 0 0 false (by decide)
    rw [hr]
    dsimp only
    cases s.sample.SyncSample <;> exact ⟨_, rfl⟩
  exact ⟨h, fun time => h _⟩

/-- C14, counterexample: on a single run of 4294967295 samples of 4294967295
ticks each, whose total duration is above `2^63`, `timeToSampleIndex` returns
4294967294 for the target tick 5, although 5 lies in the decode interval of
sample 0: the product of line 419 wraps and `endTs` is negative. -/
theorem timeToSampleIndex_wraps :
    timeToSampleIndexTs (newStream longRunTable 1000 0 ⟨false⟩) 5 = some 4294967294 ∧
    decodeTime longRunTable.TimeToSample 0 ≤ 5 ∧
    5 < decodeTime longRunTable.TimeToSample 1 := by
  refine ⟨by decide, ?_, ?_⟩
  · rw [decodeTime_zero]
    decide
  · have h : decodeTime longRunTable.TimeToSample 1 = ((1 : Nat) : Int) * 4294967295 :=
      decodeTime_cons_le ⟨4294967295, 4294967295⟩ [] 1 (by decide)
    rw [h]
    decide

/-- C14 amended: on a track without sync table whose time-to-sample list is
non-empty with positive counts and non-negative durations, and whose sample
count `N` (the sum of the counts) and total duration `D(N)` are below `2^63`,
with `D(i) = decodeTime i`, `timeToSampleIndex` returns 0 for a negative target,
`N - 1` for a target at or after `D(N)`, and otherwise the index `i < N` with
`D(i) ≤ ts < D(i + 1)`, which is the only such index. -/
theorem timeToSampleIndex_reference (s : Stream) (ts : Int)
    (hsync : s.sample.SyncSample = none) (hne : s.sample.TimeToSample ≠ [])
    (hpos : ∀ e ∈ s.sample.TimeToSample, 0 < e.Count)
    (hdur : ∀ e ∈ s.sample.TimeToSample, 0 ≤ e.Duration)
    (hN : sttsCount s.sample.TimeToSample < 9223372036854775808)
    (hT : decodeTime s.sample.TimeToSample (sttsCount s.sample.TimeToSample).toNat
      < 9223372036854775808) :
    (ts < 0 → timeToSampleIndexTs s ts = some 0) ∧
    (decodeTime s.sample.TimeToSample (sttsCount s.sample.TimeToSample).toNat ≤ ts →
      timeToSampleIndexTs s ts = some (sttsCount s.sample.TimeToSample - 1)) ∧
    (0 ≤ ts → ts < decodeTime s.sample.TimeToSample (sttsCount s.sample.TimeToSample).toNat →
      ∃ i : Nat, (i : Int) < sttsCount s.sample.TimeToSample ∧
        timeToSampleIndexTs s ts = some (i : Int) ∧
        decodeTime s.sample.TimeToSample i ≤ ts ∧ ts < decodeTime s.sample.TimeToSample (i + 1) ∧
        ∀ j : Nat, decodeTime s.sample.TimeToSample j ≤ ts →
          ts < decodeTime s.sample.TimeToSample (j + 1) → j = i) := by
  obtain ⟨endIndex, targetIndex, found, u, hscan, hu, _, hlt, h1, h2, h3⟩ :=
    scanStts_reference ts s.sample.TimeToSample hne hpos hdur hN hT
  have hres : timeToSampleIndexTs s ts = some u := by
    unfold timeToSampleIndexTs
    rw [hscan]
    dsimp only
    rw [hsync, hu]
  refine ⟨?_, ?_, ?_⟩
  · intro hts
    rw [hres, h1 hts]
  · intro hts
    rw [hres, h2 hts]
  · intro h0 hts
    obtain ⟨i, hi, hlo, hhi⟩ := h3 h0 hts
    refine ⟨i, by omega, by rw [hres, hi], hlo, hhi, ?_⟩
    intro j hj1 hj2
    rcases Nat.lt_trichotomy j i with h | h | h
    · have := decodeTime_mono s.sample.TimeToSample hdur (j + 1) i (by omega)
      omega
    · exact h
    · have := decodeTime_mono s.sample.TimeToSample hdur (i + 1) j (by omega)
      omega

theorem snapToSync_cases (u : Int) :
    ∀ l : List Int, (snapToSync u l = u ∧ ∀ e ∈ l, u ≤ wrap64 (e - 1)) ∨
      ∃ e ∈ l, snapToSync u l = wrap64 (e - 1) := by
  intro l
  induction l with
  | nil => left; simp [snapToSync]
  | cons e rest ih =>
    unfold snapToSync
    by_cases h : wrap64 (e - 1) < u
    · right
      exact ⟨e, List.mem_cons_self _ _, by rw [if_pos h]⟩
    · rw [if_neg h]
      rcases ih with ⟨h1, h2⟩ | ⟨x, hx, h1⟩
      · left
        refine ⟨h1, ?_⟩
        intro y hy
        rcases List.mem_cons.mp hy with rfl | hy
        · omega
        · exact h2 y hy
      · right
        exact ⟨x, List.mem_cons_of_mem _ hx, h1⟩

/-- C15, counterexample: on a track of four samples whose sync table is `[3]`,
`timeToSampleIndex` returns 0 for the target tick 0, and sample number 1 is not
in the sync table. -/
theorem timeToSampleIndex_before_first_sync :
    timeToSampleIndexTs (newStream lateSyncTable 1000 0 ⟨true⟩) 0 = some 0 ∧
    (0 : Int) + 1 ∉ [(3 : Int)] := by
  decide

/-- C15 amended: on a track with a non-empty time-to-sample list of positive
counts and non-negative durations whose sample count `N` and total duration are
below `2^63`, and with a sync table whose entries lie in `1..N` and whose first
entry is sample 1, the index `r` returned by `timeToSampleIndex` satisfies
`r + 1 ∈ syncSample` for every target tick value; for `syncSample = [1, 3]`
over four samples and a target on sample 3 the result is 2. -/
theorem timeToSampleIndex_lands_on_sync (s : Stream) (ts : Int) (entries : List Int)
    (hsync : s.sample.SyncSample = some entries) (hhead : entries.head? = some 1)
    (hent : ∀ e ∈ entries, 1 ≤ e ∧ e ≤ sttsCount s.sample.TimeToSample)
    (hne : s.sample.TimeToSample ≠ []) (hpos : ∀ e ∈ s.sample.TimeToSample, 0 < e.Count)
    (hdur : ∀ e ∈ s.sample.TimeToSample, 0 ≤ e.Duration)
    (hN : sttsCount s.sample.TimeToSample < 9223372036854775808)
    (hT : decodeTime s.sample.TimeToSample (sttsCount s.sample.TimeToSample).toNat
      < 9223372036854775808) :
    (∃ r, timeToSampleIndexTs s ts = some r ∧ r + 1 ∈ entries) ∧
    timeToSampleIndexTs (newStream syncTable 1000 0 ⟨true⟩) 3000 = some 2 := by
  refine ⟨?_, by decide⟩
  obtain ⟨endIndex, targetIndex, found, u, hscan, hu, hu0, _, _, _, _⟩ :=
    scanStts_reference ts s.sample.TimeToSample hne hpos hdur hN hT
  have h1 : (1 : Int) ∈ entries := by
    cases entries with
    | nil => simp at hhead
    | cons a rest =>
      simp only [List.head?_cons, Option.some.injEq] at hhead
      rw [hhead]
      exact List.mem_cons_self _ _
  have hw : ∀ e ∈ entries, wrap64 (e - 1) = e - 1 := by
    intro e he
    have := hent e he
    exact wrap64_eq_self _ (by omega) (by omega)
  unfold timeToSampleIndexTs
  rw [hscan]
  dsimp only
  rw [hsync, hu]
  dsimp only
  refine ⟨_, rfl, ?_⟩
  rcases snapToSync_cases u entries.reverse with ⟨h2, h3⟩ | ⟨e, he', h2⟩
  · have := h3 1 (List.mem_reverse.mpr h1)
    rw [hw 1 h1] at this
    have hu1 : u = 0 := by omega
    rw [h2, hu1]
    exact h1
  · rw [h2, hw e (List.mem_reverse.mp he')]
    have : e - 1 + 1 = e := by omega
    rw [this]
    exact List.mem_reverse.mp he'

/-! ## Failure of `setSampleIndex` -/

theorem chunkFirst_mono {stc : List SampleToChunkEntry}
    (hpos : ∀ e ∈ stc, 0 < e.SamplesPerChunk) (a b : Nat) (h : a ≤ b) :
    chunkFirst stc a ≤ chunkFirst stc b := by
  induction b with
  | zero =>
    have : a = 0 := by omega
    rw [this]
  | succ b ih =>
    by_cases hab : a ≤ b
    · have := ih hab
      rw [chunkFirst_succ]
      have := samplesInChunk_nonneg hpos ((b : Int) + 1)
      omega
    · have : a = b + 1 := by omega
      rw [this]

/-- The chunk loop of `setSampleIndex` runs to its end, without an out-of-range
access, on an index outside the samples of the chunks not yet visited. -/
theorem locateChunk_miss {stc : List SampleToChunkEntry} (hs : Ascending stc)
    (hpos : ∀ e ∈ stc, 0 < e.SamplesPerChunk) (index : Int) :
    ∀ (fuel i : Nat) (ci g0 : Int) (e0 : SampleToChunkEntry), Entering stc g0 e0 i →
      (index < chunkFirst stc i ∨ chunkFirst stc (i + fuel) ≤ index) →
      ∃ c g, locateChunk stc index fuel i ci g0 (chunkFirst stc i) = some (c, g, none) := by
  intro fuel
  induction fuel with
  | zero =>
    intro i ci g0 e0 _ _
    exact ⟨ci, g0, rfl⟩
  | succ fuel ih =>
    intro i ci g0 e0 hent hout
    obtain ⟨g, e, hstep, hcov⟩ := chunkGroupStep_entering hs hent
    have hget := hcov.getAt_eq
    have hsucc := chunkFirst_succ stc i
    rw [samplesInChunk_covers hs hcov] at hsucc
    have hp := hpos e (getAt_mem hget)
    have hmono := chunkFirst_mono hpos (i + 1) (i + (fuel + 1)) (by omega)
    have hnot : ¬ (index ≥ chunkFirst stc i ∧ index < chunkFirst stc i + e.SamplesPerChunk) := by
      omega
    obtain ⟨c, g', hloc⟩ := ih (i + 1) (i : Int) g e hcov.entering (by
      rcases hout with h | h
      · left; omega
      · right
        have : i + 1 + fuel = i + (fuel + 1) := by omega
        rw [this]
        exact h)
    refine ⟨c, g', ?_⟩
    simp only [locateChunk, hstep, hget]
    rw [if_neg hnot, ← hsucc]
    push_cast at hloc
    exact hloc

/-- C12: on a well-formed, consistent table with `N = totalSamples` samples,
`setSampleIndex(i)` returns no error and sets `sampleIndex = i` when
`0 ≤ i < N`, and returns an error and leaves `sampleIndex` as it was when
`i < 0` or `N ≤ i`. -/
theorem setSampleIndex_fails_iff (s : Stream) (i : Int) (hwf : WellFormed s.sample) :
    (0 ≤ i → i < totalSamples s.sample →
      ∃ a, setSampleIndex s i = some (a, none) ∧ a.sampleIndex = i) ∧
    ((i < 0 ∨ totalSamples s.sample ≤ i) →
      ∃ a e, setSampleIndex s i = some (a, some e) ∧ a.sampleIndex = s.sampleIndex) := by
  refine ⟨?_, ?_⟩
  · intro h0 h1
    obtain ⟨a, ha, _, hp⟩ := setSampleIndex_positioned s i hwf h0 h1
    exact ⟨a, ha, hp.index⟩
  · intro hout
    obtain ⟨e0, hent⟩ := entering_zero hwf.ascending hwf.first
    obtain ⟨c, g, hloc⟩ := locateChunk_miss hwf.ascending hwf.positive i
      s.sample.ChunkOffset.length 0 s.chunkIndex 0 e0 (by simpa using hent) (by
        rw [chunkFirst_zero]
        rcases hout with h | h
        · left; exact h
        · right; simpa [totalSamples] using h)
    rw [chunkFirst_zero] at hloc
    simp only [Nat.cast_zero] at hloc
    refine ⟨{ s with chunkGroupIndex := g, chunkIndex := c }, Err.cannotLocateChunk, ?_, rfl⟩
    unfold setSampleIndex
    rw [hloc]

/-! ## The cursor after a successful `setSampleIndex` -/

theorem getAt_nonneg {α : Type} {xs : List α} {i : Int} {e : α} (h : getAt xs i = some e) :
    0 ≤ i ∧ i < xs.length := by
  obtain ⟨pre, post, rfl, rfl⟩ := getAt_eq_some_split xs i e h
  simp

theorem chunkGroupStep_total (stc : List SampleToChunkEntry) (g c : Int) (h : 0 ≤ g) :
    ∃ g1, chunkGroupStep stc g c = some g1 ∧ 0 ≤ g1 := by
  unfold chunkGroupStep
  by_cases hl : g + 1 < stc.length
  · obtain ⟨e, he⟩ := getAt_of_lt stc (g + 1) (by omega) hl
    rw [if_pos hl, he]
    dsimp only
    split
    · exact ⟨_, rfl, by omega⟩
    · exact ⟨_, rfl, h⟩
  · rw [if_neg hl]
    exact ⟨_, rfl, h⟩

theorem locateChunk_found_getAt (stc : List SampleToChunkEntry) (index : Int) :
    ∀ (fuel : Nat) (i ci g0 start c g j : Int),
      locateChunk stc index fuel i ci g0 start = some (c, g, some j) →
      ∃ e, getAt stc g = some e := by
  intro fuel
  induction fuel with
  | zero =>
    intro i ci g0 start c g j h
    simp [locateChunk] at h
  | succ fuel ih =>
    intro i ci g0 start c g j h
    unfold locateChunk at h
    cases hstep : chunkGroupStep stc g0 i with
    | none => simp [hstep] at h
    | some g1 =>
      cases hget : getAt stc g1 with
      | none => simp [hstep, hget] at h
      | some e =>
        simp only [hstep, hget] at h
        split at h
        · simp only [Option.some.injEq, Prod.mk.injEq] at h
          obtain ⟨_, rfl, _⟩ := h
          exact ⟨e, hget⟩
        · exact ih _ _ _ _ _ _ _ h

/-- The result of the time-to-sample loop of `setSampleIndex`, when it finds
the index: the run read by the next `incSampleIndex` and the accumulated decode
time, in terms of the run-length expansion. -/
theorem locateStts_closed (index : Int) :
    ∀ (es pre : List TimeToSampleEntry) (k start dts k1 d1 j1 : Int),
      (∀ e ∈ es, 0 < e.Count) → k = (pre.length : Int) →
      locateStts index es k start dts = (k1, d1, some j1) →
      start ≤ index ∧ d1 = wrap64 (dts + decodeTime es (index - start).toNat) ∧
      ∃ e, getAt (pre ++ es) k1 = some e ∧
        (durations es)[(index - start).toNat]? = some e.Duration := by
  intro es
  induction es with
  | nil =>
    intro pre k start dts k1 d1 j1 _ _ h
    simp [locateStts] at h
  | cons e rest ih =>
    intro pre k start dts k1 d1 j1 hpos hk h
    have hc := hpos e (List.mem_cons_self _ _)
    unfold locateStts at h
    by_cases hin : index ≥ start ∧ index < start + e.Count
    · rw [if_pos hin] at h
      simp only [Prod.mk.injEq, Option.some.injEq] at h
      obtain ⟨rfl, rfl, rfl⟩ := h
      have hn : (((index - start).toNat : Nat) : Int) = index - start := by omega
      refine ⟨hin.1, ?_, e, by rw [hk]; exact getAt_append_length pre e rest, ?_⟩
      · rw [decodeTime_cons_le e rest _ (by omega), hn, wrap64_add_right]
      · have hlt : (index - start).toNat < e.Count.toNat := by omega
        simp [durations, List.getElem?_append_left, hlt]
    · rw [if_neg hin] at h
      obtain ⟨h1, h2, e1, h3, h4⟩ := ih (pre ++ [e]) (k + 1) (start + e.Count)
        (wrap64 (dts + wrap64 (e.Count * e.Duration))) k1 d1 j1
        (fun x hx => hpos x (List.mem_cons_of_mem _ hx)) (by simp [hk]) h
      have hn : (index - start).toNat = e.Count.toNat + (index - (start + e.Count)).toNat := by
        omega
      refine ⟨by omega, ?_, e1, by simpa using h3, ?_⟩
      · rw [hn, decodeTime_cons_add e rest _ (by omega), h2]
        generalize e.Count * e.Duration = p
        generalize decodeTime rest (index - (start + e.Count)).toNat = q
        unfold wrap64
        omega
      · rw [hn]
        simp only [durations]
        rw [List.getElem?_append_right (by simp)]
        simpa using h4

theorem locateCtts_getAt (index : Int) :
    ∀ (es pre : List CompositionOffsetEntry) (k start k1 j1 : Int),
      k = (pre.length : Int) → locateCtts index es k start = (k1, some j1) →
      ∃ e, getAt (pre ++ es) k1 = some e := by
  intro es
  induction es with
  | nil =>
    intro pre k start k1 j1 _ h
    simp [locateCtts] at h
  | cons e rest ih =>
    intro pre k start k1 j1 hk h
    unfold locateCtts at h
    by_cases hin : index ≥ start ∧ index < start + e.Count
    · rw [if_pos hin] at h
      simp only [Prod.mk.injEq, Option.some.injEq] at h
      obtain ⟨rfl, _⟩ := h
      exact ⟨e, by rw [hk]; exact getAt_append_length pre e rest⟩
    · rw [if_neg hin] at h
      obtain ⟨e1, h1⟩ := ih (pre ++ [e]) (k + 1) (start + e.Count) k1 j1 (by simp [hk]) h
      exact ⟨e1, by simpa using h1⟩

/-- What a successful `setSampleIndex` found in each table. -/
theorem setSampleIndex_ok_inv (s a : Stream) (index : Int)
    (h : setSampleIndex s index = some (a, none)) :
    ∃ c g j off k d js,
      locateChunk s.sample.SampleToChunk index s.sample.ChunkOffset.length 0 s.chunkIndex 0 0
        = some (c, g, some j) ∧
      offsetInChunk s.sample index j = some (some off) ∧
      locateStts index s.sample.TimeToSample 0 0 0 = (k, d, some js) ∧
      (∀ entries, s.sample.CompositionOffset = some entries → entries ≠ [] →
        ∃ kc jc, locateCtts index entries 0 0 = (kc, some jc)) := by
  unfold setSampleIndex at h
  cases hloc : locateChunk s.sample.SampleToChunk index s.sample.ChunkOffset.length 0
      s.chunkIndex 0 0 with
  | none => simp [hloc] at h
  | some r =>
    obtain ⟨c, g, oj⟩ := r
    cases oj with
    | none => simp [hloc] at h
    | some j =>
      simp only [hloc] at h
      cases hoff : offsetInChunk s.sample index j with
      | none => simp [hoff] at h
      | some o =>
        cases o with
        | none => simp [hoff] at h
        | some off =>
          simp only [hoff] at h
          cases hstts : locateStts index s.sample.TimeToSample 0 0 0 with
          | mk k r2 =>
            obtain ⟨d, ojs⟩ := r2
            cases ojs with
            | none => simp [hstts] at h
            | some js =>
              simp only [hstts] at h
              refine ⟨c, g, j, off, k, d, js, rfl, hoff, rfl, ?_⟩
              intro entries hco he
              have hlen : entries.length > 0 := List.length_pos.mpr he
              simp only [hco, if_pos hlen] at h
              cases hc : locateCtts index entries 0 0 with
              | mk kc ojc =>
                cases ojc with
                | none => simp [hc] at h
                | some jc => exact ⟨kc, jc, rfl⟩

/-- After a successful `setSampleIndex` the next `incSampleIndex` makes no
out-of-range access. -/
theorem incSampleIndex_after_set (s a : Stream) (i : Int)
    (hpos : ∀ e ∈ s.sample.TimeToSample, 0 < e.Count)
    (h : setSampleIndex s i = some (a, none)) :
    0 ≤ i ∧ a.sample = s.sample ∧ a.sampleIndex = i ∧
    a.dts = wrap64 (decodeTime s.sample.TimeToSample i.toNat) ∧
    ∃ es b, getAt s.sample.TimeToSample a.sttsEntryIndex = some es ∧
      (durations s.sample.TimeToSample)[i.toNat]? = some es.Duration ∧
      incSampleIndex a = some (b, es.Duration) ∧ b.dts = wrap64 (a.dts + es.Duration) ∧
      b.sampleIndex = i + 1 := by
  obtain ⟨c, g, j, off, k, d, js, hloc, hoff, hstts, hctts⟩ := setSampleIndex_ok_inv s a i h
  have ha := setSampleIndex_eq s i c g j off k d js hloc hoff hstts hctts
  rw [ha] at h
  simp only [Option.some.injEq, Prod.mk.injEq, and_true] at h
  obtain ⟨h0, hd, es, hes, hdur⟩ := locateStts_closed i s.sample.TimeToSample [] 0 0 0 k d js
    hpos (by simp) hstts
  simp only [sub_zero, zero_add, List.nil_append] at h0 hd hes hdur
  obtain ⟨e, hg⟩ := locateChunk_found_getAt _ _ _ _ _ _ _ _ _ _ hloc
  have hg0 := (getAt_nonneg hg).1
  have hsizeS : s.sample.SampleSize = 0 → j + 1 ≠ e.SamplesPerChunk →
      ∃ v, getAt s.sample.SampleSizeEntries i = some v := by
    intro hz _
    have hlt : i < s.sample.SampleSizeEntries.length := by
      by_contra hn
      unfold offsetInChunk at hoff
      rw [if_neg (by simp [hz]), if_pos (by omega)] at hoff
      simp at hoff
    exact getAt_of_lt _ _ h0 hlt
  obtain ⟨gn, hstepS, _⟩ := chunkGroupStep_total s.sample.SampleToChunk g
    (if j + 1 = e.SamplesPerChunk then c + 1 else c) hg0
  have hcttsS : ∀ entries, s.sample.CompositionOffset = some entries → entries ≠ [] →
      ∃ ec, getAt entries (cttsAt s i).1 = some ec := by
    intro entries hco he
    obtain ⟨kc, jc, hl⟩ := hctts entries hco he
    obtain ⟨ec, hec⟩ := locateCtts_getAt i entries [] 0 0 kc jc (by simp) hl
    have hlen : entries.length > 0 := List.length_pos.mpr he
    refine ⟨ec, ?_⟩
    simp only [cttsAt, hco, if_pos hlen, hl]
    simpa using hec
  have hsyncS : ∀ entries, s.sample.SyncSample = some entries → 0 ≤ syncAt s i := by
    intro entries hsy
    simp only [syncAt, hsy]
    exact locateSync_ge i _ 0
  have hsample : a.sample = s.sample := by rw [← h]
  have hidx : a.sampleIndex = i := by rw [← h]
  have hdts : a.dts = d := by rw [← h]
  have hG : getAt a.sample.SampleToChunk a.chunkGroupIndex = some e := by
    rw [← h]; exact hg
  have hsize : a.sample.SampleSize = 0 → a.sampleIndexInChunk + 1 ≠ e.SamplesPerChunk →
      ∃ v, getAt a.sample.SampleSizeEntries a.sampleIndex = some v := by
    rw [← h]; exact hsizeS
  have hstep : chunkGroupStep a.sample.SampleToChunk a.chunkGroupIndex
      (if a.sampleIndexInChunk + 1 = e.SamplesPerChunk then a.chunkIndex + 1 else a.chunkIndex)
        = some gn := by
    rw [← h]; exact hstepS
  have hesA : getAt a.sample.TimeToSample a.sttsEntryIndex = some es := by
    rw [← h]; exact hes
  have hcttsA : ∀ entries, a.sample.CompositionOffset = some entries → entries ≠ [] →
      ∃ ec, getAt entries a.cttsEntryIndex = some ec := by
    rw [← h]; exact hcttsS
  have hsyncA : ∀ entries, a.sample.SyncSample = some entries → 0 ≤ a.syncSampleIndex := by
    rw [← h]; exact hsyncS
  have hinc := incSampleIndex_eq a e es gn hG hsize hstep hesA hcttsA hsyncA
  refine ⟨h0, hsample, hidx, by rw [hdts, hd], es, _, by rw [← hsample]; exact hesA, hdur,
    hinc, rfl, ?_⟩
  dsimp only
  rw [hidx]

/-! ## The sync pointer -/

theorem locateSync_le (index : Int) :
    ∀ (l : List Int) (k : Int), locateSync index l k ≤ k + l.length := by
  intro l
  induction l with
  | nil => intro k; simp [locateSync]
  | cons v rest ih =>
    intro k
    unfold locateSync
    split
    · simp
      omega
    · have := ih (k + 1)
      simp
      omega

/-- One more sample moves the result of the sync loop of `setSampleIndex` by at
most one entry, exactly as `incSync` moves the pointer. -/
theorem locateSync_step (index : Int) :
    ∀ (l : List Int) (k : Int), l.Pairwise (· < ·) →
      locateSync (index + 1) l k
        = (if l[(locateSync index l k - k).toNat]? = some (index + 2)
           then locateSync index l k + 1 else locateSync index l k) := by
  intro l
  induction l with
  | nil =>
    intro k _
    simp [locateSync]
  | cons v rest ih =>
    intro k hs
    have hrest : rest.Pairwise (· < ·) := (List.pairwise_cons.mp hs).2
    have hv : ∀ w ∈ rest, v < w := (List.pairwise_cons.mp hs).1
    by_cases h1 : v - 1 > index
    · have hm : locateSync index (v :: rest) k = k := by
        unfold locateSync
        rw [if_pos h1]
      rw [hm]
      simp only [sub_self, Int.toNat_zero, List.getElem?_cons_zero, Option.some.injEq]
      by_cases h2 : v = index + 2
      · rw [if_pos h2]
        unfold locateSync
        rw [if_neg (by omega)]
        cases rest with
        | nil => simp [locateSync]
        | cons w rest2 =>
          have := hv w (List.mem_cons_self _ _)
          unfold locateSync
          rw [if_pos (by omega)]
      · rw [if_neg h2]
        unfold locateSync
        rw [if_pos (by omega)]
    · have hm : locateSync index (v :: rest) k = locateSync index rest (k + 1) := by
        conv_lhs => unfold locateSync
        rw [if_neg h1]
      have hge := locateSync_ge index rest (k + 1)
      have hm1 : locateSync (index + 1) (v :: rest) k = locateSync (index + 1) rest (k + 1) := by
        conv_lhs => unfold locateSync
        rw [if_neg (by omega)]
      rw [hm, hm1, ih (k + 1) hrest]
      have hidx : (locateSync index rest (k + 1) - k).toNat
          = (locateSync index rest (k + 1) - (k + 1)).toNat + 1 := by omega
      rw [hidx, List.getElem?_cons_succ]

/-- The entry the sync pointer of `setSampleIndex` lands on is sample `index`
exactly when `index + 1` is in the sync table. -/
theorem locateSync_mem (index : Int) :
    ∀ (l : List Int) (cur k : Int), (cur :: l).Pairwise (· < ·) →
      ∃ v, (cur :: l)[(locateSync index l k - k).toNat]? = some v ∧
        (index + 1 ∈ cur :: l ↔ v - 1 = index) := by
  intro l
  induction l with
  | nil =>
    intro cur k _
    refine ⟨cur, by simp [locateSync], ?_⟩
    simp
    omega
  | cons next rest ih =>
    intro cur k hs
    have hrest : (next :: rest).Pairwise (· < ·) := (List.pairwise_cons.mp hs).2
    have hcur : ∀ w ∈ next :: rest, cur < w := (List.pairwise_cons.mp hs).1
    have hnext : ∀ w ∈ rest, next < w := (List.pairwise_cons.mp hrest).1
    have hcn := hcur next (List.mem_cons_self _ _)
    unfold locateSync
    by_cases h1 : next - 1 > index
    · rw [if_pos h1]
      refine ⟨cur, by simp, ?_⟩
      constructor
      · intro hmem
        rcases List.mem_cons.mp hmem with h | h
        · omega
        · rcases List.mem_cons.mp h with h | h
          · omega
          · have := hnext _ h
            omega
      · intro h
        have : index + 1 = cur := by omega
        rw [this]
        exact List.mem_cons_self _ _
    · rw [if_neg h1]
      obtain ⟨v, hv, hiff⟩ := ih next (k + 1) hrest
      have hge := locateSync_ge index rest (k + 1)
      have hidx : (locateSync index rest (k + 1) - k).toNat
          = (locateSync index rest (k + 1) - (k + 1)).toNat + 1 := by omega
      refine ⟨v, by rw [hidx, List.getElem?_cons_succ]; exact hv, ?_⟩
      rw [← hiff]
      constructor
      · intro hmem
        rcases List.mem_cons.mp hmem with h | h
        · omega
        · exact h
      · intro hmem
        exact List.mem_cons_of_mem _ hmem

theorem incChunk_syncView (s s1 : Stream) (h : incChunk s = some s1) :
    syncView s1 = syncView s := by
  unfold incChunk at h
  dsimp only at h
  split at h
  · simp at h
  · split at h
    · simp only [Option.some.injEq] at h
      rw [← h]
      rfl
    · split at h
      · simp only [Option.some.injEq] at h
        rw [← h]
        rfl
      · split at h
        · simp at h
        · simp only [Option.some.injEq] at h
          rw [← h]
          rfl

theorem incGroup_syncView (s s1 : Stream) (h : incGroup s = some s1) :
    syncView s1 = syncView s := by
  unfold incGroup at h
  split at h
  · simp at h
  · simp only [Option.some.injEq] at h
    rw [← h]
    rfl

theorem incStts_syncView (s s1 : Stream) (d : Int) (h : incStts s = some (s1, d)) :
    syncView s1 = syncView s := by
  unfold incStts at h
  split at h
  · simp at h
  · dsimp only at h
    split at h
    · simp only [Option.some.injEq, Prod.mk.injEq] at h
      rw [← h.1]
      rfl
    · simp only [Option.some.injEq, Prod.mk.injEq] at h
      rw [← h.1]
      rfl

theorem incCtts_syncView (s s1 : Stream) (h : incCtts s = some s1) :
    syncView s1 = syncView s := by
  unfold incCtts at h
  split at h
  · simp only [Option.some.injEq] at h
    rw [← h]
  · split at h
    · dsimp only at h
      split at h
      · simp at h
      · split at h
        · simp only [Option.some.injEq] at h
          rw [← h]
          rfl
        · simp only [Option.some.injEq] at h
          rw [← h]
          rfl
    · simp only [Option.some.injEq] at h
      rw [← h]

theorem syncNext_congr (a b : Stream) (h : syncView a = syncView b) :
    syncNext a = syncNext b := by
  simp only [syncView, Prod.mk.injEq] at h
  obtain ⟨h1, h2, h3⟩ := h
  unfold syncNext
  rw [h1, h2, h3]

/-- The sync pointer and the sample index after `incSampleIndex`. -/
theorem incSampleIndex_sync (a b : Stream) (d : Int) (h : incSampleIndex a = some (b, d))
    (hsync : ∀ entries, a.sample.SyncSample = some entries → 0 ≤ a.syncSampleIndex) :
    b.sample = a.sample ∧ b.syncSampleIndex = syncNext a ∧ b.sampleIndex = a.sampleIndex + 1 := by
  unfold incSampleIndex at h
  cases h1 : incChunk a with
  | none => simp [h1] at h
  | some s1 =>
    simp only [h1] at h
    cases h2 : incGroup s1 with
    | none => simp [h2] at h
    | some s2 =>
      simp only [h2] at h
      cases h3 : incStts s2 with
      | none => simp [h3] at h
      | some r3 =>
        obtain ⟨s3, d3⟩ := r3
        simp only [h3] at h
        cases h4 : incCtts s3 with
        | none => simp [h4] at h
        | some s4 =>
          simp only [h4] at h
          have hv : syncView s4 = syncView a := by
            rw [incCtts_syncView _ _ h4, incStts_syncView _ _ _ h3, incGroup_syncView _ _ h2,
              incChunk_syncView _ _ h1]
          have hv' := hv
          simp only [syncView, Prod.mk.injEq] at hv'
          obtain ⟨hs, hp, hi⟩ := hv'
          have hsync4 : ∀ entries, s4.sample.SyncSample = some entries →
              0 ≤ s4.syncSampleIndex := by
            rw [hs, hp]
            exact hsync
          rw [incSync_eq s4 hsync4] at h
          simp only [Option.some.injEq, Prod.mk.injEq] at h
          obtain ⟨hb, _⟩ := h
          rw [← hb]
          exact ⟨hs, syncNext_congr _ _ hv, by dsimp only; rw [hi]⟩

theorem setSampleIndex_syncPositioned (s a : Stream) (i : Int)
    (h : setSampleIndex s i = some (a, none)) : SyncPositioned a i := by
  obtain ⟨c, g, j, off, k, d, js, hloc, hoff, hstts, hctts⟩ := setSampleIndex_ok_inv s a i h
  rw [setSampleIndex_eq s i c g j off k d js hloc hoff hstts hctts] at h
  simp only [Option.some.injEq, Prod.mk.injEq, and_true] at h
  rw [← h]
  intro entries hsy
  have hsy' : s.sample.SyncSample = some entries := hsy
  show syncAt s i = _
  simp only [syncAt, hsy']

theorem syncNext_positioned (a : Stream) (i : Int) (hwf : SyncWellFormed a.sample)
    (hp : SyncPositioned a i) (hi : a.sampleIndex = i) (entries : List Int)
    (hsy : a.sample.SyncSample = some entries) :
    syncNext a = locateSync (i + 1) entries.tail 0 := by
  obtain ⟨hne, hasc, _⟩ := hwf entries hsy
  have hm := hp entries hsy
  have hge := locateSync_ge i entries.tail 0
  cases entries with
  | nil => exact absurd rfl hne
  | cons e0 tail =>
    simp only [List.tail_cons] at hm hge ⊢
    have htail : tail.Pairwise (· < ·) := (List.pairwise_cons.mp hasc).2
    rw [locateSync_step i tail 0 htail]
    simp only [syncNext, hsy, hm, hi, sub_zero]
    have hget : getAt (e0 :: tail) (locateSync i tail 0 + 1)
        = tail[(locateSync i tail 0).toNat]? := by
      unfold getAt
      rw [if_neg (by omega)]
      have : (locateSync i tail 0 + 1).toNat = (locateSync i tail 0).toNat + 1 := by omega
      rw [this, List.getElem?_cons_succ]
    rw [hget]

theorem totalSamples_pos {t : SampleTable} (hwf : WellFormed t) : 0 < totalSamples t := by
  obtain ⟨e0, hent⟩ := entering_zero hwf.ascending hwf.first
  obtain ⟨g, e, _, hcov⟩ := chunkGroupStep_entering hwf.ascending hent
  have h1 := chunkFirst_succ t.SampleToChunk 0
  have hc : samplesInChunk t.SampleToChunk (((0 : Nat) : Int) + 1) = e.SamplesPerChunk :=
    samplesInChunk_covers hwf.ascending (by simpa using hcov)
  rw [hc, chunkFirst_zero] at h1
  have hp := hwf.positive e (getAt_mem hcov.getAt_eq)
  have hlen : 1 ≤ t.ChunkOffset.length := by
    have := List.length_pos.mpr hwf.chunks
    omega
  have := chunkFirst_mono hwf.positive 1 t.ChunkOffset.length hlen
  unfold totalSamples
  simp only [zero_add] at h1
  omega

/-- The table positions of a cursor positioned on an existing sample are all
in range. -/
theorem positioned_bounds (a : Stream) (i : Int) (hwf : WellFormed a.sample) (h0 : 0 ≤ i)
    (h1 : i < totalSamples a.sample) (hp : Positioned a i) :
    (0 ≤ a.chunkIndex ∧ a.chunkIndex < a.sample.ChunkOffset.length) ∧
    (∃ e, getAt a.sample.SampleToChunk a.chunkGroupIndex = some e) ∧
    (∃ es, getAt a.sample.TimeToSample a.sttsEntryIndex = some es) ∧
    (∀ entries, a.sample.CompositionOffset = some entries → entries ≠ [] →
      ∃ ec, getAt entries a.cttsEntryIndex = some ec) ∧
    (a.sample.SampleSize = 0 → ∃ v, getAt a.sample.SampleSizeEntries a.sampleIndex = some v) := by
  obtain ⟨c, g, e, hloc, hc, hcov, _, _⟩ := locateChunk_wellFormed hwf i h0 h1 0
  have hchunk := hp.chunk
  rw [hloc] at hchunk
  simp only [Option.some.injEq, Prod.mk.injEq] at hchunk
  obtain ⟨hci, hcgi, _⟩ := hchunk
  obtain ⟨_, _, es, hes, _⟩ := locateStts_closed i a.sample.TimeToSample [] 0 0 0 _ _ _
    hwf.sttsPositive (by simp) hp.stts
  refine ⟨⟨by omega, by omega⟩, ⟨e, by rw [← hcgi]; exact hcov.getAt_eq⟩,
    ⟨es, by simpa using hes⟩, ?_, ?_⟩
  · intro entries hco he
    obtain ⟨ec, hec⟩ := locateCtts_getAt i entries [] 0 0 _ _ (by simp) (hp.ctts entries hco he)
    exact ⟨ec, by simpa using hec⟩
  · intro hz
    rcases hwf.sizes with h | ⟨_, hlen⟩
    · exact absurd hz h
    · rw [hp.index]
      exact getAt_of_lt _ _ h0 (by omega)

/-- On a well-formed table `incSampleIndex` makes no out-of-range access from a
cursor positioned on an existing sample, the last one included. -/
theorem incSampleIndex_of_positioned (a : Stream) (i : Int) (hwf : WellFormed a.sample)
    (h0 : 0 ≤ i) (h1 : i < totalSamples a.sample) (hp : Positioned a i) :
    ∃ es b, getAt a.sample.TimeToSample a.sttsEntryIndex = some es ∧
      incSampleIndex a = some (b, es.Duration) ∧ b.sample = a.sample ∧
      b.sttsEntryIndex
        = (if a.sampleIndexInSttsEntry + 1 = es.Count then a.sttsEntryIndex + 1
           else a.sttsEntryIndex) := by
  obtain ⟨_, ⟨e, hg⟩, ⟨es, hes⟩, hctts, hsize⟩ := positioned_bounds a i hwf h0 h1 hp
  obtain ⟨gn, hstep, _⟩ := chunkGroupStep_total a.sample.SampleToChunk a.chunkGroupIndex
    (if a.sampleIndexInChunk + 1 = e.SamplesPerChunk then a.chunkIndex + 1 else a.chunkIndex)
    (getAt_nonneg hg).1
  exact ⟨es, _, hes, incSampleIndex_eq a e es gn hg (fun hz _ => hsize hz) hstep hes hctts
    hp.sync, rfl, rfl⟩

/-- The time-to-sample loop of `setSampleIndex` finds the last sample at the end
of the last run. -/
theorem locateStts_last (index : Int) :
    ∀ (es pre : List TimeToSampleEntry) (k start dts k1 d1 j1 : Int),
      (∀ e ∈ es, 0 < e.Count) → k = (pre.length : Int) →
      index + 1 = start + sttsCount es →
      locateStts index es k start dts = (k1, d1, some j1) →
      ∃ e, getAt (pre ++ es) k1 = some e ∧ j1 + 1 = e.Count ∧
        k1 + 1 = ((pre ++ es).length : Int) := by
  intro es
  induction es with
  | nil =>
    intro pre k start dts k1 d1 j1 _ _ _ h
    simp [locateStts] at h
  | cons e rest ih =>
    intro pre k start dts k1 d1 j1 hpos hk hlast h
    have hc := hpos e (List.mem_cons_self _ _)
    have hposr : ∀ x ∈ rest, 0 < x.Count := fun x hx => hpos x (List.mem_cons_of_mem _ hx)
    rw [sttsCount_cons] at hlast
    unfold locateStts at h
    by_cases hin : index ≥ start ∧ index < start + e.Count
    · rw [if_pos hin] at h
      simp only [Prod.mk.injEq, Option.some.injEq] at h
      obtain ⟨rfl, _, rfl⟩ := h
      have hrest : rest = [] := by
        by_contra hne
        have := sttsCount_pos rest hne hposr
        omega
      subst hrest
      simp only [sttsCount, List.map_nil, List.sum_nil] at hlast
      refine ⟨e, by rw [hk]; exact getAt_append_length pre e [], by omega, ?_⟩
      simp [hk]
    · rw [if_neg hin] at h
      obtain ⟨e1, h1, h2, h3⟩ := ih (pre ++ [e]) (k + 1) (start + e.Count)
        (wrap64 (dts + wrap64 (e.Count * e.Duration))) k1 d1 j1 hposr (by simp [hk]) (by omega) h
      exact ⟨e1, by simpa using h1, h2, by simpa using h3⟩

/-! ## Exhaustion -/

theorem incSampleIndex_tracking (a : Stream) (i : Int) (hwf : WellFormed a.sample)
    (hsw : SyncWellFormed a.sample) (h0 : 0 ≤ i) (h1 : i + 1 < totalSamples a.sample)
    (hp : Positioned a i) (hsp : SyncPositioned a i) :
    ∃ b d, incSampleIndex a = some (b, d) ∧ b.sample = a.sample ∧ Positioned b (i + 1) ∧
      SyncPositioned b (i + 1) := by
  obtain ⟨b, d, hinc, hsample, hpb⟩ := incSampleIndex_positioned a i hwf h0 h1 hp
  obtain ⟨_, hs2, _⟩ := incSampleIndex_sync a b d hinc hp.sync
  refine ⟨b, d, hinc, hsample, hpb, ?_⟩
  intro entries hsy
  rw [hsample] at hsy
  rw [hs2]
  exact syncNext_positioned a i hsw hsp hp.index entries hsy

theorem advance_tracking :
    ∀ (n : Nat) (a : Stream) (k : Int), WellFormed a.sample → SyncWellFormed a.sample →
      0 ≤ k → k + n < totalSamples a.sample → Positioned a k → SyncPositioned a k →
      ∃ b, advance n a = some b ∧ b.sample = a.sample ∧ Positioned b (k + n) ∧
        SyncPositioned b (k + n) := by
  intro n
  induction n with
  | zero =>
    intro a k _ _ _ _ hp hsp
    exact ⟨a, rfl, rfl, by simpa using hp, by simpa using hsp⟩
  | succ n ih =>
    intro a k hwf hsw h0 h1 hp hsp
    obtain ⟨b, d, hinc, hsample, hpb, hspb⟩ :=
      incSampleIndex_tracking a k hwf hsw h0 (by push_cast at h1; omega) hp hsp
    obtain ⟨c, hadv, hsample', hpc, hspc⟩ := ih b (k + 1) (by rw [hsample]; exact hwf)
      (by rw [hsample]; exact hsw) (by omega) (by rw [hsample]; push_cast at h1; omega) hpb hspb
    have hk : k + ((n + 1 : Nat) : Int) = k + 1 + (n : Int) := by push_cast; ring
    refine ⟨c, ?_, by rw [hsample', hsample], by rw [hk]; exact hpc, by rw [hk]; exact hspc⟩
    simp only [advance, hinc]
    exact hadv

theorem advance_succ (n : Nat) :
    ∀ (a b : Stream), advance n a = some b →
      advance (n + 1) a = (incSampleIndex b).map Prod.fst := by
  induction n with
  | zero =>
    intro a b h
    simp only [advance, Option.some.injEq] at h
    subst h
    simp only [advance]
    cases incSampleIndex a with
    | none => rfl
    | some r => rfl
  | succ n ih =>
    intro a b h
    rw [advance] at h
    rw [advance]
    cases hinc : incSampleIndex a with
    | none => simp [hinc] at h
    | some r =>
      obtain ⟨a1, d⟩ := r
      simp only [hinc] at h ⊢
      exact ih a1 b h

/-- A cursor positioned on an existing sample of a well-formed table with
explicit sizes is valid, and all the table reads made there are in range. -/
theorem isSampleValid_of_positioned (a : Stream) (i : Int) (hwf : WellFormed a.sample)
    (hsw : SyncWellFormed a.sample) (hexp : a.sample.SampleSize = 0) (h0 : 0 ≤ i)
    (h1 : i < totalSamples a.sample) (hp : Positioned a i) (hsp : SyncPositioned a i) :
    isSampleValid a = true ∧ ReadsInBounds a := by
  obtain ⟨⟨hc0, hc1⟩, ⟨e, hg⟩, ⟨es, hes⟩, hctts, hsize⟩ := positioned_bounds a i hwf h0 h1 hp
  obtain ⟨es', b, _, hinc, _, _⟩ := incSampleIndex_of_positioned a i hwf h0 h1 hp
  have hsyncB : ∀ entries, a.sample.SyncSample = some entries →
      0 ≤ a.syncSampleIndex ∧ a.syncSampleIndex < entries.length := by
    intro entries hsy
    obtain ⟨hne, _, _⟩ := hsw entries hsy
    have hm := hsp entries hsy
    have h2 := locateSync_ge i entries.tail 0
    have h3 := locateSync_le i entries.tail 0
    have hl : 0 < entries.length := List.length_pos.mpr hne
    simp only [List.length_tail] at h3
    omega
  refine ⟨?_, getAt_of_lt _ _ hc0 hc1, hsize, ?_, hctts, b, _, hinc⟩
  · have hg1 := (getAt_nonneg hg).2
    have hs1 := (getAt_nonneg hes).2
    unfold isSampleValid
    rw [if_neg (by omega), if_neg (by omega), if_neg (by omega)]
    have hc : ∀ entries, a.sample.CompositionOffset = some entries →
        ¬ (entries.length > 0 ∧ a.cttsEntryIndex ≥ entries.length) := by
      intro entries hco
      by_cases he : entries = []
      · subst he
        simp
      · obtain ⟨ec, hec⟩ := hctts entries hco he
        have := (getAt_nonneg hec).2
        omega
    have hs : ∀ entries, a.sample.SyncSample = some entries →
        ¬ (a.syncSampleIndex ≥ entries.length) := by
      intro entries hsy
      have := (hsyncB entries hsy).2
      omega
    cases hco : a.sample.CompositionOffset with
    | none =>
      cases hsy : a.sample.SyncSample with
      | none => simp [hexp]
      | some sy =>
        have := hs sy hsy
        simp [hexp, this]
    | some co =>
      have h5 := hc co hco
      cases hsy : a.sample.SyncSample with
      | none => simp [hexp, h5]
      | some sy =>
        have := hs sy hsy
        simp [hexp, this, h5]
  · intro entries hsy
    obtain ⟨h2, h3⟩ := hsyncB entries hsy
    exact getAt_of_lt _ _ h2 h3

/-- C13: on a well-formed, consistent table with explicit sizes and `N`
samples (a sync table, when present, non-empty, strictly ascending and within
`1..N`), `setSampleIndex(0)` succeeds; after `k < N` calls of `incSampleIndex`
from there the cursor is valid, has `sampleIndex = k`, and every table read of
`readPacket` and of `incSampleIndex` at it is in range; after `N` calls the
cursor is not valid. -/
theorem exhausted_after_all_samples (s : Stream) (hwf : WellFormed s.sample)
    (hsw : SyncWellFormed s.sample) (hexp : s.sample.SampleSize = 0) :
    ∃ s0, setSampleIndex s 0 = some (s0, none) ∧
      (∀ k : Nat, (k : Int) < totalSamples s.sample →
        ∃ a, advance k s0 = some a ∧ isSampleValid a = true ∧ a.sampleIndex = k ∧
          ReadsInBounds a) ∧
      ∃ a, advance (totalSamples s.sample).toNat s0 = some a ∧ isSampleValid a = false := by
  have hN := totalSamples_pos hwf
  obtain ⟨s0, hs0, hss0, hp0⟩ := setSampleIndex_positioned s 0 hwf (le_refl _) hN
  have hsp0 := setSampleIndex_syncPositioned s s0 0 hs0
  have hwf0 : WellFormed s0.sample := by rw [hss0]; exact hwf
  have hsw0 : SyncWellFormed s0.sample := by rw [hss0]; exact hsw
  have hreach : ∀ k : Nat, (k : Int) < totalSamples s.sample →
      ∃ a, advance k s0 = some a ∧ a.sample = s.sample ∧ Positioned a k ∧
        SyncPositioned a k := by
    intro k hk
    obtain ⟨a, ha, hsa, hpa, hspa⟩ := advance_tracking k s0 0 hwf0 hsw0 (le_refl _)
      (by rw [hss0]; omega) hp0 hsp0
    exact ⟨a, ha, by rw [hsa, hss0], by simpa using hpa, by simpa using hspa⟩
  refine ⟨s0, hs0, ?_, ?_⟩
  · intro k hk
    obtain ⟨a, ha, hsa, hpa, hspa⟩ := hreach k hk
    obtain ⟨hv, hb⟩ := isSampleValid_of_positioned a k (by rw [hsa]; exact hwf)
      (by rw [hsa]; exact hsw) (by rw [hsa]; exact hexp) (by omega) (by rw [hsa]; exact hk)
      hpa hspa
    exact ⟨a, ha, hv, hpa.index, hb⟩
  · obtain ⟨n, hn⟩ : ∃ n : Nat, (totalSamples s.sample).toNat = n + 1 :=
      ⟨(totalSamples s.sample).toNat - 1, by omega⟩
    have hnN : (n : Int) + 1 = totalSamples s.sample := by omega
    obtain ⟨a, ha, hsa, hpa, _⟩ := hreach n (by omega)
    have hwfa : WellFormed a.sample := by rw [hsa]; exact hwf
    obtain ⟨es, b, hes, hinc, hsb, hk⟩ := incSampleIndex_of_positioned a n hwfa (by omega)
      (by rw [hsa]; omega) hpa
    obtain ⟨e, he, hj, hlen⟩ := locateStts_last n a.sample.TimeToSample [] 0 0 0 _ _ _
      hwfa.sttsPositive (by simp) (by rw [hwfa.sttsTotal, hsa]; omega) hpa.stts
    simp only [List.nil_append] at he hlen
    rw [hes] at he
    simp only [Option.some.injEq] at he
    subst he
    rw [if_pos hj] at hk
    refine ⟨b, ?_, ?_⟩
    · rw [hn, advance_succ n s0 a ha, hinc]
      rfl
    · unfold isSampleValid
      split
      · rfl
      · split
        · rfl
        · rw [if_pos (by rw [hsb, hk]; omega)]

/-! ## Keyframes -/

/-- On a valid cursor with explicit non-negative sizes and a source that
succeeds, `readPacket` returns a packet, advances the cursor as
`incSampleIndex` does, and flags the packet by the sync-sample position test. -/
theorem readPacket_ok (a : Stream) (r : Source) (hvalid : isSampleValid a = true)
    (hb : ReadsInBounds a) (hexp : a.sample.SampleSize = 0)
    (hsizes : ∀ v ∈ a.sample.SampleSizeEntries, 0 ≤ v) (hr : Succeeds r) :
    ∃ b d r1 pkt, incSampleIndex a = some (b, d) ∧ readPacket a r = some (b, r1, pkt, none) ∧
      Succeeds r1 ∧
      (∀ entries v, a.sample.SyncSample = some entries →
        getAt entries a.syncSampleIndex = some v →
        (pkt.IsKeyFrame = true ↔ v - 1 = a.sampleIndex)) := by
  obtain ⟨⟨off, hoff⟩, hsize, hsync, hctts, b, d, hinc⟩ := hb
  obtain ⟨size, hsz⟩ := hsize hexp
  have hsz0 : ¬ size < 0 := by
    have := hsizes size (getAt_mem hsz)
    omega
  have hseek := hr.1 (off + a.sampleOffsetInChunk)
  have hread := hr.2 (off + a.sampleOffsetInChunk) size.toNat
  unfold readPacket
  simp only [hvalid, hoff, hexp, hsz, hinc]
  simp only [Bool.not_true, Bool.false_eq_true, if_false, ne_eq, not_true_eq_false, hseek,
    hsz0, hread]
  cases hsy : a.sample.SyncSample with
  | none =>
    cases hco : a.sample.CompositionOffset with
    | none =>
      exact ⟨b, d, _, _, rfl, rfl, ⟨hr.1, hr.2⟩, by intro entries v h; cases h⟩
    | some co =>
      by_cases he : co = []
      · subst he
        exact ⟨b, d, _, _, rfl, rfl, ⟨hr.1, hr.2⟩, by intro entries v h; cases h⟩
      · obtain ⟨ec, hec⟩ := hctts co hco he
        have hlen : co.length > 0 := List.length_pos.mpr he
        simp only [hlen, if_true, hec]
        exact ⟨b, d, _, _, rfl, rfl, ⟨hr.1, hr.2⟩, by intro entries v h; cases h⟩
  | some sy =>
    obtain ⟨v, hv⟩ := hsync sy hsy
    simp only [hv]
    have hflag : ∀ entries w, some sy = some entries →
        getAt entries a.syncSampleIndex = some w → w = v := by
      intro entries w h1 h2
      cases h1
      rw [hv] at h2
      exact (Option.some.inj h2).symm
    by_cases hk : v - 1 = a.sampleIndex
    · simp only [hk, if_true]
      cases hco : a.sample.CompositionOffset with
      | none =>
        refine ⟨b, d, _, _, rfl, rfl, ⟨hr.1, hr.2⟩, ?_⟩
        intro entries w h1 h2
        rw [hflag entries w h1 h2]
        simp [hk]
      | some co =>
        by_cases he : co = []
        · subst he
          refine ⟨b, d, _, _, rfl, rfl, ⟨hr.1, hr.2⟩, ?_⟩
          intro entries w h1 h2
          rw [hflag entries w h1 h2]
          simp [hk]
        · obtain ⟨ec, hec⟩ := hctts co hco he
          have hlen : co.length > 0 := List.length_pos.mpr he
          simp only [hlen, if_true, hec]
          refine ⟨b, d, _, _, rfl, rfl, ⟨hr.1, hr.2⟩, ?_⟩
          intro entries w h1 h2
          rw [hflag entries w h1 h2]
          simp [hk]
    · simp only [hk, if_false]
      cases hco : a.sample.CompositionOffset with
      | none =>
        refine ⟨b, d, _, _, rfl, rfl, ⟨hr.1, hr.2⟩, ?_⟩
        intro entries w h1 h2
        rw [hflag entries w h1 h2]
        simp [hk, Packet.zero]
      | some co =>
        by_cases he : co = []
        · subst he
          refine ⟨b, d, _, _, rfl, rfl, ⟨hr.1, hr.2⟩, ?_⟩
          intro entries w h1 h2
          rw [hflag entries w h1 h2]
          simp [hk, Packet.zero]
        · obtain ⟨ec, hec⟩ := hctts co hco he
          have hlen : co.length > 0 := List.length_pos.mpr he
          simp only [hlen, if_true, hec]
          refine ⟨b, d, _, _, rfl, rfl, ⟨hr.1, hr.2⟩, ?_⟩
          intro entries w h1 h2
          rw [hflag entries w h1 h2]
          simp [hk, Packet.zero]

/-- The sync pointer of a cursor positioned on sample `i` reads an entry of the
sync table, and that entry is `i + 1` exactly when `i + 1` is in the table. -/
theorem syncPositioned_mem (a : Stream) (i : Int) (entries : List Int)
    (hsy : a.sample.SyncSample = some entries) (hne : entries ≠ [])
    (hasc : entries.Pairwise (· < ·)) (hsp : SyncPositioned a i) :
    ∃ v, getAt entries a.syncSampleIndex = some v ∧ (v - 1 = i ↔ i + 1 ∈ entries) := by
  have hm := hsp entries hsy
  cases entries with
  | nil => exact absurd rfl hne
  | cons cur l =>
    simp only [List.tail_cons] at hm
    obtain ⟨v, hv, hiff⟩ := locateSync_mem i l cur 0 hasc
    have hge := locateSync_ge i l 0
    refine ⟨v, ?_, hiff.symm⟩
    unfold getAt
    rw [if_neg (by omega), hm]
    simpa using hv

/-- Reading `n` packets in sequence from a cursor positioned on sample `k`
succeeds while the samples exist, and moves the cursor as `n` calls of
`incSampleIndex` do. -/
theorem readMany_tracking :
    ∀ (n : Nat) (a : Stream) (k : Int) (r : Source), WellFormed a.sample →
      SyncWellFormed a.sample → a.sample.SampleSize = 0 →
      (∀ v ∈ a.sample.SampleSizeEntries, 0 ≤ v) → Succeeds r →
      0 ≤ k → k + n < totalSamples a.sample → Positioned a k → SyncPositioned a k →
      ∃ b r1, readMany n a r = some (b, r1) ∧ Succeeds r1 ∧ advance n a = some b := by
  intro n
  induction n with
  | zero =>
    intro a k r _ _ _ _ hr _ _ _ _
    exact ⟨a, r, rfl, hr, rfl⟩
  | succ n ih =>
    intro a k r hwf hsw hexp hsizes hr h0 h1 hp hsp
    push_cast at h1
    obtain ⟨hv, hb⟩ := isSampleValid_of_positioned a k hwf hsw hexp h0 (by omega) hp hsp
    obtain ⟨b, d, r1, pkt, hinc, hread, hr1, _⟩ := readPacket_ok a r hv hb hexp hsizes hr
    obtain ⟨b', d', hinc', hsample, hpb, hspb⟩ :=
      incSampleIndex_tracking a k hwf hsw h0 (by omega) hp hsp
    rw [hinc] at hinc'
    simp only [Option.some.injEq, Prod.mk.injEq] at hinc'
    obtain ⟨hbb, _⟩ := hinc'
    subst hbb
    obtain ⟨c, r2, hmany, hr2, hadv⟩ := ih b (k + 1) r1 (by rw [hsample]; exact hwf)
      (by rw [hsample]; exact hsw) (by rw [hsample]; exact hexp)
      (by rw [hsample]; exact hsizes) hr1 (by omega) (by rw [hsample]; omega) hpb hspb
    refine ⟨c, r2, ?_, hr2, ?_⟩
    · simp only [readMany, hread]
      exact hmany
    · simp only [advance, hinc]
      exact hadv

/-- The packet read at a cursor positioned on an existing sample `i` of a table
with a sync table is flagged as a keyframe exactly when `i + 1` is in it. -/
theorem readPacket_positioned (a : Stream) (r : Source) (entries : List Int) (i : Int)
    (hwf : WellFormed a.sample) (hsw : SyncWellFormed a.sample)
    (hexp : a.sample.SampleSize = 0) (hsizes : ∀ v ∈ a.sample.SampleSizeEntries, 0 ≤ v)
    (hsy : a.sample.SyncSample = some entries) (hr : Succeeds r) (h0 : 0 ≤ i)
    (h1 : i < totalSamples a.sample) (hp : Positioned a i) (hsp : SyncPositioned a i) :
    ∃ b r1 pkt, readPacket a r = some (b, r1, pkt, none) ∧
      (pkt.IsKeyFrame = true ↔ i + 1 ∈ entries) := by
  obtain ⟨hv, hb⟩ := isSampleValid_of_positioned a i hwf hsw hexp h0 h1 hp hsp
  obtain ⟨b, d, r1, pkt, _, hread, _, hkey⟩ := readPacket_ok a r hv hb hexp hsizes hr
  obtain ⟨hne, hasc, _⟩ := hsw entries hsy
  obtain ⟨v, hget, hiff⟩ := syncPositioned_mem a i entries hsy hne hasc hsp
  refine ⟨b, r1, pkt, hread, ?_⟩
  rw [hkey entries v hsy hget, hp.index]
  exact hiff

/-- C16: on a well-formed, consistent table with explicit non-negative sizes
and a non-empty strictly ascending sync table within `1..N`, read from a source
whose seeks and reads succeed, for every `i < N` the packet that `readPacket`
returns for sample `i` has `IsKeyFrame = true` exactly when `i + 1` is an entry
of the sync table, both after `setSampleIndex(i)` and after `setSampleIndex(0)`
followed by `i` successful reads; on `syncTable` (`[1, 3]` over four samples)
the four packets read in sequence are flagged true, false, true, false. -/
theorem readPacket_keyframe_iff (s : Stream) (r : Source) (entries : List Int) (i : Int)
    (hwf : WellFormed s.sample) (hsw : SyncWellFormed s.sample)
    (hexp : s.sample.SampleSize = 0) (hsizes : ∀ v ∈ s.sample.SampleSizeEntries, 0 ≤ v)
    (hsy : s.sample.SyncSample = some entries) (hr : Succeeds r) (h0 : 0 ≤ i)
    (h1 : i < totalSamples s.sample) :
    (∃ a b r1 pkt, setSampleIndex s i = some (a, none) ∧
      readPacket a r = some (b, r1, pkt, none) ∧
      (pkt.IsKeyFrame = true ↔ i + 1 ∈ entries)) ∧
    (∃ s0 a r0 b r1 pkt, setSampleIndex s 0 = some (s0, none) ∧
      readMany i.toNat s0 r = some (a, r0) ∧ a.sampleIndex = i ∧
      readPacket a r0 = some (b, r1, pkt, none) ∧
      (pkt.IsKeyFrame = true ↔ i + 1 ∈ entries)) ∧
    keyFlags 4 (newStream syncTable 1000 0 ⟨true⟩) quietSource = [true, false, true, false] := by
  refine ⟨?_, ?_, rfl⟩
  · obtain ⟨a, ha, hsa, hpa⟩ := setSampleIndex_positioned s i hwf h0 h1
    have hspa := setSampleIndex_syncPositioned s a i ha
    obtain ⟨b, r1, pkt, hread, hiff⟩ := readPacket_positioned a r entries i
      (by rw [hsa]; exact hwf) (by rw [hsa]; exact hsw) (by rw [hsa]; exact hexp)
      (by rw [hsa]; exact hsizes) (by rw [hsa]; exact hsy) hr h0 (by rw [hsa]; exact h1)
      hpa hspa
    exact ⟨a, b, r1, pkt, ha, hread, hiff⟩
  · have hN : 0 < totalSamples s.sample := by omega
    obtain ⟨s0, hs0, hss0, hp0⟩ := setSampleIndex_positioned s 0 hwf (le_refl _) hN
    have hsp0 := setSampleIndex_syncPositioned s s0 0 hs0
    have hwf0 : WellFormed s0.sample := by rw [hss0]; exact hwf
    have hsw0 : SyncWellFormed s0.sample := by rw [hss0]; exact hsw
    have hi : (0 : Int) + (i.toNat : Int) = i := by omega
    obtain ⟨a, r0, hmany, hr0, hadv⟩ := readMany_tracking i.toNat s0 0 r hwf0 hsw0
      (by rw [hss0]; exact hexp) (by rw [hss0]; exact hsizes) hr (le_refl _)
      (by rw [hss0]; omega) hp0 hsp0
    obtain ⟨a', hadv', hsa, hpa, hspa⟩ := advance_tracking i.toNat s0 0 hwf0 hsw0 (le_refl _)
      (by rw [hss0]; omega) hp0 hsp0
    rw [hadv] at hadv'
    simp only [Option.some.injEq] at hadv'
    subst hadv'
    rw [hi] at hpa hspa
    have hsas : a.sample = s.sample := by rw [hsa, hss0]
    obtain ⟨b, r1, pkt, hread, hiff⟩ := readPacket_positioned a r0 entries i
      (by rw [hsas]; exact hwf) (by rw [hsas]; exact hsw) (by rw [hsas]; exact hexp)
      (by rw [hsas]; exact hsizes) (by rw [hsas]; exact hsy) hr0 h0
      (by rw [hsas]; exact h1) hpa hspa
    exact ⟨s0, a, r0, b, r1, pkt, hs0, hmany, hpa.index, hread, hiff⟩

/-! ## Track selection -/

theorem choose_spec :
    ∀ (l pre : List Stream) (c : Stream) (k : Nat), pre[k]? = some c →
      (∀ (j : Nat) (s : Stream), pre[j]? = some s → tsToTime c c.dts ≤ tsToTime s s.dts) →
      (∀ (j : Nat) (s : Stream), j < k → pre[j]? = some s → tsToTime c c.dts < tsToTime s s.dts) →
      ∃ (k1 : Nat) (c1 : Stream), choose l (pre.length : Int) (some c) (k : Int)
          = (some c1, (k1 : Int)) ∧ (pre ++ l)[k1]? = some c1 ∧
        (∀ (j : Nat) (s : Stream), (pre ++ l)[j]? = some s → tsToTime c1 c1.dts ≤ tsToTime s s.dts) ∧
        (∀ (j : Nat) (s : Stream), j < k1 → (pre ++ l)[j]? = some s → tsToTime c1 c1.dts < tsToTime s s.dts) := by
  intro l
  induction l with
  | nil =>
    intro pre c k h1 h2 h3
    exact ⟨k, c, rfl, by simpa using h1, by simpa using h2, by simpa using h3⟩
  | cons s rest ih =>
    intro pre c k h1 h2 h3
    have hk : k < pre.length := (List.getElem?_eq_some_iff.mp h1).1
    have hlen : ((pre ++ [s]).length : Int) = (pre.length : Int) + 1 := by simp
    have hmem : ∀ (j : Nat) (x : Stream), (pre ++ [s])[j]? = some x → pre[j]? = some x ∨ (j = pre.length ∧ x = s) := by
      intro j x hx
      by_cases hj : j < pre.length
      · left
        rw [List.getElem?_append_left hj] at hx
        exact hx
      · right
        rw [List.getElem?_append_right (by omega)] at hx
        have hj0 : j - pre.length = 0 := by
          by_contra hne
          have : ([s] : List Stream)[j - pre.length]? = none := by
            apply List.getElem?_eq_none
            simp
            omega
          rw [this] at hx
          cases hx
        rw [hj0] at hx
        simp at hx
        exact ⟨by omega, hx.symm⟩
    unfold choose
    by_cases hlt : tsToTime s s.dts < tsToTime c c.dts
    · simp only [hlt, if_true]
      rw [← hlen]
      obtain ⟨k1, c1, hc, hg, hmin, hfirst⟩ := ih (pre ++ [s]) s pre.length
        (by simp)
        (by
          intro j x hx
          rcases hmem j x hx with hx | ⟨_, rfl⟩
          · exact le_of_lt (lt_of_lt_of_le hlt (h2 j x hx))
          · exact le_refl _)
        (by
          intro j x hj hx
          rcases hmem j x hx with hx | ⟨hj2, _⟩
          · exact lt_of_lt_of_le hlt (h2 j x hx)
          · omega)
      exact ⟨k1, c1, hc, by simpa using hg, by simpa using hmin, by simpa using hfirst⟩
    · simp only [hlt, if_false]
      rw [← hlen]
      obtain ⟨k1, c1, hc, hg, hmin, hfirst⟩ := ih (pre ++ [s]) c k
        (by rw [List.getElem?_append_left hk]; exact h1)
        (by
          intro j x hx
          rcases hmem j x hx with hx | ⟨_, rfl⟩
          · exact h2 j x hx
          · exact not_lt.mp hlt)
        (by
          intro j x hj hx
          rcases hmem j x hx with hx | ⟨hj2, _⟩
          · exact h3 j x hj hx
          · omega)
      exact ⟨k1, c1, hc, by simpa using hg, by simpa using hmin, by simpa using hfirst⟩

/-- C17, counterexample: two streams of timescale 1 with valid cursors on their
sample 1, the first at `dts = 2^53 + 1` and the second at `dts = 2^53`.  As
exact rationals the time of the second stream is strictly the smaller one, so
the smallest index of minimal time is 1; both ticks convert to the same
`float64`, the comparison of line 313 is false, and `ReadPacket` returns
stream index 0. -/
theorem ReadPacket_float64_tie :
    setSampleIndex (newStream (tickTable 9007199254740993) 1 0 ⟨false⟩) 1
      = some (lateCursor, none) ∧
    setSampleIndex (newStream (tickTable 9007199254740992) 1 1 ⟨false⟩) 1
      = some (earlyCursor, none) ∧
    isSampleValid lateCursor = true ∧ isSampleValid earlyCursor = true ∧
    (earlyCursor.dts : Rat) / (earlyCursor.timeScale : Rat)
      < (lateCursor.dts : Rat) / (lateCursor.timeScale : Rat) ∧
    ∃ d1 pkt, Demuxer.ReadPacket { R := quietSource, streams := [lateCursor, earlyCursor] }
      = some (d1, 0, pkt, none) := by
  refine ⟨by decide, by decide, by decide, by decide, ?_, ?_⟩
  · norm_num [earlyCursor, lateCursor, newStream]
  · have hf : Float64.ofInt 9007199254740992 = Float64.ofInt 9007199254740993 := by decide
    have hch : choose [lateCursor, earlyCursor] 0 none 0 = (some lateCursor, 0) := by
      simp [choose, tsToTime, earlyCursor, lateCursor, newStream, hf]
    unfold Demuxer.ReadPacket
    dsimp only
    rw [hch]
    exact ⟨_, _, rfl⟩

/-- C17 amended: on a non-empty stream list whose timescales are not zero,
`Demuxer.ReadPacket` delegates to the stream at the smallest index `i` whose
`float64` time `float64(dts) / float64(timescale)` is at most that of every
stream (every stream before `i` has a strictly later `float64` time), returns
`i` as the stream index, and replaces only that stream's cursor in the list.
The timescales must not be zero because the infinity or NaN of a division by
zero is outside the model of `tsToTime`. -/
theorem ReadPacket_selects_earliest (d : Demuxer) (hne : d.streams ≠ [])
    (hscale : ∀ s ∈ d.streams, s.timeScale ≠ 0) :
    ∃ (i : Nat) (chosen : Stream), d.streams[i]? = some chosen ∧
      (∀ (j : Nat) (s : Stream), d.streams[j]? = some s → tsToTime chosen chosen.dts ≤ tsToTime s s.dts) ∧
      (∀ (j : Nat) (s : Stream), j < i → d.streams[j]? = some s →
        tsToTime chosen chosen.dts < tsToTime s s.dts) ∧
      d.ReadPacket =
        match readPacket chosen d.R with
        | none => none
        | some (chosen1, r, pkt, err) =>
          some ({ R := r, streams := d.streams.set i chosen1 }, (i : Int), pkt, err) := by
  cases hs : d.streams with
  | nil => exact absurd hs hne
  | cons s rest =>
    obtain ⟨k1, c1, hc, hg, hmin, hfirst⟩ := choose_spec rest [s] s 0 (by simp)
      (by
        intro j x hx
        cases j with
        | zero => simp at hx; rw [hx]
        | succ j => simp at hx)
      (by intro j x hj; omega)
    refine ⟨k1, c1, by simpa using hg, by simpa using hmin, by simpa using hfirst, ?_⟩
    unfold Demuxer.ReadPacket
    rw [hs]
    have hch : choose (s :: rest) 0 none 0 = (some c1, (k1 : Int)) := by
      simp only [choose]
      simpa using hc
    rw [hch]
    dsimp only
    rw [Int.toNat_ofNat]

/-! ## Evaluations on the example tracks -/

theorem twoRunTable_syncWellFormed : SyncWellFormed twoRunTable := by
  intro entries h
  have h2 : entries = [1, 4] := by
    have h3 : twoRunTable.SyncSample = some [1, 4] := rfl
    rw [h3] at h
    exact (Option.some.inj h).symm
  subst h2
  decide

theorem syncTable_wellFormed : WellFormed syncTable where
  chunks := by decide
  first := by decide
  ascending := by unfold Ascending; decide
  bounded := by decide
  positive := by decide
  sttsPositive := by decide
  sttsTotal := by decide
  sizes := Or.inr (by decide)
  ctts := by
    intro entries h _
    have h3 : syncTable.CompositionOffset = none := rfl
    rw [h3] at h
    cases h

theorem syncTable_syncWellFormed : SyncWellFormed syncTable := by
  intro entries h
  have h2 : entries = [1, 3] := by
    have h3 : syncTable.SyncSample = some [1, 3] := rfl
    rw [h3] at h
    exact (Option.some.inj h).symm
  subst h2
  decide

theorem constantChunks_wellFormed : WellFormed constantChunks where
  chunks := by decide
  first := by decide
  ascending := by unfold Ascending; decide
  bounded := by decide
  positive := by decide
  sttsPositive := by decide
  sttsTotal := by decide
  sizes := Or.inl (by decide)
  ctts := by
    intro entries h _
    have h3 : constantChunks.CompositionOffset = none := rfl
    rw [h3] at h
    cases h

/-- C11, the code at the failing input: on a table with one chunk and an empty
sample-to-chunk list, `setSampleIndex` reads `SampleToChunk.Entries[0]` out of
range in the first iteration of its chunk loop, for every sample index: the
run-time panic, not an error value. -/
theorem setSampleIndex_panics_without_runs :
    noRunsTable.SampleToChunk = [] ∧ noRunsTable.ChunkOffset = [0] ∧
    ∀ index : Int, setSampleIndex (newStream noRunsTable 1000 0 ⟨false⟩) index = none := by
  refine ⟨rfl, rfl, ?_⟩
  intro index
  rfl

/-- C12, on samples 3 and 5 of `twoRunTable`, which has 5 samples. -/
theorem setSampleIndex_fails_iff_witness :
    (∃ a, setSampleIndex twoRunStream 3 = some (a, none) ∧ a.sampleIndex = 3) ∧
    (∃ a e, setSampleIndex twoRunStream 5 = some (a, some e) ∧
      a.sampleIndex = twoRunStream.sampleIndex) :=
  ⟨(setSampleIndex_fails_iff twoRunStream 3 twoRunTable_wellFormed).1 (by decide) (by decide),
   (setSampleIndex_fails_iff twoRunStream 5 twoRunTable_wellFormed).2 (Or.inr (by decide))⟩

/-- C13, on `twoRunTable`. -/
theorem exhausted_after_all_samples_witness :
    ∃ s0, setSampleIndex twoRunStream 0 = some (s0, none) ∧
      (∀ k : Nat, (k : Int) < totalSamples twoRunStream.sample →
        ∃ a, advance k s0 = some a ∧ isSampleValid a = true ∧ a.sampleIndex = k ∧
          ReadsInBounds a) ∧
      ∃ a, advance (totalSamples twoRunStream.sample).toNat s0 = some a ∧
        isSampleValid a = false :=
  exhausted_after_all_samples twoRunStream twoRunTable_wellFormed twoRunTable_syncWellFormed rfl

/-- C14 amended, on `specTable` (four samples of 1000 ticks) and the target
tick 2500. -/
theorem timeToSampleIndex_reference_witness :
    ∃ i : Nat, (i : Int) < sttsCount specStream.sample.TimeToSample ∧
      timeToSampleIndexTs specStream 2500 = some (i : Int) ∧
      decodeTime specStream.sample.TimeToSample i ≤ 2500 ∧
      2500 < decodeTime specStream.sample.TimeToSample (i + 1) :=
  let ⟨i, h1, h2, h3, h4, _⟩ :=
    (timeToSampleIndex_reference specStream 2500 rfl (by decide) (by decide) (by decide)
      (by decide) (by decide)).2.2 (by decide) (by decide)
  ⟨i, h1, h2, h3, h4⟩

/-- C15 amended, on `syncTable` and the target tick 2000. -/
theorem timeToSampleIndex_lands_on_sync_witness :
    ∃ r, timeToSampleIndexTs (newStream syncTable 1000 0 ⟨true⟩) 2000 = some r ∧
      r + 1 ∈ [(1 : Int), 3] :=
  (timeToSampleIndex_lands_on_sync (newStream syncTable 1000 0 ⟨true⟩) 2000 [1, 3] rfl rfl
    (by decide) (by decide) (by decide) (by decide) (by decide) (by decide)).1

/-- C16, on sample 2 of `syncTable` and the source `quietSource`. -/
theorem readPacket_keyframe_iff_witness :
    (∃ a b r1 pkt, setSampleIndex (newStream syncTable 1000 0 ⟨true⟩) 2 = some (a, none) ∧
      readPacket a quietSource = some (b, r1, pkt, none) ∧
      (pkt.IsKeyFrame = true ↔ (2 : Int) + 1 ∈ [(1 : Int), 3])) ∧
    (∃ s0 a r0 b r1 pkt, setSampleIndex (newStream syncTable 1000 0 ⟨true⟩) 0 = some (s0, none) ∧
      readMany 2 s0 quietSource = some (a, r0) ∧ a.sampleIndex = 2 ∧
      readPacket a r0 = some (b, r1, pkt, none) ∧
      (pkt.IsKeyFrame = true ↔ (2 : Int) + 1 ∈ [(1 : Int), 3])) :=
  let h := readPacket_keyframe_iff (newStream syncTable 1000 0 ⟨true⟩) quietSource [1, 3] 2
    syncTable_wellFormed syncTable_syncWellFormed rfl (by decide) rfl
    ⟨fun _ => rfl, fun _ _ => rfl⟩ (by decide) (by decide)
  ⟨h.1, h.2.1⟩

/-- C17, on the demuxer `twoTracksAfterOne`. -/
theorem ReadPacket_selects_earliest_witness :
    ∃ (i : Nat) (chosen : Stream), twoTracksAfterOne.streams[i]? = some chosen ∧
      (∀ (j : Nat) (s : Stream), twoTracksAfterOne.streams[j]? = some s →
        tsToTime chosen chosen.dts ≤ tsToTime s s.dts) ∧
      (∀ (j : Nat) (s : Stream), j < i → twoTracksAfterOne.streams[j]? = some s →
        tsToTime chosen chosen.dts < tsToTime s s.dts) ∧
      twoTracksAfterOne.ReadPacket =
        match readPacket chosen twoTracksAfterOne.R with
        | none => none
        | some (chosen1, r, pkt, err) =>
          some ({ R := r, streams := twoTracksAfterOne.streams.set i chosen1 }, (i : Int), pkt,
            err) :=
  ReadPacket_selects_earliest twoTracksAfterOne (List.cons_ne_nil _ _) (by decide)

/-- C18, the code at the failing input: `constantChunks` is well formed with
four samples of constant size 100 in two chunks of two; `setSampleIndex(3)`
succeeds with `chunkIndex = 1`, whose first sample is 2, and
`sampleOffsetInChunk = (3 - 2) * 100`, and that chunk starts at offset 5000;
the following `readPacket` returns end-of-track without a seek or a read. -/
theorem readPacket_constant_size_after_set :
    WellFormed constantChunks ∧ totalSamples constantChunks = 4 ∧
    chunkFirst constantChunks.SampleToChunk 1 = 2 ∧
    samplesInChunk constantChunks.SampleToChunk 2 = 2 ∧
    ∃ a, setSampleIndex (newStream constantChunks 1000 0 ⟨false⟩) 3 = some (a, none) ∧
      a.chunkIndex = 1 ∧ a.sampleOffsetInChunk = (3 - 2) * 100 ∧
      getAt constantChunks.ChunkOffset a.chunkIndex = some 5000 ∧
      readPacket a quietSource = some (a, quietSource, Packet.zero, some Err.EOF) := by
  refine ⟨constantChunks_wellFormed, by decide, by decide, by decide,
    { newStream constantChunks 1000 0 ⟨false⟩ with
      chunkIndex := 1, sampleIndexInChunk := 1, sampleOffsetInChunk := 100, dts := 3000,
      sampleIndexInSttsEntry := 3, sampleIndex := 3 }, by decide, by decide, by decide,
    by decide, ?_⟩
  rfl

theorem decodeTime_succ (es : List TimeToSampleEntry) (i : Nat) (d : Int)
    (h : (durations es)[i]? = some d) : decodeTime es (i + 1) = decodeTime es i + d := by
  unfold decodeTime
  rw [List.take_succ, List.sum_append, h]
  simp

/-- C19, counterexample: on a track of 4294967295 samples in one run of
duration 4294967295, `setSampleIndex(2147483650)` succeeds with the negative
`dts = -9223372030412324866`, while the sum of the first 2147483650 elements of
the run-length expansion is `9223372043297226750`, which is above `2^63`. -/
theorem setSampleIndex_wraps_dts :
    setSampleIndex (newStream longRunTable 1000 0 ⟨false⟩) 2147483650
      = some (longRunCursor, none) ∧
    longRunCursor.dts = -9223372030412324866 ∧
    decodeTime longRunTable.TimeToSample 2147483650 = 9223372043297226750 := by
  refine ⟨by decide, rfl, ?_⟩
  have h : decodeTime longRunTable.TimeToSample 2147483650
      = ((2147483650 : Nat) : Int) * 4294967295 :=
    decodeTime_cons_le ⟨4294967295, 4294967295⟩ [] 2147483650 (by decide)
  rw [h]
  decide

/-- C19 amended: when `setSampleIndex(i)` succeeds on a table whose
time-to-sample runs have positive counts, `i` is not negative and the resulting
`dts` is the sum of the first `i` elements of the run-length expansion
`durations` of the time-to-sample list, reduced to a signed 64-bit integer; the
next `incSampleIndex` succeeds and returns the element at position `i` of that
expansion, and `dts` has then grown by it in 64-bit arithmetic.  When the sums
of the first `i` and of the first `i + 1` elements lie in the range of `int64`,
`dts` is the sum itself and grows by exactly the returned duration. -/
theorem setSampleIndex_dts (s a : Stream) (i : Int)
    (hpos : ∀ e ∈ s.sample.TimeToSample, 0 < e.Count)
    (h : setSampleIndex s i = some (a, none)) :
    0 ≤ i ∧ a.dts = wrap64 (decodeTime s.sample.TimeToSample i.toNat) ∧
    ∃ b d, incSampleIndex a = some (b, d) ∧
      (durations s.sample.TimeToSample)[i.toNat]? = some d ∧ b.dts = wrap64 (a.dts + d) ∧
      (-9223372036854775808 ≤ decodeTime s.sample.TimeToSample i.toNat →
        decodeTime s.sample.TimeToSample i.toNat < 9223372036854775808 →
        -9223372036854775808 ≤ decodeTime s.sample.TimeToSample (i.toNat + 1) →
        decodeTime s.sample.TimeToSample (i.toNat + 1) < 9223372036854775808 →
        a.dts = decodeTime s.sample.TimeToSample i.toNat ∧ b.dts = a.dts + d) := by
  obtain ⟨h0, _, _, hdts, es, b, _, hd, hinc, hb, _⟩ := incSampleIndex_after_set s a i hpos h
  refine ⟨h0, hdts, b, es.Duration, hinc, hd, hb, ?_⟩
  intro h1 h2 h3 h4
  have ha : a.dts = decodeTime s.sample.TimeToSample i.toNat := by
    rw [hdts]
    exact wrap64_eq_self _ h1 h2
  refine ⟨ha, ?_⟩
  rw [hb, ha]
  rw [decodeTime_succ _ _ _ hd] at h3 h4
  exact wrap64_eq_self _ h3 h4

/-- C19 amended, on sample 3 of `twoRunTable`. -/
theorem setSampleIndex_dts_witness :
    setSampleIndex twoRunStream 3 = some (twoRunAt3, none) ∧
    twoRunAt3.dts = wrap64 (decodeTime twoRunStream.sample.TimeToSample 3) ∧
    ∃ b d, incSampleIndex twoRunAt3 = some (b, d) ∧
      (durations twoRunStream.sample.TimeToSample)[3]? = some d ∧
      b.dts = wrap64 (twoRunAt3.dts + d) ∧
      twoRunAt3.dts = decodeTime twoRunStream.sample.TimeToSample 3 ∧
      b.dts = twoRunAt3.dts + d :=
  let ⟨b, d, h1, h2, h3, h4⟩ :=
    (setSampleIndex_dts twoRunStream twoRunAt3 3 (by decide) (by decide)).2.2
  ⟨by decide, by decide, b, d, h1, h2, h3, h4 (by decide) (by decide) (by decide) (by decide)⟩

end Mp4
